import Mathlib

/-!
# Chat relay (`server.cpp`, `client.cpp`): protocol engine

A shallow embedding of the message codec (`SimpleJSON`), the length-prefixed
framing (`sendMessage` / `receiveMessage`), the server registry and router
(`broadcastMessage`, `sendToUser`, `processMessage`), the life of a connection
(`handleClient`, `receiveMessages`) and the file-transfer state machine of both
programs, followed by theorems about them.

Conventions of the embedding:
* a `std::string` is a `List Char`, one `Char` per C++ `char`; a byte of a file is a
  natural number below 256;
* `std::string::npos` is `none`; positions are natural numbers;
* a C++ exception is the `none` of an `Option` result;
* `size_t` is 64 bits wide and `uint32_t` 32 bits wide (`% 2 ^ 64`, `% 2 ^ 32`); an `int`
  is 32 bits wide and wraps round in two's complement (`wrapInt32`);
* what a socket delivers is a list of bytes, read in order until it ends; what the
  server sends is the list of its `sendMessage` calls, each with the outcome the network
  (`net`) gives it;
* the files on disk are a list of paths with their bytes, and creating a file succeeds;
* loops of the source are recursions on a fuel argument that is shown to suffice;
* console output, wall-clock timing (progress display) and the mutexes are left out:
  every function runs as one step.
-/

namespace MyWeb

/-! ## Strings -/

/-- A `std::string`: the list of its `char`s. -/
abbrev Str := List Char

/-- A string literal of the source: the bytes of its UTF-8 text, one `Char` each. -/
def lit (s : String) : Str :=
  s.toUTF8.data.toList.map fun b => Char.ofNat b.toNat

/-- The double quote character. -/
def dq : Char := Char.ofNat 34

/-- The backslash character. -/
def bslash : Char := Char.ofNat 92

/-- `std::string::operator<`: bytewise lexicographic comparison. -/
def strLt : Str → Str → Bool
  | _, [] => false
  | [], _ :: _ => true
  | a :: as, b :: bs =>
    if a.toNat < b.toNat then true
    else if b.toNat < a.toNat then false
    else strLt as bs

/-- The search loop of `std::string::find`: `s` is the text from index `i` on. -/
def findAux (pat : Str) : Str → Nat → Option Nat
  | [], i => if pat.isPrefixOf [] then some i else none
  | c :: cs, i => if pat.isPrefixOf (c :: cs) then some i else findAux pat cs (i + 1)

/-- `s.find(pat, pos)`: the first index `≥ pos` at which `pat` occurs, `none` for `npos`. -/
def find (s pat : Str) (pos : Nat) : Option Nat :=
  if pos ≤ s.length then findAux pat (s.drop pos) pos else none

/-- The search loop of `find_last_of`: the last index holding `c`, scanning from index `i`. -/
def findLastAux (c : Char) : Str → Nat → Option Nat → Option Nat
  | [], _, acc => acc
  | x :: xs, i, acc => findLastAux c xs (i + 1) (if x = c then some i else acc)

/-- `s.find_last_of(c)`: the last index holding `c`, `none` for `npos`. -/
def find_last_of (s : Str) (c : Char) : Option Nat :=
  findLastAux c s 0 none

/-- `s.substr(pos, n)`: throws `std::out_of_range` (here `none`) when `pos > s.size()`. -/
def substr (s : Str) (pos n : Nat) : Option Str :=
  if pos ≤ s.length then some ((s.drop pos).take n) else none

/-- `s.substr(pos)`: the rest of the string from `pos`. -/
def substrFrom (s : Str) (pos : Nat) : Option Str :=
  if pos ≤ s.length then some (s.drop pos) else none

/-! ## `std::map` -/

/-- `map[k] = v` on a `std::map` kept as its entries in ascending key order;
`lt` is the key comparison, keys that are not ordered either way are the same key. -/
def mapSet {κ α : Type} (lt : κ → κ → Bool) (k : κ) (v : α) : List (κ × α) → List (κ × α)
  | [] => [(k, v)]
  | (k', v') :: rest =>
    if lt k k' then (k, v) :: (k', v') :: rest
    else if lt k' k then (k', v') :: mapSet lt k v rest
    else (k, v) :: rest

/-- `map.find(k)`: the entry stored under `k`, `none` for `end()`. -/
def mapFind {κ α : Type} (lt : κ → κ → Bool) (k : κ) : List (κ × α) → Option α
  | [] => none
  | (k', v') :: rest =>
    if lt k k' then none
    else if lt k' k then mapFind lt k rest
    else some v'

/-- `map.erase(k)`. -/
def mapErase {κ α : Type} (lt : κ → κ → Bool) (k : κ) : List (κ × α) → List (κ × α)
  | [] => []
  | (k', v') :: rest =>
    if lt k k' then (k', v') :: rest
    else if lt k' k then (k', v') :: mapErase lt k rest
    else rest

/-- A `std::map<std::string, std::string>`: entries in ascending key order. -/
abbrev StrMap := List (Str × Str)

/-- The representation invariant of a `std::map`: keys strictly ascending. -/
def StrMapOk (m : StrMap) : Prop :=
  m.Pairwise fun a b => strLt a.1 b.1 = true

/-! ## `SimpleJSON` -/

/-- `SimpleJSON::escape`. -/
def escape : Str → Str
  | [] => []
  | c :: cs =>
    (if c = dq then [bslash, dq]
     else if c = bslash then [bslash, bslash]
     else if c = '\n' then [bslash, 'n']
     else if c = '\r' then [bslash, 'r']
     else if c = '\t' then [bslash, 't']
     else [c]) ++ escape cs

/-- `SimpleJSON::unescape`. -/
def unescape : Str → Str
  | [] => []
  | [c] => [c]
  | c :: d :: rest =>
    if c = bslash then
      if d = dq then dq :: unescape rest
      else if d = bslash then bslash :: unescape rest
      else if d = 'n' then '\n' :: unescape rest
      else if d = 'r' then '\r' :: unescape rest
      else if d = 't' then '\t' :: unescape rest
      else c :: unescape (d :: rest)
    else c :: unescape (d :: rest)

/-- The loop of `createMessage` over the metadata entries; `first` is its flag. -/
def metaPairs : Bool → StrMap → Str
  | _, [] => []
  | first, (k, v) :: rest =>
    (if first then [] else [',']) ++
      [dq] ++ escape k ++ [dq, ':', dq] ++ escape v ++ [dq] ++ metaPairs false rest

/-- `SimpleJSON::createMessage`. -/
def createMessage (type data : Str) (metadata : StrMap) : Str :=
  ['\x7b'] ++ (lit "\"type\":\"" ++ escape type ++ lit "\",")
    ++ (lit "\"data\":\"" ++ escape data ++ lit "\",")
    ++ lit "\"metadata\":\x7b"
    ++ metaPairs true metadata
    ++ lit "\x7d\x7d"

/-- `SimpleJSON::ParsedMessage`. -/
structure ParsedMessage where
  type : Str
  data : Str
  metadata : StrMap
deriving DecidableEq, Repr

/-- The `while (pos < metaStr.length())` loop of `parseMessage`, reading one
`"key":"value"` pair per round. Every round moves `pos` forward, so
`metaStr.length` rounds of fuel are never used up. -/
def parsePairs : Nat → Str → Nat → StrMap → Option StrMap
  | 0, _, _, m => some m
  | fuel + 1, metaStr, pos, m =>
    if pos < metaStr.length then
      match find metaStr [dq] pos with
      | none => some m
      | some ks =>
        let keyStart := ks + 1
        match find metaStr [dq] keyStart with
        | none => some m
        | some keyEnd =>
          match find metaStr [dq] (keyEnd + 1) with
          | none => some m
          | some vs =>
            let valueStart := vs + 1
            match find metaStr [dq] valueStart with
            | none => some m
            | some valueEnd =>
              match substr metaStr keyStart (keyEnd - keyStart),
                    substr metaStr valueStart (valueEnd - valueStart) with
              | some key, some value =>
                parsePairs fuel metaStr (valueEnd + 1)
                  (mapSet strLt (unescape key) (unescape value) m)
              | _, _ => none
    else some m

/-- `json.find(marker) + 8` in `size_t` arithmetic: `npos + 8` wraps round to `7`. -/
def findPlus8 (json marker : Str) : Nat :=
  match find json marker 0 with
  | some i => i + 8
  | none => 7

/-- `SimpleJSON::parseMessage`; `none` stands for an exception leaving the function. -/
def parseMessage (json : Str) : Option ParsedMessage :=
  let typeStart := findPlus8 json (lit "\"type\":\"")
  let type? : Option Str :=
    match find json [dq] typeStart with
    | some typeEnd => (substr json typeStart (typeEnd - typeStart)).map unescape
    | none => some []
  let dataStart := findPlus8 json (lit "\"data\":\"")
  let dataEnd :=
    match find json (lit "\",\"metadata\"") dataStart with
    | some e => some e
    | none => find json (lit "\"\x7d") dataStart
  let data? : Option Str :=
    match dataEnd with
    | some e => (substr json dataStart (e - dataStart)).map unescape
    | none => some []
  let meta? : Option StrMap :=
    match find json (lit "\"metadata\":\x7b") 0 with
    | some ms =>
      let metaStart := ms + 12
      match find json (lit "\x7d\x7d") metaStart with
      | some metaEnd =>
        match substr json metaStart (metaEnd - metaStart) with
        | some metaStr => parsePairs metaStr.length metaStr 0 []
        | none => none
      | none => some []
    | none => some []
  match type?, data?, meta? with
  | some t, some d, some m => some ⟨t, d, m⟩
  | _, _, _ => none


/-! ## Framing: `sendMessage` and `receiveMessage` on a byte stream -/

/-- The memory image of `htonl(n)`: the four bytes of a 32-bit value, most significant
first. -/
def be32 (n : Nat) : Str :=
  [Char.ofNat (n / 2 ^ 24 % 256), Char.ofNat (n / 2 ^ 16 % 256),
   Char.ofNat (n / 2 ^ 8 % 256), Char.ofNat (n % 256)]

/-- `ntohl` of the four bytes received into `size`. -/
def ntohl : Str → Nat
  | [b0, b1, b2, b3] => ((b0.toNat * 256 + b1.toNat) * 256 + b2.toNat) * 256 + b3.toNat
  | _ => 0

/-- The bytes a successful `sendMessage` puts on the socket for the text `json_msg`:
`htonl(json_msg.size())` (the size cut to `uint32_t`), then the text. -/
def frameBytes (json_msg : Str) : Str :=
  be32 (json_msg.length % 2 ^ 32) ++ json_msg

/-- The bytes successive `sendMessage` calls put on the socket. -/
def wireOf (bodies : List Str) : Str :=
  (bodies.map frameBytes).flatten

/-- `recv(socket, buf, n, MSG_WAITALL)` on a stream that delivers its bytes in order and
then ends: the bytes read (fewer than `n` only at the end of the stream) and the rest. -/
def recvAll (n : Nat) (stream : Str) : Str × Str :=
  (stream.take n, stream.drop n)

/-- The first half of `receiveMessage`: read the length, refuse more than 1 MiB, read
the body `json_data`. Returns the body (`none` for `return false`) and the unread rest
of the stream. -/
def readFrame (stream : Str) : Option Str × Str :=
  let hdr := recvAll 4 stream
  if hdr.1.length ≠ 4 then (none, hdr.2)
  else
    let size := ntohl hdr.1
    if size > 1024 * 1024 then (none, hdr.2)
    else
      let body := recvAll size hdr.2
      if body.1.length ≠ size then (none, body.2)
      else (some body.1, body.2)

/-- `receiveMessage` (server and client alike): the frame read, then `parseMessage`;
an exception is caught and turned into `return false`. -/
def receiveMessage (stream : Str) : Option ParsedMessage × Str :=
  match readFrame stream with
  | (some json_data, rest) => (parseMessage json_data, rest)
  | (none, rest) => (none, rest)

/-- Successive frame reads: `n` calls, the bodies read and the unread rest. -/
def readFrames : Nat → Str → List (Option Str) × Str
  | 0, stream => ([], stream)
  | n + 1, stream =>
    let r := readFrame stream
    let rs := readFrames n r.2
    (r.1 :: rs.1, rs.2)

/-! ## Numbers and their text -/

/-- An `int` after an arithmetic step: the value wrapped into `[-2^31, 2^31)`, which is
what two's-complement hardware leaves in the variable. -/
def wrapInt32 (x : Int) : Int :=
  (x + 2 ^ 31) % 2 ^ 32 - 2 ^ 31

/-- The character of a digit value below 16, lower case as `%x` prints it. -/
def hexDigit (d : Nat) : Char :=
  if d < 10 then Char.ofNat (48 + d) else Char.ofNat (87 + d)

/-- The decimal digits of `n` in front of `ds`, most significant first. -/
def natDigits : Nat → Nat → Str → Str
  | 0, _, ds => ds
  | fuel + 1, n, ds =>
    if n / 10 = 0 then hexDigit (n % 10) :: ds
    else natDigits fuel (n / 10) (hexDigit (n % 10) :: ds)

/-- `std::to_string` of an unsigned value (`size_t`). -/
def to_string_nat (n : Nat) : Str :=
  natDigits (n + 1) n []

/-- `std::to_string` of an `int`. -/
def to_string_int (i : Int) : Str :=
  if i < 0 then '-' :: to_string_nat i.natAbs else to_string_nat i.toNat

/-- `isspace` in the C locale. -/
def isSpace (c : Char) : Bool :=
  c = ' ' || c = '\t' || c = '\n' || c = Char.ofNat 11 || c = Char.ofNat 12 || c = '\r'

/-- The value of a character as a digit (of any base up to 36), if it is one. -/
def digitVal (c : Char) : Option Nat :=
  if 48 ≤ c.toNat ∧ c.toNat ≤ 57 then some (c.toNat - 48)
  else if 97 ≤ c.toNat ∧ c.toNat ≤ 122 then some (c.toNat - 87)
  else if 65 ≤ c.toNat ∧ c.toNat ≤ 90 then some (c.toNat - 55)
  else none

/-- The longest run of digits of the base at the front of the text: how many there are
and their value. -/
def readDigits (base : Nat) : Str → Nat → Nat → Nat × Nat
  | [], cnt, acc => (cnt, acc)
  | c :: cs, cnt, acc =>
    match digitVal c with
    | some d => if d < base then readDigits base cs (cnt + 1) (acc * base + d) else (cnt, acc)
    | none => (cnt, acc)

/-- The sign that `strtoul` reads after the white space: whether it is a minus, and the
text after it. -/
def readSign : Str → Bool × Str
  | '-' :: r => (true, r)
  | '+' :: r => (false, r)
  | s => (false, s)

/-- The `0x` or `0X` that `strtoul` skips in base 16 when a hexadecimal digit follows. -/
def skipHexMark (base : Nat) : Str → Str
  | '0' :: x :: h :: r =>
    if base = 16 ∧ (x = 'x' ∨ x = 'X') ∧ (digitVal h).any (· < 16) then h :: r
    else '0' :: x :: h :: r
  | s => s

/-- `std::stoul(s, nullptr, base)` and `std::stoull`, for base 10 or 16: white space, an
optional sign, in base 16 an optional `0x`, then the longest run of digits. Throws
(`none`) `std::invalid_argument` when there is no digit and `std::out_of_range` when the
value does not fit 64 bits; a minus sign negates in 64-bit unsigned arithmetic. -/
def stoul (s : Str) (base : Nat) : Option Nat :=
  let signed := readSign (s.dropWhile isSpace)
  let r := readDigits base (skipHexMark base signed.2) 0 0
  if r.1 = 0 then none
  else if 2 ^ 64 ≤ r.2 then none
  else some (if signed.1 then (2 ^ 64 - r.2) % 2 ^ 64 else r.2)

/-- The two characters `snprintf(hex, 3, "%02x", (unsigned char) b)` writes. -/
def hexOf (b : Nat) : Str :=
  [hexDigit (b % 256 / 16), hexDigit (b % 256 % 16)]

/-- The hexadecimal text of a buffer: the loop that fills `hex_data`. -/
def hexEncode : List Nat → Str
  | [] => []
  | b :: bs => hexOf b ++ hexEncode bs

/-- The decoding loop of the server's `saveFileChunk`: two characters at a time through
`std::stoul(.., 16)` and a cast to `uint8_t`; a last odd character is decoded alone. -/
def hexDecodeServer : Str → Option (List Nat)
  | [] => some []
  | [a] => (stoul [a] 16).map fun v => [v % 256]
  | a :: b :: rest =>
    match stoul [a, b] 16, hexDecodeServer rest with
    | some v, some vs => some (v % 256 :: vs)
    | _, _ => none

/-- The decoding loop of the client's `receiveFileChunk`: as the server's, but it stops
(`break`) at a last odd character. -/
def hexDecodeClient : Str → Option (List Nat)
  | [] => some []
  | [_] => some []
  | a :: b :: rest =>
    match stoul [a, b] 16, hexDecodeClient rest with
    | some v, some vs => some (v % 256 :: vs)
    | _, _ => none

/-! ## Shared records -/

/-- The constants of `MessageType`. -/
def MessageType.TEXT : Str := lit "TEXT"
/-- The `FILE` constant of `MessageType`. -/
def MessageType.FILE : Str := lit "FILE"
/-- The `FILE_DATA` constant of `MessageType`. -/
def MessageType.FILE_DATA : Str := lit "FILE_DATA"
/-- The `FILE_COMPLETE` constant of `MessageType`. -/
def MessageType.FILE_COMPLETE : Str := lit "FILE_COMPLETE"
/-- The `USER_JOIN` constant of `MessageType`. -/
def MessageType.USER_JOIN : Str := lit "USER_JOIN"
/-- The `USER_LEAVE` constant of `MessageType`. -/
def MessageType.USER_LEAVE : Str := lit "USER_LEAVE"
/-- The `ERROR` constant of `MessageType`. -/
def MessageType.ERROR : Str := lit "ERROR"

/-- `metadata.count(k) ? metadata.at(k) : dflt`. -/
def metaOr (metadata : StrMap) (k dflt : Str) : Str :=
  (mapFind strLt k metadata).getD dflt

/-! ## The file system

The program reaches the file system through `access(file_path.c_str(), F_OK)` and
`std::ofstream::open(file_path)`, on paths it forms as `./files/downloads/<name>` and
`./files/received/<name>`. Both calls hand the kernel a C string, and the kernel walks
it component by component (Linux is the system modelled). The directories are those
`mkdir -p` leaves behind: the working directory holds `files`, which holds `downloads`
and `received`. There is no other directory and no symbolic link, and the working
directory is the root, so `..` there leads back to it. -/

/-- The regular files on disk: each under the path of its directory, `/` and its name,
with the bytes stored in it. -/
abbrev FS := List (Str × List Nat)

/-- The NUL byte. -/
def NUL : Char := Char.ofNat 0

/-- `s.c_str()` as a C function reads it: the bytes of `s` before its first NUL byte. -/
def c_str (s : Str) : Str :=
  s.takeWhile fun c => c != NUL

/-- `NAME_MAX`: the most bytes one component of a path may have (255 on Linux). -/
def NAME_MAX : Nat := 255

/-- `PATH_MAX`: a path of this many bytes or more is refused (4096 on Linux, the
closing NUL byte counted). -/
def PATH_MAX : Nat := 4096

/-- The directories there are. -/
inductive Dir where
  /-- The working directory. -/
  | cwd
  /-- The directory `./files`. -/
  | files
  /-- The directory `./files/downloads`. -/
  | downloads
  /-- The directory `./files/received`. -/
  | received
deriving DecidableEq, Repr

/-- The path of a directory. -/
def Dir.text : Dir → Str
  | .cwd => lit "."
  | .files => lit "./files"
  | .downloads => lit "./files/downloads"
  | .received => lit "./files/received"

/-- What `..` names in a directory. -/
def Dir.parent : Dir → Dir
  | .cwd => .cwd
  | .files => .cwd
  | .downloads => .files
  | .received => .files

/-- The directory a name stands for in a directory, if it stands for one. -/
def Dir.child (d : Dir) (name : Str) : Option Dir :=
  if d = .cwd ∧ name = lit "files" then some .files
  else if d = .files ∧ name = lit "downloads" then some .downloads
  else if d = .files ∧ name = lit "received" then some .received
  else none

/-- What the kernel makes of a path: a directory; an entry of a directory that is not a
directory itself (a regular file, or a name not in use); or nothing, when the walk fails
(`ENOENT`, `ENOTDIR`, `ENAMETOOLONG`). -/
inductive Named where
  | dir (d : Dir)
  | entry (d : Dir) (name : Str)
  | nothing
deriving DecidableEq, Repr

/-- One component of the walk. In a directory the empty component (two `/` in a row, or
a `/` at the end) and `.` stay there, `..` goes to the parent, a component longer than
`NAME_MAX` fails, and any other name is the directory of that name or an entry. Below
an entry that is not a directory every component fails. -/
def Named.step (cur : Named) (component : Str) : Named :=
  match cur with
  | .dir d =>
    if component = [] ∨ component = lit "." then .dir d
    else if component = lit ".." then .dir d.parent
    else if component.length > NAME_MAX then .nothing
    else
      match d.child component with
      | some d1 => .dir d1
      | none => .entry d component
  | _ => .nothing

/-- The walk over the bytes of a path, from a place and the component read so far. -/
def scanPath (start : Named × Str) (path : Str) : Named × Str :=
  path.foldl
    (fun acc c => if c = '/' then (acc.1.step acc.2, []) else (acc.1, acc.2 ++ [c])) start

/-- What a C path names, walked from the working directory. -/
def namei (path : Str) : Named :=
  if path = [] ∨ PATH_MAX ≤ path.length then .nothing
  else
    let r := scanPath (.dir .cwd, []) path
    r.1.step r.2

/-- The listing of the directories: a regular file is stored under this path. -/
def fsHas (fs : FS) (key : Str) : Bool :=
  fs.any fun e => e.1 = key

/-- `access(path.c_str(), F_OK) == 0`: the C string names a directory or a regular
file. -/
def fsExists (fs : FS) (path : Str) : Bool :=
  match namei (c_str path) with
  | .dir _ => true
  | .entry d name => fsHas fs (d.text ++ lit "/" ++ name)
  | .nothing => false

/-- The bytes stored at a path. -/
def fsRead (fs : FS) (path : Str) : Option (List Nat) :=
  (fs.find? fun e => e.1 = path).map Prod.snd

/-- Store `bytes` at `path`, replacing what was there. -/
def fsPut (fs : FS) (path : Str) (bytes : List Nat) : FS :=
  (path, bytes) :: fs.filter fun e => e.1 ≠ path

/-- A `std::ofstream`: the path it is open on, and its failure flag (while set, every
write is dropped). -/
structure OFStream where
  path : Option Str
  fail : Bool
deriving DecidableEq, Repr

/-- A default-constructed `std::ofstream`. -/
def OFStream.closed : OFStream := ⟨none, false⟩

/-- `file_handle.open(path, std::ios::binary)`: on a stream that is already open the
call fails and sets the failure flag. Otherwise the C string of the path is walked: an
entry of a directory is created empty (or cut to nothing) and the stream is open on it;
on a directory, and where the walk fails, nothing is created, the stream stays closed
and its failure flag is set. The code does not look at the outcome. -/
def OFStream.openOn (h : OFStream) (fs : FS) (path : Str) : OFStream × FS :=
  match h.path with
  | some _ => ({ h with fail := true }, fs)
  | none =>
    match namei (c_str path) with
    | .entry d name =>
      (⟨some (d.text ++ lit "/" ++ name), false⟩, fsPut fs (d.text ++ lit "/" ++ name) [])
    | _ => ({ h with fail := true }, fs)

/-- `file_handle.write(bytes)`: appends to the open file unless the failure flag is set. -/
def OFStream.write (h : OFStream) (fs : FS) (bytes : List Nat) : FS :=
  match h.path, h.fail with
  | some p, false => fsPut fs p ((fsRead fs p).getD [] ++ bytes)
  | _, _ => fs

/-- `file_handle.close()`. -/
def OFStream.close (h : OFStream) : OFStream :=
  match h.path with
  | some _ => { h with path := none }
  | none => { h with fail := true }

/-- The position after the last `/` of a path: `find_last_of('/') + 1`, where
`npos + 1` wraps round to `0`. -/
def afterLastSlash (file_path : Str) : Nat :=
  match find_last_of file_path '/' with
  | some i => i + 1
  | none => 0

/-- The name tried when the target exists: `_<counter>` goes in front of the last `.` of
`filename`, or at its end when it has no `.`; `stem` is what precedes `filename` in the
path (the directory, on the server also the user name). -/
def numberedName (stem filename : Str) (counter : Int) : Option Str :=
  match find_last_of filename '.' with
  | some dot_pos =>
    match substr filename 0 dot_pos, substrFrom filename dot_pos with
    | some name, some ext => some (stem ++ name ++ lit "_" ++ to_string_int counter ++ ext)
    | _, _ => none
  | none => some (stem ++ filename ++ lit "_" ++ to_string_int counter)

/-- The loop `while (access(file_path.c_str(), F_OK) == 0)` of `startFileReception` and
`prepareFileReception`, with `int counter`. `none` when a `substr` throws or when the
loop does not come to an end within the fuel. -/
def resolveLoop (fs : FS) (stem filename : Str) : Nat → Int → Str → Option Str
  | 0, _, _ => none
  | fuel + 1, counter, file_path =>
    if fsExists fs file_path then
      match numberedName stem filename counter with
      | some next => resolveLoop fs stem filename fuel (wrapInt32 (counter + 1)) next
      | none => none
    else some file_path

/-- The path under which a received file is stored: `stem ++ filename` when nothing is
there, else the first numbered name that is free. The loop leaves at the first path
that does not exist; `fs.length + 2` rounds are more than it can take unless every
path it can form exists, and then it never ends: so it is when a NUL byte in front of
the counter makes every path the same C string. -/
def resolvePath (fs : FS) (stem filename : Str) : Option Str :=
  resolveLoop fs stem filename (fs.length + 2) 1 (stem ++ filename)

/-! ## The server -/

/-- `ClientInfo`; `connect_time` is the reading of a clock that ticks at every
registration. -/
structure ClientInfo where
  username : Str
  address : Str
  connect_time : Nat
deriving DecidableEq, Repr

/-- The server's `FileTransfer` (`start_time` left out). -/
structure FileTransfer where
  filename : Str
  filepath : Str
  expected_size : Nat
  received : Nat
  username : Str
  file_handle : OFStream
  chunk_count : Int
deriving DecidableEq, Repr

/-- One call of the server's `sendMessage`: the socket, the envelope, and whether the
call returned `true`. -/
structure Sent where
  socket : Int
  type : Str
  data : Str
  metadata : StrMap
  ok : Bool
deriving DecidableEq, Repr

/-- The comparison of the `std::map<int, _>` keys. -/
def intLt (a b : Int) : Bool := decide (a < b)

/-- The state of `ChatServer` and of its surroundings: the registry `clients`, the map
`file_transfers`, the files on disk, every `sendMessage` call made so far, and the
clock. -/
structure Server where
  clients : List (Int × ClientInfo)
  file_transfers : List (Int × FileTransfer)
  fs : FS
  sent : List Sent
  clock : Nat
deriving DecidableEq, Repr

/-- A server with nobody connected. -/
def Server.init (fs : FS) : Server := ⟨[], [], fs, [], 0⟩

/-- The server's `sendMessage`: one more call on record. Whether the socket takes the
bytes is up to the network: `net n` tells if the call number `n` succeeds. -/
def sendMessage (net : Nat → Bool) (st : Server) (socket : Int) (type data : Str)
    (metadata : StrMap) : Bool × Server :=
  let ok := net st.sent.length
  (ok, { st with sent := st.sent ++ [⟨socket, type, data, metadata, ok⟩] })

/-- A network on which every send succeeds. -/
def netUp : Nat → Bool := fun _ => true

/-- The loop of `broadcastMessage` over the registry. -/
def broadcastLoop (net : Nat → Bool) (type data : Str) (metadata : StrMap)
    (exclude_socket : Int) : List (Int × ClientInfo) → Server → Server
  | [], st => st
  | pair :: rest, st =>
    if pair.1 ≠ exclude_socket then
      broadcastLoop net type data metadata exclude_socket rest
        (sendMessage net st pair.1 type data metadata).2
    else broadcastLoop net type data metadata exclude_socket rest st

/-- `ChatServer::broadcastMessage`. -/
def broadcastMessage (net : Nat → Bool) (st : Server) (type data : Str) (metadata : StrMap)
    (exclude_socket : Int) : Server :=
  broadcastLoop net type data metadata exclude_socket st.clients st

/-- `ChatServer::sendToUser`: the first registry entry, in the order of the map, whose
user name is the one asked for. -/
def sendToUser (net : Nat → Bool) (st : Server) (username type data : Str)
    (metadata : StrMap) : Bool × Server :=
  match st.clients.find? fun pair => pair.2.username = username with
  | some pair => sendMessage net st pair.1 type data metadata
  | none => (false, st)

/-- `ChatServer::prepareFileReception`; `none` when the naming loop is never left. The
outcome of `open` is not looked at: the session is entered whether or not a file has
been opened. -/
def prepareFileReception (st : Server) (client_socket : Int) (filename : Str)
    (file_size : Nat) (username : Str) : Option Server :=
  match resolvePath st.fs (lit "./files/received" ++ lit "/" ++ (username ++ lit "_")) filename with
  | none => none
  | some file_path =>
    let old : OFStream :=
      match mapFind intLt client_socket st.file_transfers with
      | some t => t.file_handle
      | none => OFStream.closed
    let opened := old.openOn st.fs file_path
    some { st with
      file_transfers := mapSet intLt client_socket
        ⟨filename, file_path, file_size, 0, username, opened.1, 0⟩ st.file_transfers
      fs := opened.2 }

/-- `ChatServer::saveFileChunk`; `none` when `std::stoul` throws. -/
def saveFileChunk (st : Server) (client_socket : Int) (hex_data : Str) : Option Server :=
  match mapFind intLt client_socket st.file_transfers with
  | none => some st
  | some transfer =>
    match hexDecodeServer hex_data with
    | none => none
    | some bytes =>
      some { st with
        fs := transfer.file_handle.write st.fs bytes
        file_transfers := mapSet intLt client_socket
          { transfer with
            received := (transfer.received + bytes.length) % 2 ^ 64
            chunk_count := wrapInt32 (transfer.chunk_count + 1) } st.file_transfers }

/-- `ChatServer::completeFileReception`. -/
def completeFileReception (st : Server) (client_socket : Int) : Server :=
  match mapFind intLt client_socket st.file_transfers with
  | none => st
  | some _ => { st with file_transfers := mapErase intLt client_socket st.file_transfers }

/-- `ChatServer::processMessage`; `none` when an exception leaves it, and when the
naming loop of `prepareFileReception` is never left. -/
def processMessage (net : Nat → Bool) (st : Server) (client_socket : Int)
    (msg : ParsedMessage) (username : Str) : Option Server :=
  if msg.type = MessageType.TEXT then
    let formatted_msg := username ++ lit ": " ++ msg.data
    let broadcast :=
      some (broadcastMessage net st MessageType.TEXT formatted_msg [] client_socket)
    if msg.data ≠ [] ∧ msg.data.head? = some '@' then
      match find msg.data [' '] 0 with
      | some space_pos =>
        match substr msg.data 1 (space_pos - 1), substrFrom msg.data (space_pos + 1) with
        | some target_user, some rest =>
          let private_msg := lit "[私信来自 " ++ username ++ lit "]: " ++ rest
          let r := sendToUser net st target_user MessageType.TEXT private_msg []
          if r.1 then some r.2
          else
            let error_msg := lit "用户 '" ++ target_user ++ lit "' 不在线"
            some (sendMessage net r.2 client_socket MessageType.ERROR error_msg []).2
        | _, _ => none
      | none => broadcast
    else broadcast
  else if msg.type = MessageType.FILE then
    let filename := metaOr msg.metadata (lit "filename") (lit "unknown_file")
    let file_size? : Option Nat :=
      match mapFind strLt (lit "size") msg.metadata with
      | some s => stoul s 10
      | none => some 0
    match file_size? with
    | none => none
    | some file_size =>
      match prepareFileReception st client_socket filename file_size username with
      | none => none
      | some st1 =>
        some (broadcastMessage net st1 MessageType.FILE msg.data msg.metadata client_socket)
  else if msg.type = MessageType.FILE_DATA then
    match saveFileChunk st client_socket msg.data with
    | none => none
    | some st1 =>
      some (broadcastMessage net st1 MessageType.FILE_DATA msg.data msg.metadata client_socket)
  else if msg.type = MessageType.FILE_COMPLETE then
    let filename := metaOr msg.metadata (lit "filename") (lit "unknown_file")
    let st1 := completeFileReception st client_socket
    let complete_msg := lit "用户 '" ++ username ++ lit "' 分享了文件: " ++ filename
    let st2 := broadcastMessage net st1 MessageType.TEXT complete_msg [] client_socket
    some (broadcastMessage net st2 MessageType.FILE_COMPLETE msg.data msg.metadata client_socket)
  else some st

/-- The registration of `handleClient`: `first` is what the first `receiveMessage` gave.
Without a `USER_JOIN` the socket is closed and nothing else happens (`none`); otherwise
the user name is entered in the registry, the others are told, the newcomer is
welcomed, and the user name is returned. -/
def handleClientJoin (net : Nat → Bool) (st : Server) (client_socket : Int)
    (client_address : Str) (first : Option ParsedMessage) : Option (Str × Server) :=
  match first with
  | none => none
  | some msg =>
    if msg.type ≠ MessageType.USER_JOIN then none
    else
      let username :=
        if msg.data = [] then lit "User_" ++ to_string_int client_socket else msg.data
      let st1 : Server :=
        { st with
          clients := mapSet intLt client_socket ⟨username, client_address, st.clock⟩ st.clients
          clock := st.clock + 1 }
      let join_msg := lit "用户 '" ++ username ++ lit "' 加入了聊天室"
      let st2 := broadcastMessage net st1 MessageType.USER_JOIN join_msg [] client_socket
      let online_count := st2.clients.length
      let welcome_msg :=
        lit "欢迎加入聊天室！当前在线用户数: " ++ to_string_int (wrapInt32 online_count)
      some (username, (sendMessage net st2 client_socket MessageType.TEXT welcome_msg []).2)

/-- `ChatServer::disconnectClient`. -/
def disconnectClient (net : Nat → Bool) (st : Server) (client_socket : Int)
    (username : Str) : Server :=
  let st1 : Server :=
    { st with
      file_transfers := mapErase intLt client_socket st.file_transfers
      clients := mapErase intLt client_socket st.clients }
  if username ≠ [] then
    let leave_msg := lit "用户 '" ++ username ++ lit "' 离开了聊天室"
    broadcastMessage net st1 MessageType.USER_LEAVE leave_msg [] (-1)
  else st1

/-! ## The client -/

/-- The client's `FileReceive` (`start_time` and `last_update` left out). -/
structure FileReceive where
  filename : Str
  filepath : Str
  expected_size : Nat
  received : Nat
  sender : Str
  file_handle : OFStream
  chunk_count : Int
deriving DecidableEq, Repr

/-- The receiving side of `ChatClient`: `current_file` (`none` for `nullptr`) and the
files on disk. -/
structure Client where
  current_file : Option FileReceive
  fs : FS
deriving DecidableEq, Repr

/-- `ChatClient::startFileReception`; `none` when the naming loop is never left. The
outcome of `open` is not looked at. -/
def startFileReception (st : Client) (filename : Str) (file_size : Nat) (sender : Str) :
    Option Client :=
  match resolvePath st.fs (lit "./files/downloads" ++ lit "/") filename with
  | none => none
  | some file_path =>
    let opened := OFStream.closed.openOn st.fs file_path
    some ⟨some ⟨filename, file_path, file_size, 0, sender, opened.1, 0⟩, opened.2⟩

/-- `ChatClient::receiveFileChunk`; `none` when `std::stoul` throws. -/
def receiveFileChunk (st : Client) (hex_data : Str) : Option Client :=
  match st.current_file with
  | none => some st
  | some cur =>
    match hexDecodeClient hex_data with
    | none => none
    | some bytes =>
      some ⟨some { cur with
          received := (cur.received + bytes.length) % 2 ^ 64
          chunk_count := wrapInt32 (cur.chunk_count + 1) },
        cur.file_handle.write st.fs bytes⟩

/-- `ChatClient::completeFileReception`. -/
def ChatClient.completeFileReception (st : Client) : Client :=
  match st.current_file with
  | none => st
  | some _ => { st with current_file := none }

/-- `ChatClient::processReceivedMessage`; `none` when an exception leaves it, and when
the naming loop of `startFileReception` is never left. -/
def processReceivedMessage (st : Client) (msg : ParsedMessage) : Option Client :=
  if msg.type = MessageType.TEXT then some st
  else if msg.type = MessageType.USER_JOIN ∨ msg.type = MessageType.USER_LEAVE then some st
  else if msg.type = MessageType.FILE then
    let filename := metaOr msg.metadata (lit "filename") (lit "unknown_file")
    let file_size? : Option Nat :=
      match mapFind strLt (lit "size") msg.metadata with
      | some s => stoul s 10
      | none => some 0
    let sender := metaOr msg.metadata (lit "sender") (lit "Unknown")
    match file_size? with
    | none => none
    | some file_size => startFileReception st filename file_size sender
  else if msg.type = MessageType.FILE_DATA ∧ st.current_file.isSome then
    receiveFileChunk st msg.data
  else if msg.type = MessageType.FILE_COMPLETE ∧ st.current_file.isSome then
    some (ChatClient.completeFileReception st)
  else some st

/-- A run of the client's receive loop over decoded envelopes. -/
def clientRun : Client → List ParsedMessage → Option Client
  | st, [] => some st
  | st, msg :: rest =>
    match processReceivedMessage st msg with
    | some st1 => clientRun st1 rest
    | none => none

/-- A run of the server's `processMessage` over the decoded envelopes of one
connection. -/
def serverRun (net : Nat → Bool) (client_socket : Int) (username : Str) :
    Server → List ParsedMessage → Option Server
  | st, [] => some st
  | st, msg :: rest =>
    match processMessage net st client_socket msg username with
    | some st1 => serverRun net client_socket username st1 rest
    | none => none

/-! ## Sending a file -/

/-- One call of the client's `sendMessage`: the envelope and whether the call returned
`true`. -/
abbrev Attempt := ParsedMessage × Bool

/-- The metadata of a `FILE_DATA` envelope. -/
def chunkMetadata (bytes_sent file_size : Nat) (chunk_count : Int) : StrMap :=
  mapSet strLt (lit "chunk_index") (to_string_int chunk_count)
    (mapSet strLt (lit "total_size") (to_string_nat file_size)
      (mapSet strLt (lit "bytes_sent") (to_string_nat bytes_sent) []))

/-- The metadata of the `FILE` envelope. -/
def fileMetadata (filename : Str) (file_size : Nat) (sender : Str) : StrMap :=
  mapSet strLt (lit "sender") sender
    (mapSet strLt (lit "size") (to_string_nat file_size)
      (mapSet strLt (lit "filename") filename []))

/-- The metadata of the `FILE_COMPLETE` envelope. -/
def completeMetadata (filename : Str) (file_size : Nat) (chunk_count : Int) : StrMap :=
  mapSet strLt (lit "chunk_count") (to_string_int chunk_count)
    (mapSet strLt (lit "total_size") (to_string_nat file_size)
      (mapSet strLt (lit "filename") filename []))

/-- The loop `while (bytes_sent < file_size)` of `ChatClient::sendFile`: `file` is what
is still unread of the file, `log` the `sendMessage` calls made so far. Returns whether
the function goes on after the loop (`false` for the `return` after a failed send),
`chunk_count`, and the calls. Every round that goes on reads at least one byte. -/
def sendFileLoop (net : Nat → Bool) (file_size : Nat) :
    Nat → List Nat → Nat → Int → List Attempt → Bool × Int × List Attempt
  | 0, _, _, chunk_count, log => (true, chunk_count, log)
  | fuel + 1, file, bytes_sent, chunk_count, log =>
    if bytes_sent < file_size then
      let buffer := file.take 8192
      let bytes_read := buffer.length
      if bytes_read = 0 then (true, chunk_count, log)
      else
        let hex_data := hexEncode buffer
        let ok := net log.length
        let log1 := log ++ [(⟨MessageType.FILE_DATA, hex_data,
          chunkMetadata bytes_sent file_size chunk_count⟩, ok)]
        if ok then
          sendFileLoop net file_size fuel (file.drop 8192) ((bytes_sent + bytes_read) % 2 ^ 64)
            (wrapInt32 (chunk_count + 1)) log1
        else (false, chunk_count, log1)
    else (true, chunk_count, log)

/-- `ChatClient::sendFile` on a file that exists and can be read: `file` is its
content, its size (what `stat` reports) is `file.length`. Returns the `sendMessage`
calls made. -/
def sendFile (net : Nat → Bool) (username file_path : Str) (file : List Nat) :
    List Attempt :=
  let filename := file_path.drop (afterLastSlash file_path)
  let file_size := file.length
  let ok := net 0
  let log : List Attempt :=
    [(⟨MessageType.FILE, [], fileMetadata filename file_size username⟩, ok)]
  if ok then
    let r := sendFileLoop net file_size (file.length + 1) file 0 0 log
    if r.1 then
      r.2.2 ++ [(⟨MessageType.FILE_COMPLETE, [],
        completeMetadata filename file_size r.2.1⟩, net r.2.2.length)]
    else r.2.2
  else log

/-- The envelopes the send side produces for a file when every send succeeds. -/
def sentEnvelopes (username file_path : Str) (file : List Nat) : List ParsedMessage :=
  (sendFile netUp username file_path file).map Prod.fst

/-! ## Predicates used in the statements -/

/-- The five characters that `escape` rewrites. -/
def isEscaped (c : Char) : Bool :=
  c = dq || c = bslash || c = '\n' || c = '\r' || c = '\t'

/-- A string free of the five escaped characters. -/
def Plain (s : Str) : Prop :=
  ∀ c ∈ s, isEscaped c = false

instance (s : Str) : Decidable (Plain s) := by
  unfold Plain; infer_instance

instance (m : StrMap) : Decidable (StrMapOk m) := by
  unfold StrMapOk; infer_instance

/-- The text `}}` that `parseMessage` takes for the end of the metadata object. -/
def closers : Str := ['\x7d', '\x7d']

/-- The entries `parsePairs` stores for the pairs text of `createMessage`: every
pair of the map, in order, each through `unescape ∘ escape`. -/
def storePairs (acc : StrMap) (m : StrMap) : StrMap :=
  m.foldl (fun a p => mapSet strLt (unescape (escape p.1)) (unescape (escape p.2)) a) acc

/-- The fixed text `createMessage` writes before the escaped type: `{"type":"`. -/
def jsonHead : Str := ['\x7b', dq, 't', 'y', 'p', 'e', dq, ':', dq]

/-- The fixed text between the escaped type and the escaped data: `","data":"`. -/
def jsonMid1 : Str := [dq, ',', dq, 'd', 'a', 't', 'a', dq, ':', dq]

/-- The fixed text between the escaped data and the pairs: `","metadata":{`. -/
def jsonMid2 : Str :=
  [dq, ',', dq, 'm', 'e', 't', 'a', 'd', 'a', 't', 'a', dq, ':', '\x7b']

/-- Two texts differ at a position both have. -/
def clash : Str → Str → Bool
  | p :: ps, t :: ts => p != t || clash ps ts
  | _, _ => false

/-- The pattern clashes with every non-empty end piece of `a`: it cannot start inside `a`,
whatever follows. -/
def clashAll (pat : Str) : Str → Bool
  | [] => true
  | x :: xs => clash pat (x :: xs) && clashAll pat xs

/-! ## Bookkeeping for the statements about the server -/

/-- The representation invariant of the registry `std::map<int, ClientInfo>`: socket
numbers strictly ascending. -/
def ClientsOk (clients : List (Int × ClientInfo)) : Prop :=
  clients.Pairwise fun a b => a.1 < b.1

instance (clients : List (Int × ClientInfo)) : Decidable (ClientsOk clients) := by
  unfold ClientsOk; infer_instance

/-- The `sendMessage` calls made between two states of the server. -/
def newSends (before after : Server) : List Sent :=
  after.sent.drop before.sent.length

/-- The calls of `sendMessage` that carry one envelope to the sockets of a list, in
order, the first of them being call number `start`. -/
def attempts (net : Nat → Bool) (type data : Str) (metadata : StrMap) :
    Nat → List Int → List Sent
  | _, [] => []
  | start, s :: ss => ⟨s, type, data, metadata, net start⟩ ::
      attempts net type data metadata (start + 1) ss

/-- The sockets a broadcast goes to: those of the registry other than the excluded one,
in the order of the map. -/
def recipients (clients : List (Int × ClientInfo)) (exclude_socket : Int) : List Int :=
  (clients.filter fun pair => pair.1 ≠ exclude_socket).map Prod.fst

/-- A registration or an unregistration, as `handleClient` performs them. -/
inductive RegOp where
  | join (client_socket : Int) (client_address data : Str)
  | leave (client_socket : Int)
deriving DecidableEq, Repr

/-- One step of the registry's history: a `USER_JOIN` handshake on a socket, or the
`disconnectClient` of a socket with the user name `handleClient` holds for it. -/
def applyOp (net : Nat → Bool) (st : Server) : RegOp → Server
  | .join s a d =>
    match handleClientJoin net st s a (some ⟨MessageType.USER_JOIN, d, []⟩) with
    | some r => r.2
    | none => st
  | .leave s =>
    disconnectClient net st s
      ((mapFind intLt s st.clients).map ClientInfo.username |>.getD [])

/-- The server after a history of registrations and unregistrations. -/
def runOps (net : Nat → Bool) (st : Server) (ops : List RegOp) : Server :=
  ops.foldl (applyOp net) st

/-- A sample server: `alice` on socket 4, `bob` on socket 5, `carol` on socket 7. -/
def sampleServer : Server :=
  ⟨[(4, ⟨lit "alice", lit "10.0.0.1:5000", 0⟩), (5, ⟨lit "bob", lit "10.0.0.2:5000", 1⟩),
    (7, ⟨lit "carol", lit "10.0.0.3:5000", 2⟩)], [], [], [], 3⟩

/-- A history in which socket 5 registers as `bob` before socket 4 does (socket 4 was
accepted first, its `USER_JOIN` arrived second). -/
def lateJoinOps : List RegOp :=
  [.join 5 (lit "10.0.0.2:5000") (lit "bob"), .join 4 (lit "10.0.0.1:5000") (lit "bob")]

/-! ## The naming rule in the words of the specification -/

/-- A file name cut at its last `.`: what precedes it, and the extension from the `.`
on. `none` when the name has no `.`. -/
def splitLastDot : Str → Option (Str × Str)
  | [] => none
  | c :: cs =>
    match splitLastDot cs with
    | some (n, e) => some (c :: n, e)
    | none => if c = '.' then some ([], c :: cs) else none

/-- The file name with `_` and a text put before its last `.` extension, or at its end
when it has no `.`. -/
def insertText (filename txt : Str) : Str :=
  match splitLastDot filename with
  | some (n, e) => n ++ lit "_" ++ txt ++ e
  | none => filename ++ lit "_" ++ txt

/-- The file name with `_k` put before its last `.` extension, or at its end when it has
no `.`. -/
def insertCounter (filename : Str) (k : Nat) : Str :=
  insertText filename (to_string_nat k)

/-- What the file system takes as the name of a file in a directory: no NUL byte and
no `/` in it, not empty, not `.` or `..`, and at most `NAME_MAX` bytes. -/
def FileName (name : Str) : Prop :=
  NUL ∉ name ∧ '/' ∉ name ∧ name ≠ [] ∧ name ≠ lit "." ∧ name ≠ lit ".." ∧
    name.length ≤ NAME_MAX

instance (name : Str) : Decidable (FileName name) := by
  unfold FileName; infer_instance

/-- A name under which a received file can be stored: the name of a file, with room for
`_` and the ten digits of a counter within `NAME_MAX` bytes. On the client this is asked
of the announced file name, on the server of the user name, `_` and the file name. -/
def StorableName (name : Str) : Prop :=
  FileName name ∧ name.length + 11 ≤ NAME_MAX

instance (name : Str) : Decidable (StorableName name) := by
  unfold StorableName; infer_instance

/-- The path names an entry of a directory, and is the text under which the entry is
listed: what holds of a directory of the program, `/` and the name of a file. -/
def isSlot (path : Str) : Bool :=
  match namei (c_str path) with
  | .entry d name => decide (d.text ++ lit "/" ++ name = path)
  | _ => false

/-- The paths in the order the naming rule tries them: the plain one, then those with
`_1`, `_2`, and so on. -/
def tryPath (stem filename : Str) : Nat → Str
  | 0 => stem ++ filename
  | k + 1 => stem ++ insertCounter filename (k + 1)

/-- The path is what the naming rule of the specification picks among the existing
files `fs`: it is free, and it is the plain path, or else the plain path is taken and
it is the one with `_k` for the least `k ≥ 1` that is free. -/
def PicksFree (fs : FS) (stem filename path : Str) : Prop :=
  fsExists fs path = false ∧
  ((path = stem ++ filename) ∨
   (fsExists fs (stem ++ filename) = true ∧
    ∃ k, 1 ≤ k ∧ path = stem ++ insertCounter filename k ∧
      ∀ j, 1 ≤ j → j < k → fsExists fs (stem ++ insertCounter filename j) = true))

/-! ## Bookkeeping for the statements about file transfer -/

/-- The `FILE_DATA` envelopes `sendFile` produces for what is still unread of the file
when every send succeeds: one per buffer of at most 8192 bytes. -/
def dataEnvelopes (file_size : Nat) : Nat → List Nat → Nat → Int → List ParsedMessage
  | 0, _, _, _ => []
  | fuel + 1, file, bytes_sent, chunk_count =>
    if file = [] then []
    else
      ⟨MessageType.FILE_DATA, hexEncode (file.take 8192),
          chunkMetadata bytes_sent file_size chunk_count⟩ ::
        dataEnvelopes file_size fuel (file.drop 8192)
          (bytes_sent + (file.take 8192).length) (wrapInt32 (chunk_count + 1))

/-- The representation invariant of `std::map<int, FileTransfer>`: socket numbers
strictly ascending. -/
def TransfersOk (transfers : List (Int × FileTransfer)) : Prop :=
  transfers.Pairwise fun a b => a.1 < b.1

instance (transfers : List (Int × FileTransfer)) : Decidable (TransfersOk transfers) := by
  unfold TransfersOk; infer_instance

/-- The announced size of a `FILE` envelope:
`metadata.count("size") ? std::stoull(metadata.at("size")) : 0`, `none` when
`std::stoull` throws. -/
def announcedSize (metadata : StrMap) : Option Nat :=
  match mapFind strLt (lit "size") metadata with
  | some s => stoul s 10
  | none => some 0

/-- `processMessage` does not come back from this envelope: it is a `FILE` envelope
whose size is read, and the naming loop of `prepareFileReception` is never left. The
thread of the connection then stays in that loop, with the state as it was. -/
def neverReturns (st : Server) (client_socket : Int) (client_msg : ParsedMessage)
    (username : Str) : Bool :=
  decide (client_msg.type = MessageType.FILE) &&
    match announcedSize client_msg.metadata with
    | some file_size =>
      (prepareFileReception st client_socket
        (metaOr client_msg.metadata (lit "filename") (lit "unknown_file"))
        file_size username).isNone
    | none => false

/-- One round of the loop of `handleClient` once `receiveMessage` has returned `true`:
`processMessage`, and whether the loop goes on. An exception leaves `processMessage`
before anything has been changed (`std::stoull` on the announced size, `std::stoul` in
the decoding loop of `saveFileChunk`), so it reaches the `catch` of `handleClient` with
the state as it was. A round that `neverReturns` has no outcome; the loop asks
`neverReturns` first. -/
def handleClientRound (net : Nat → Bool) (st : Server) (client_socket : Int)
    (client_msg : ParsedMessage) (username : Str) : Server × Bool :=
  match processMessage net st client_socket client_msg username with
  | some st1 => (st1, true)
  | none => (st, false)

/-- The loop `while (running)` of `handleClient` over what the socket still delivers,
`running` staying `true`: it ends at the first `receiveMessage` that fails and at the
first exception. Every round that goes on has read a frame of the stream. Returns the
state and whether the loop was left: `false` when a round never returns. -/
def handleClientLoop (net : Nat → Bool) (client_socket : Int) (username : Str) :
    Nat → Str → Server → Server × Bool
  | 0, _, st => (st, true)
  | fuel + 1, stream, st =>
    match receiveMessage stream with
    | (none, _) => (st, true)
    | (some client_msg, rest) =>
      if neverReturns st client_socket client_msg username then (st, false)
      else
        let r := handleClientRound net st client_socket client_msg username
        if r.2 then handleClientLoop net client_socket username fuel rest r.1
        else (r.1, true)

/-- What a run of `handleClient` leaves behind: the state of the server, and whether
`close(client_socket)` has been called (by `handleClient` itself after a failed
handshake, by `disconnectClient` otherwise; not at all when the loop is never left). -/
structure Handled where
  st : Server
  closed : Bool
deriving DecidableEq, Repr

/-- `ChatServer::handleClient` on a new connection: `stream` is everything the peer
sends before its end of the connection closes. -/
def handleClient (net : Nat → Bool) (st : Server) (client_socket : Int)
    (client_address : Str) (stream : Str) : Handled :=
  let first := receiveMessage stream
  match handleClientJoin net st client_socket client_address first.1 with
  | none => ⟨st, true⟩
  | some (username, st1) =>
    let r := handleClientLoop net client_socket username (first.2.length + 1) first.2 st1
    if r.2 then ⟨disconnectClient net r.1 client_socket username, true⟩ else ⟨r.1, false⟩

/-- The loop of `ChatClient::receiveMessages` over what the socket still delivers. It
ends when `receiveMessage` fails. `none` when `processReceivedMessage` does not come
back: an exception leaves it (nothing in the receive thread catches it, and the program
is terminated), or the naming loop of `startFileReception` is never left. -/
def receiveMessages : Nat → Str → Client → Option Client
  | 0, _, st => some st
  | fuel + 1, stream, st =>
    match receiveMessage stream with
    | (none, _) => some st
    | (some msg, rest) =>
      match processReceivedMessage st msg with
      | some st1 => receiveMessages fuel rest st1
      | none => none

/-! ## Hexadecimal payloads, in the words of the statements -/

/-- A hexadecimal digit: `0` to `9`, `a` to `f`, `A` to `F`. -/
def isHexChar (c : Char) : Bool :=
  (lit "0123456789abcdefABCDEF").contains c

/-- A `+` or a `-`. -/
def isSign (c : Char) : Bool :=
  c = '+' || c = '-'

/-- A group of one or two characters in which `std::stoul(.., 16)` finds a number: it
starts with a hexadecimal digit, or with one white-space or sign character that a
hexadecimal digit follows. -/
def groupReads : Str → Bool
  | [a] => isHexChar a
  | [a, b] => isHexChar a || ((isSpace a || isSign a) && isHexChar b)
  | _ => false

/-- A payload cut into groups of two characters from the left; a payload of odd length
leaves a last group of one. -/
def groupsOf : Str → List Str
  | [] => []
  | [a] => [[a]]
  | a :: b :: rest => [a, b] :: groupsOf rest

/-- A payload that is hexadecimal text as the sender writes it: an even number of
characters, all of them hexadecimal digits. -/
def WellFormedHex (hex_data : Str) : Prop :=
  hex_data.length % 2 = 0 ∧ ∀ c ∈ hex_data, isHexChar c = true

instance (hex_data : Str) : Decidable (WellFormedHex hex_data) := by
  unfold WellFormedHex; infer_instance

/-- The text `"type":"` that `parseMessage` looks for. -/
def typeMarker : Str := lit "\"type\":\""

/-- The type `parseMessage` reports: the text between `typeStart` and the next double
quote, unescaped, and the empty text when no double quote follows. -/
def typeRead (json : Str) : Str :=
  match find json [dq] (findPlus8 json typeMarker) with
  | some typeEnd =>
    unescape ((json.drop (findPlus8 json typeMarker)).take
      (typeEnd - findPlus8 json typeMarker))
  | none => []

/-- The notice the server broadcasts when a user has completed a file. -/
def completeNotice (username filename : Str) : Str :=
  lit "用户 '" ++ username ++ lit "' 分享了文件: " ++ filename

/-- A sample server in the middle of a transfer: `alice` on socket 4 has announced
`a.txt` and sent the byte `1`; `bob` is on socket 5. -/
def midTransferServer : Server :=
  ⟨[(4, ⟨lit "alice", lit "10.0.0.1:5000", 0⟩), (5, ⟨lit "bob", lit "10.0.0.2:5000", 1⟩)],
   [(4, ⟨lit "a.txt", lit "./files/received/alice_a.txt", 3, 1, lit "alice",
      ⟨some (lit "./files/received/alice_a.txt"), false⟩, 1⟩)],
   [(lit "./files/received/alice_a.txt", [1])], [], 2⟩

/-- A sample client in the middle of a download: `a.txt`, one byte received. -/
def midTransferClient : Client :=
  ⟨some ⟨lit "a.txt", lit "./files/downloads/a.txt", 3, 1, lit "alice",
      ⟨some (lit "./files/downloads/a.txt"), false⟩, 1⟩,
   [(lit "./files/downloads/a.txt", [1])]⟩

/-! ## The server sending a file -/

/-- The loop `while (bytes_sent < file_size)` of `ChatServer::sendFileToUser`: `file` is
what is still unread of the file. Returns whether the function goes on after the loop
(`false` for the `return` after a `sendToUser` that returned `false`), `chunk_count`,
and the state of the server. Every round that goes on reads at least one byte. -/
def sendFileToUserLoop (net : Nat → Bool) (username : Str) (file_size : Nat) :
    Nat → List Nat → Nat → Int → Server → Bool × Int × Server
  | 0, _, _, chunk_count, st => (true, chunk_count, st)
  | fuel + 1, file, bytes_sent, chunk_count, st =>
    if bytes_sent < file_size then
      let buffer := file.take 8192
      let bytes_read := buffer.length
      if bytes_read = 0 then (true, chunk_count, st)
      else
        let r := sendToUser net st username MessageType.FILE_DATA (hexEncode buffer)
          (chunkMetadata bytes_sent file_size chunk_count)
        if r.1 then
          sendFileToUserLoop net username file_size fuel (file.drop 8192)
            ((bytes_sent + bytes_read) % 2 ^ 64) (wrapInt32 (chunk_count + 1)) r.2
        else (false, chunk_count, r.2)
    else (true, chunk_count, st)

/-- `ChatServer::sendFileToUser` on a file that exists and can be read: `file` is its
content, its size (what `stat` reports) is `file.length`. -/
def sendFileToUser (net : Nat → Bool) (st : Server) (username file_path : Str)
    (file : List Nat) : Server :=
  let filename := file_path.drop (afterLastSlash file_path)
  let file_size := file.length
  let r0 := sendToUser net st username MessageType.FILE []
    (fileMetadata filename file_size (lit "服务器"))
  if r0.1 then
    let r := sendFileToUserLoop net username file_size (file.length + 1) file 0 0 r0.2
    if r.1 then
      (sendToUser net r.2.2 username MessageType.FILE_COMPLETE []
        (completeMetadata filename file_size r.2.1)).2
    else r.2.2
  else r0.2

/-- The loop `while (bytes_sent < file_size)` of `ChatServer::sendFileToAll`. Returns
`chunk_count` and the state of the server. -/
def sendFileToAllLoop (net : Nat → Bool) (file_size : Nat) :
    Nat → List Nat → Nat → Int → Server → Int × Server
  | 0, _, _, chunk_count, st => (chunk_count, st)
  | fuel + 1, file, bytes_sent, chunk_count, st =>
    if bytes_sent < file_size then
      let buffer := file.take 8192
      let bytes_read := buffer.length
      if bytes_read = 0 then (chunk_count, st)
      else
        let st1 := broadcastMessage net st MessageType.FILE_DATA (hexEncode buffer)
          (chunkMetadata bytes_sent file_size chunk_count) (-1)
        sendFileToAllLoop net file_size fuel (file.drop 8192)
          ((bytes_sent + bytes_read) % 2 ^ 64) (wrapInt32 (chunk_count + 1)) st1
    else (chunk_count, st)

/-- `ChatServer::sendFileToAll` on a file that exists and can be read. -/
def sendFileToAll (net : Nat → Bool) (st : Server) (file_path : Str) (file : List Nat) :
    Server :=
  let filename := file_path.drop (afterLastSlash file_path)
  let file_size := file.length
  let st0 := broadcastMessage net st MessageType.FILE []
    (fileMetadata filename file_size (lit "服务器")) (-1)
  let r := sendFileToAllLoop net file_size (file.length + 1) file 0 0 st0
  broadcastMessage net r.2 MessageType.FILE_COMPLETE []
    (completeMetadata filename file_size r.1) (-1)

/-! ## `sendMessage` down to the calls of `send` -/

/-- What one call of `send` returns. -/
inductive SendRet where
  /-- A positive count: the socket takes one byte and up to `more` further bytes of
  those offered. -/
  | took (more : Nat)
  /-- The value `-1` with `errno` at `EAGAIN` or `EWOULDBLOCK`. -/
  | again
  /-- A value `≤ 0` with any other `errno`. -/
  | failed
deriving DecidableEq, Repr

/-- One of the two loops `while (remaining > 0)` of the server's `sendMessage`: `buf`
is what is still to be sent, `call` the number of `send` calls made so far on the
socket (`sock n` is what the call number `n` returns), `wire` what the socket has
taken so far. Returns whether the loop was left at its end (`false` for
`return false`), the number of calls and the bytes taken; `none` when the loop has not
ended within the fuel, which only an unending run of `EAGAIN` brings about. -/
def sendLoop (sock : Nat → SendRet) : Nat → Str → Nat → Str → Option (Bool × Nat × Str)
  | 0, buf, call, wire => if buf = [] then some (true, call, wire) else none
  | fuel + 1, buf, call, wire =>
    if buf.length > 0 then
      match sock call with
      | .took more =>
        sendLoop sock fuel (buf.drop (more + 1)) (call + 1) (wire ++ buf.take (more + 1))
      | .again => sendLoop sock fuel buf (call + 1) wire
      | .failed => some (false, call + 1, wire)
    else some (true, call, wire)

/-- `ChatServer::sendMessage` down to its `send` calls: the four bytes of the length,
then the text, each in its loop. Returns what `sendMessage` returns, the number of
`send` calls and the bytes the socket has taken. -/
def ChatServer.sendMessage (sock : Nat → SendRet) (fuel : Nat) (type data : Str)
    (metadata : StrMap) : Option (Bool × Nat × Str) :=
  let json_msg := createMessage type data metadata
  let size := be32 (json_msg.length % 2 ^ 32)
  match sendLoop sock fuel size 0 [] with
  | none => none
  | some (false, call, wire) => some (false, call, wire)
  | some (true, call, wire) => sendLoop sock fuel json_msg call wire

/-- `ChatClient::sendMessage` down to its `send` calls: one call for the four bytes of
the length and one for the text, each compared with the size offered. Returns what
`sendMessage` returns, the number of `send` calls and the bytes the socket has taken. -/
def ChatClient.sendMessage (sock : Nat → SendRet) (type data : Str) (metadata : StrMap) :
    Bool × Nat × Str :=
  let json_msg := createMessage type data metadata
  let size := be32 (json_msg.length % 2 ^ 32)
  match sock 0 with
  | .took more =>
    let sent := size.take (more + 1)
    if sent.length ≠ 4 then (false, 1, sent)
    else
      match sock 1 with
      | .took more1 =>
        let body := json_msg.take (more1 + 1)
        (decide (body.length = json_msg.length), 2, sent ++ body)
      | _ => (false, 2, sent)
  | _ => (false, 1, [])

/-! ## The envelope text and the stored path, in the words of the specification -/

/-- One pair of the metadata object: `"k":"v"` with the key and the value escaped. -/
def pairText (p : Str × Str) : Str :=
  [dq] ++ escape p.1 ++ [dq, ':', dq] ++ escape p.2 ++ [dq]

/-- Texts put one after the other with a comma between them. -/
def commaSeparated : List Str → Str
  | [] => []
  | [a] => a
  | a :: b :: rest => a ++ [','] ++ commaSeparated (b :: rest)

/-- The envelope text of the specification:
`{"type":"T","data":"D","metadata":{P}}`, with `T` and `D` the escaped type and data and
`P` the pairs of the map in its order, separated by commas. -/
def envelopeText (type data : Str) (metadata : StrMap) : Str :=
  lit "\x7b\"type\":\"" ++ escape type ++ lit "\",\"data\":\"" ++ escape data
    ++ lit "\",\"metadata\":\x7b" ++ commaSeparated (metadata.map pairText) ++ lit "\x7d\x7d"

/-- The path lies in the directory: it is the directory, a `/`, and one file-name
component without a `/`. -/
def Confined (dir path : Str) : Prop :=
  ∃ component : Str, path = dir ++ lit "/" ++ component ∧ '/' ∉ component

/-- A stream of `send` results in which every call takes at most five bytes. -/
def slowSocket : Nat → SendRet := fun _ => .took 4

/-! ## Escaped text -/

/-- Every double quote of the text comes right after a backslash; `prev` is the
character before the text. -/
def guarded (prev : Char) : Str → Bool
  | [] => true
  | c :: cs => (c != dq || prev == bslash) && guarded c cs

/-- The data `parseMessage` reports: the text between `dataStart` and the first
`","metadata"` after it (or else the first `"}`), unescaped, and the empty text when
neither follows. -/
def dataRead (json : Str) : Str :=
  match (match find json (lit "\",\"metadata\"") (findPlus8 json (lit "\"data\":\"")) with
      | some e => some e
      | none => find json (lit "\"\x7d") (findPlus8 json (lit "\"data\":\""))) with
  | some dataEnd =>
    unescape ((json.drop (findPlus8 json (lit "\"data\":\""))).take
      (dataEnd - findPlus8 json (lit "\"data\":\"")))
  | none => []

/-- The text holds `}}` somewhere. -/
def hasClosers : Str → Bool
  | a :: b :: r => (a == '\x7d' && b == '\x7d') || hasClosers (b :: r)
  | _ => false

/-- A `FILE_DATA` envelope as the send loops build it: the hexadecimal text of a buffer
of at most 8192 bytes, with the metadata of a chunk whose `bytes_sent` fits `size_t`
and whose `chunk_index` fits `int`. -/
def SmallChunk (file_size : Nat) (data : Str) (metadata : StrMap) : Prop :=
  ∃ (buffer : List Nat) (bytes_sent : Nat) (chunk_count : Int),
    buffer.length ≤ 8192 ∧ bytes_sent < 2 ^ 64 ∧
    -2 ^ 31 ≤ chunk_count ∧ chunk_count < 2 ^ 31 ∧
    data = hexEncode buffer ∧ metadata = chunkMetadata bytes_sent file_size chunk_count

/-- What is asked of one `FILE_DATA` envelope on the wire: its data is the hexadecimal
text of at most 8192 bytes, hence at most 16384 characters; its encoded body is shorter
than 1,048,576 bytes; and the frame read of the receiver hands the body back, whatever
follows it on the stream. -/
def FitsFrame (data : Str) (metadata : StrMap) : Prop :=
  (∃ buffer : List Nat, buffer.length ≤ 8192 ∧ data = hexEncode buffer) ∧
  data.length ≤ 16384 ∧
  (createMessage MessageType.FILE_DATA data metadata).length < 1048576 ∧
  ∀ rest : Str,
    readFrame (frameBytes (createMessage MessageType.FILE_DATA data metadata) ++ rest)
      = (some (createMessage MessageType.FILE_DATA data metadata), rest)

/-! ## Theorems: strings and `std::map` -/

theorem strLt_irrefl (a : Str) : strLt a a = false := by
  induction a with
  | nil => rfl
  | cons x xs ih => simp [strLt, ih]

theorem strLt_asymm : ∀ a b : Str, strLt a b = true → strLt b a = false
  | _, [], h => by simp [strLt] at h
  | [], _ :: _, _ => by simp [strLt]
  | x :: xs, y :: ys, h => by
    simp only [strLt] at h ⊢
    by_cases h1 : x.toNat < y.toNat
    · have h2 : ¬ y.toNat < x.toNat := by omega
      simp [h1, h2]
    · by_cases h2 : y.toNat < x.toNat
      · simp [h1, h2] at h
      · simp only [h1, h2, if_false] at h ⊢
        exact strLt_asymm xs ys h

theorem mapSet_append_last {α : Type} (k : Str) (v : α) :
    ∀ acc : List (Str × α), (∀ p ∈ acc, strLt p.1 k = true) →
      mapSet strLt k v acc = acc ++ [(k, v)]
  | [], _ => rfl
  | (k', v') :: rest, h => by
    have hk : strLt k' k = true := h (k', v') (List.mem_cons_self _ _)
    have hk' : strLt k k' = false := strLt_asymm _ _ hk
    have ih := mapSet_append_last k v rest (fun p hp => h p (List.mem_cons_of_mem _ hp))
    simp [mapSet, hk, hk', ih]

theorem findAux_hit (pat s : Str) (i : Nat) (h : pat.isPrefixOf s = true) :
    findAux pat s i = some i := by
  cases s <;> simp [findAux, h]

theorem isPrefixOf_append_self (pat r : Str) : pat.isPrefixOf (pat ++ r) = true := by
  induction pat with
  | nil => simp [List.isPrefixOf]
  | cons x xs ih => simp [List.isPrefixOf, ih]

theorem findAux_skip_one (pat : Str) (x : Char) (s : Str) (i : Nat)
    (h : pat.isPrefixOf (x :: s) = false) :
    findAux pat (x :: s) i = findAux pat s (i + 1) := by
  simp [findAux, h]

theorem findAux_skip_notin (q : Char) (p : Str) :
    ∀ (a s : Str) (i : Nat), q ∉ a →
      findAux (q :: p) (a ++ s) i = findAux (q :: p) s (i + a.length)
  | [], s, i, _ => by simp
  | x :: a, s, i, h => by
    have hx : q ≠ x := fun e => h (e ▸ List.mem_cons_self _ _)
    have ha : q ∉ a := fun e => h (List.mem_cons_of_mem _ e)
    have hp : (q :: p).isPrefixOf (x :: (a ++ s)) = false := by
      simp [List.isPrefixOf, hx]
    rw [List.cons_append, findAux_skip_one _ _ _ _ hp, findAux_skip_notin q p a s (i + 1) ha]
    simp only [List.length_cons]
    congr 1
    omega

theorem find_zero (s pat : Str) : find s pat 0 = findAux pat s 0 := by
  simp [find]

theorem find_append_at (a s pat : Str) (n : Nat) (h : n = a.length) :
    find (a ++ s) pat n = findAux pat s n := by
  subst h
  simp [find]

theorem substr_append_at (a k s : Str) (n l : Nat) (hn : n = a.length) (hl : l = k.length) :
    substr (a ++ (k ++ s)) n l = some k := by
  subst hn hl
  simp [substr]

/-- A pattern whose first later `q` is followed by `c` cannot start a text whose
first `q` is followed by another character. -/
theorem isPrefixOf_mismatch_after (q c c' : Char) (hc : c ≠ c') :
    ∀ (p1 r T r' : Str), q ∉ p1 → q ∉ T →
      (p1 ++ q :: c :: r).isPrefixOf (T ++ q :: c' :: r') = false
  | [], r, [], r', _, _ => by simp [List.isPrefixOf, hc]
  | [], r, x :: T, r', _, hT => by
    have hx : q ≠ x := fun e => hT (e ▸ List.mem_cons_self _ _)
    simp [List.isPrefixOf, hx]
  | y :: p1, r, [], r', hp, _ => by
    have hy : y ≠ q := fun e => hp (e ▸ List.mem_cons_self _ _)
    simp [List.isPrefixOf, hy]
  | y :: p1, r, x :: T, r', hp, hT => by
    have ih := isPrefixOf_mismatch_after q c c' hc p1 r T r'
      (fun e => hp (List.mem_cons_of_mem _ e)) (fun e => hT (List.mem_cons_of_mem _ e))
    simp only [List.cons_append, List.isPrefixOf, Bool.and_eq_false_imp]
    intro _
    exact ih

/-! ## Theorems: `SimpleJSON` -/

theorem Plain.cons {c : Char} {s : Str} (h : Plain (c :: s)) :
    isEscaped c = false ∧ Plain s :=
  ⟨h c (List.mem_cons_self _ _), fun x hx => h x (List.mem_cons_of_mem _ hx)⟩

theorem Plain.no_dq {s : Str} (h : Plain s) : dq ∉ s := by
  intro hm
  have := h dq hm
  simp [isEscaped] at this

theorem Plain.no_bslash {s : Str} (h : Plain s) : bslash ∉ s := by
  intro hm
  have := h bslash hm
  simp [isEscaped] at this

theorem escape_plain : ∀ s : Str, Plain s → escape s = s
  | [], _ => rfl
  | c :: cs, h => by
    obtain ⟨hc, hcs⟩ := h.cons
    simp only [isEscaped, Bool.or_eq_false_iff, decide_eq_false_iff_not] at hc
    obtain ⟨⟨⟨⟨h1, h2⟩, h3⟩, h4⟩, h5⟩ := hc
    simp [escape, h1, h2, h3, h4, h5, escape_plain cs hcs]

theorem unescape_no_bslash : ∀ s : Str, bslash ∉ s → unescape s = s
  | [], _ => rfl
  | [c], _ => rfl
  | c :: d :: rest, h => by
    have hc : c ≠ bslash := fun e => h (e ▸ List.mem_cons_self _ _)
    have ih := unescape_no_bslash (d :: rest) (fun e => h (List.mem_cons_of_mem _ e))
    simp [unescape, hc, ih]

theorem findAux_closers_skip :
    ∀ (k : Str) (x : Char) (s : Str) (i : Nat), ¬ closers <:+: k → x ≠ '\x7d' →
      findAux closers (k ++ x :: s) i = findAux closers s (i + k.length + 1)
  | [], x, s, i, _, hx => by
    have hp : closers.isPrefixOf (x :: s) = false := by
      simp [closers, List.isPrefixOf, Ne.symm hx]
    simpa using findAux_skip_one _ _ _ _ hp
  | a :: k, x, s, i, hk, hx => by
    have hk' : ¬ closers <:+: k := fun e => hk (List.infix_cons e)
    have hp : closers.isPrefixOf (a :: (k ++ x :: s)) = false := by
      cases k with
      | nil => simp [closers, List.isPrefixOf, Ne.symm hx]
      | cons b k' =>
        by_cases ha : a = '\x7d'
        · by_cases hb : b = '\x7d'
          · exfalso
            apply hk
            subst ha hb
            exact (List.prefix_append closers k').isInfix
          · simp [closers, List.isPrefixOf, Ne.symm hb]
        · simp [closers, List.isPrefixOf, Ne.symm ha]
    rw [List.cons_append, findAux_skip_one _ _ _ _ hp, findAux_closers_skip k x s (i + 1) hk' hx]
    simp only [List.length_cons]
    congr 1
    omega

theorem metaPairs_cons (first : Bool) (k v : Str) (rest : StrMap) (tl : Str) :
    metaPairs first ((k, v) :: rest) ++ tl =
      (if first then [] else [',']) ++
        dq :: (escape k ++ dq :: ':' :: dq :: (escape v ++ dq :: (metaPairs false rest ++ tl))) := by
  simp [metaPairs]

theorem metaPairs_length_cons (first : Bool) (k v : Str) (rest : StrMap) :
    (metaPairs first ((k, v) :: rest)).length =
      (if first then 0 else 1) + (escape k).length + (escape v).length + 5
        + (metaPairs false rest).length := by
  cases first <;> simp [metaPairs] <;> omega

theorem closers_not_prefix_of (x : Char) (s : Str) (hx : x ≠ '\x7d') :
    closers.isPrefixOf (x :: s) = false := by
  simp [closers, List.isPrefixOf, Ne.symm hx]

/-- The first `}}` after the metadata pairs is the one `createMessage` appends,
when no escaped key or value holds `}}`. -/
theorem findAux_closers_metaPairs :
    ∀ (m : StrMap) (first : Bool) (r : Str) (i : Nat),
      (∀ p ∈ m, ¬ closers <:+: escape p.1 ∧ ¬ closers <:+: escape p.2) →
      findAux closers (metaPairs first m ++ closers ++ r) i
        = some (i + (metaPairs first m).length)
  | [], first, r, i, _ => by
    simpa [metaPairs] using findAux_hit closers (closers ++ r) i (isPrefixOf_append_self _ _)
  | (k, v) :: rest, first, r, i, h => by
    have hk : ¬ closers <:+: escape k := (h (k, v) (List.mem_cons_self _ _)).1
    have hv : ¬ closers <:+: escape v := (h (k, v) (List.mem_cons_self _ _)).2
    have ih := fun j => findAux_closers_metaPairs rest false r j
      (fun p hp => h p (List.mem_cons_of_mem _ hp))
    have hdq : dq ≠ '\x7d' := by decide
    have hcolon : ':' ≠ '\x7d' := by decide
    have hcomma : ',' ≠ '\x7d' := by decide
    rw [List.append_assoc, metaPairs_cons, metaPairs_length_cons]
    cases first
    · simp only [Bool.false_eq_true, if_false, List.cons_append, List.nil_append]
      rw [findAux_skip_one _ _ _ _ (closers_not_prefix_of _ _ hcomma),
        findAux_skip_one _ _ _ _ (closers_not_prefix_of _ _ hdq),
        findAux_closers_skip _ _ _ _ hk hdq,
        findAux_skip_one _ _ _ _ (closers_not_prefix_of _ _ hcolon),
        findAux_skip_one _ _ _ _ (closers_not_prefix_of _ _ hdq),
        findAux_closers_skip _ _ _ _ hv hdq, ← List.append_assoc, ih]
      congr 1
      omega
    · simp only [if_true, List.nil_append]
      rw [findAux_skip_one _ _ _ _ (closers_not_prefix_of _ _ hdq),
        findAux_closers_skip _ _ _ _ hk hdq,
        findAux_skip_one _ _ _ _ (closers_not_prefix_of _ _ hcolon),
        findAux_skip_one _ _ _ _ (closers_not_prefix_of _ _ hdq),
        findAux_closers_skip _ _ _ _ hv hdq, ← List.append_assoc, ih]
      congr 1
      omega

theorem find_dq_in (a k s : Str) (n : Nat) (hn : n = a.length) (hk : dq ∉ k) :
    find (a ++ (k ++ dq :: s)) [dq] n = some (n + k.length) := by
  rw [find_append_at a _ _ n hn, findAux_skip_notin dq [] k _ n hk]
  exact findAux_hit _ _ _ (by simp [List.isPrefixOf])

/-- One round of the pair loop on a well-formed `"key":"value"` item. -/
theorem parsePairs_step (fuel : Nat) (S done sep k v tl : Str) (acc : StrMap)
    (hS : S = done ++ (sep ++ dq :: (k ++ dq :: ':' :: dq :: (v ++ dq :: tl))))
    (hsep : dq ∉ sep) (hk : dq ∉ k) (hv : dq ∉ v) :
    parsePairs (fuel + 1) S done.length acc
      = parsePairs fuel S (done.length + sep.length + k.length + v.length + 5)
          (mapSet strLt (unescape k) (unescape v) acc) := by
  have hlen : done.length < S.length := by
    rw [hS]; simp only [List.length_append, List.length_cons]; omega
  have h1 : find S [dq] done.length = some (done.length + sep.length) := by
    rw [hS, find_dq_in done sep _ _ rfl hsep]
  have h2 : find S [dq] (done.length + sep.length + 1)
      = some (done.length + sep.length + 1 + k.length) := by
    have e : S = (done ++ (sep ++ [dq])) ++ (k ++ dq :: ':' :: dq :: (v ++ dq :: tl)) := by
      rw [hS]; simp
    rw [e, find_dq_in _ k _ _ (by simp; omega) hk]
  have h3 : find S [dq] (done.length + sep.length + 1 + k.length + 1)
      = some (done.length + sep.length + 1 + k.length + 1 + 1) := by
    have e : S = (done ++ (sep ++ dq :: (k ++ [dq]))) ++ ([':'] ++ dq :: (v ++ dq :: tl)) := by
      rw [hS]; simp
    rw [e, find_dq_in _ [':'] _ _ (by simp; omega) (by decide)]
    rfl
  have h4 : find S [dq] (done.length + sep.length + 1 + k.length + 1 + 1 + 1)
      = some (done.length + sep.length + 1 + k.length + 1 + 1 + 1 + v.length) := by
    have e : S = (done ++ (sep ++ dq :: (k ++ [dq, ':', dq]))) ++ (v ++ dq :: tl) := by
      rw [hS]; simp
    rw [e, find_dq_in _ v _ _ (by simp; omega) hv]
  have h5 : substr S (done.length + sep.length + 1)
      (done.length + sep.length + 1 + k.length - (done.length + sep.length + 1)) = some k := by
    have e : S = (done ++ (sep ++ [dq])) ++ (k ++ dq :: ':' :: dq :: (v ++ dq :: tl)) := by
      rw [hS]; simp
    rw [e]
    exact substr_append_at _ _ _ _ _ (by simp; omega) (by omega)
  have h6 : substr S (done.length + sep.length + 1 + k.length + 1 + 1 + 1)
      (done.length + sep.length + 1 + k.length + 1 + 1 + 1 + v.length
        - (done.length + sep.length + 1 + k.length + 1 + 1 + 1)) = some v := by
    have e : S = (done ++ (sep ++ dq :: (k ++ [dq, ':', dq]))) ++ (v ++ dq :: tl) := by
      rw [hS]; simp
    rw [e]
    exact substr_append_at _ _ _ _ _ (by simp; omega) (by omega)
  rw [parsePairs]
  simp only [hlen, if_true, h1, h2, h3, h4, h5, h6]
  congr 1
  omega

theorem parsePairs_metaPairs :
    ∀ (m : StrMap) (fuel : Nat) (done : Str) (first : Bool) (acc : StrMap),
      m.length ≤ fuel → (∀ p ∈ m, dq ∉ escape p.1 ∧ dq ∉ escape p.2) →
      parsePairs fuel (done ++ metaPairs first m) done.length acc = some (storePairs acc m)
  | [], fuel, done, first, acc, _, _ => by
    cases fuel <;> simp [parsePairs, metaPairs, storePairs]
  | (k, v) :: rest, 0, done, first, acc, hf, _ => by simp at hf
  | (k, v) :: rest, fuel + 1, done, first, acc, hf, h => by
    have hk : dq ∉ escape k := (h (k, v) (List.mem_cons_self _ _)).1
    have hv : dq ∉ escape v := (h (k, v) (List.mem_cons_self _ _)).2
    have hsep : dq ∉ (if first then [] else [',']) := by cases first <;> decide
    have hS := metaPairs_cons first k v rest []
    rw [List.append_nil] at hS
    simp only [List.append_nil] at hS
    rw [parsePairs_step fuel _ done _ (escape k) (escape v) (metaPairs false rest) acc
      (by rw [hS]) hsep hk hv]
    have e : done ++ metaPairs first ((k, v) :: rest)
        = (done ++ ((if first then [] else [',']) ++
            dq :: (escape k ++ dq :: ':' :: dq :: (escape v ++ [dq])))) ++ metaPairs false rest := by
      rw [hS]; simp
    have hl : done.length + (if first then [] else [',']).length + (escape k).length
        + (escape v).length + 5
        = (done ++ ((if first then [] else [',']) ++
            dq :: (escape k ++ dq :: ':' :: dq :: (escape v ++ [dq])))).length := by
      simp only [List.length_append, List.length_cons, List.length_nil]; omega
    rw [e, hl, parsePairs_metaPairs rest fuel _ false _ (by simpa using hf)
      (fun p hp => h p (List.mem_cons_of_mem _ hp))]
    rfl

theorem storePairs_sorted :
    ∀ (m acc : StrMap), StrMapOk (acc ++ m) →
      (∀ p ∈ m, unescape (escape p.1) = p.1 ∧ unescape (escape p.2) = p.2) →
      storePairs acc m = acc ++ m
  | [], acc, _, _ => by simp [storePairs]
  | (k, v) :: rest, acc, hok, h => by
    have hkv := h (k, v) (List.mem_cons_self _ _)
    have hlt : ∀ p ∈ acc, strLt p.1 k = true := by
      intro p hp
      have := List.pairwise_append.mp hok
      exact this.2.2 p hp (k, v) (List.mem_cons_self _ _)
    have hok' : StrMapOk ((acc ++ [(k, v)]) ++ rest) := by
      simpa [StrMapOk] using hok
    have ih := storePairs_sorted rest (acc ++ [(k, v)]) hok'
      (fun p hp => h p (List.mem_cons_of_mem _ hp))
    simp only [storePairs, List.foldl_cons] at ih ⊢
    rw [hkv.1, hkv.2, mapSet_append_last k v acc hlt, ih]
    simp

theorem metaPairs_length_ge : ∀ (m : StrMap) (first : Bool), m.length ≤ (metaPairs first m).length
  | [], _ => by simp [metaPairs]
  | (k, v) :: rest, first => by
    have := metaPairs_length_ge rest false
    rw [metaPairs_length_cons]
    simp only [List.length_cons]
    omega

theorem clash_not_prefix : ∀ (pat t s : Str), clash pat t = true → pat.isPrefixOf (t ++ s) = false
  | [], _, _, h => by simp [clash] at h
  | _ :: _, [], _, h => by simp [clash] at h
  | p :: ps, x :: t, s, h => by
    simp only [clash, Bool.or_eq_true, bne_iff_ne, ne_eq] at h
    simp only [List.cons_append, List.isPrefixOf, Bool.and_eq_false_imp, beq_iff_eq]
    intro e
    rcases h with h | h
    · exact absurd e h
    · exact clash_not_prefix ps t s h

theorem findAux_skip_clashAll (pat : Str) :
    ∀ (a s : Str) (i : Nat), clashAll pat a = true →
      findAux pat (a ++ s) i = findAux pat s (i + a.length)
  | [], s, i, _ => by simp
  | x :: a, s, i, h => by
    simp only [clashAll, Bool.and_eq_true] at h
    have hp := clash_not_prefix pat (x :: a) s h.1
    rw [List.cons_append] at hp ⊢
    rw [findAux_skip_one _ _ _ _ hp, findAux_skip_clashAll pat a s (i + 1) h.2]
    simp only [List.length_cons]
    congr 1
    omega

theorem createMessage_shape (t d : Str) (m : StrMap) :
    createMessage t d m = jsonHead ++ (escape t ++ (jsonMid1 ++ (escape d ++
      (jsonMid2 ++ (metaPairs true m ++ closers))))) := by
  have h1 : lit "\"type\":\"" = [dq, 't', 'y', 'p', 'e', dq, ':', dq] := by decide
  have h2 : lit "\"," = [dq, ','] := by decide
  have h3 : lit "\"data\":\"" = [dq, 'd', 'a', 't', 'a', dq, ':', dq] := by decide
  have h4 : lit "\"metadata\":\x7b"
      = [dq, 'm', 'e', 't', 'a', 'd', 'a', 't', 'a', dq, ':', '\x7b'] := by decide
  have h5 : lit "\x7d\x7d" = closers := by decide
  simp [createMessage, h1, h2, h3, h4, h5, jsonHead, jsonMid1, jsonMid2]

section shape

variable (T D P : Str)

theorem shape_find_type :
    find (jsonHead ++ (T ++ (jsonMid1 ++ (D ++ (jsonMid2 ++ (P ++ closers))))))
      (lit "\"type\":\"") 0 = some 1 := by
  have h1 : lit "\"type\":\"" = [dq, 't', 'y', 'p', 'e', dq, ':', dq] := by decide
  rw [find_zero, h1]
  have e : jsonHead ++ (T ++ (jsonMid1 ++ (D ++ (jsonMid2 ++ (P ++ closers)))))
      = ['\x7b'] ++ ([dq, 't', 'y', 'p', 'e', dq, ':', dq] ++
          (T ++ (jsonMid1 ++ (D ++ (jsonMid2 ++ (P ++ closers)))))) := by
    simp [jsonHead]
  rw [e, findAux_skip_clashAll _ _ _ _ (by decide)]
  exact findAux_hit _ _ _ (isPrefixOf_append_self _ _)

theorem shape_find_type_end (hT : dq ∉ T) :
    find (jsonHead ++ (T ++ (jsonMid1 ++ (D ++ (jsonMid2 ++ (P ++ closers))))))
      [dq] 9 = some (9 + T.length) := by
  have e : jsonMid1 ++ (D ++ (jsonMid2 ++ (P ++ closers)))
      = dq :: (jsonMid1.tail ++ (D ++ (jsonMid2 ++ (P ++ closers)))) := by
    simp [jsonMid1]
  rw [e]
  exact find_dq_in jsonHead T _ 9 (by decide) hT

theorem shape_find_data (hT : dq ∉ T) :
    find (jsonHead ++ (T ++ (jsonMid1 ++ (D ++ (jsonMid2 ++ (P ++ closers))))))
      (lit "\"data\":\"") 0 = some (11 + T.length) := by
  have h3 : lit "\"data\":\"" = [dq, 'd', 'a', 't', 'a', dq, ':', dq] := by decide
  rw [find_zero, h3]
  have e : jsonHead ++ (T ++ (jsonMid1 ++ (D ++ (jsonMid2 ++ (P ++ closers)))))
      = ['\x7b', dq, 't', 'y', 'p', 'e', dq, ':'] ++ (dq :: (T ++ ([dq, ','] ++
          ([dq, 'd', 'a', 't', 'a', dq, ':', dq] ++ (D ++ (jsonMid2 ++ (P ++ closers))))))) := by
    simp [jsonHead, jsonMid1]
  have hm : ([dq, 'd', 'a', 't', 'a', dq, ':', dq] : Str).isPrefixOf
      (dq :: (T ++ ([dq, ','] ++
          ([dq, 'd', 'a', 't', 'a', dq, ':', dq] ++ (D ++ (jsonMid2 ++ (P ++ closers)))))))
      = false := by
    have := isPrefixOf_mismatch_after dq ':' ',' (by decide) ['d', 'a', 't', 'a'] [dq] T
      ([dq, 'd', 'a', 't', 'a', dq, ':', dq] ++ (D ++ (jsonMid2 ++ (P ++ closers))))
      (by decide) hT
    simpa [List.isPrefixOf] using this
  rw [e, findAux_skip_clashAll _ _ _ _ (by decide), findAux_skip_one _ _ _ _ hm,
    findAux_skip_notin dq _ T _ _ hT, findAux_skip_clashAll _ _ _ _ (by decide),
    findAux_hit _ _ _ (isPrefixOf_append_self _ _)]
  simp only [List.length_cons, List.length_nil]
  congr 1
  omega

theorem shape_find_data_end (hD : dq ∉ D) :
    find (jsonHead ++ (T ++ (jsonMid1 ++ (D ++ (jsonMid2 ++ (P ++ closers))))))
      (lit "\",\"metadata\"") (19 + T.length) = some (19 + T.length + D.length) := by
  have h : lit "\",\"metadata\""
      = [dq, ',', dq, 'm', 'e', 't', 'a', 'd', 'a', 't', 'a', dq] := by decide
  have e : jsonHead ++ (T ++ (jsonMid1 ++ (D ++ (jsonMid2 ++ (P ++ closers)))))
      = (jsonHead ++ (T ++ jsonMid1)) ++ (D ++
          ([dq, ',', dq, 'm', 'e', 't', 'a', 'd', 'a', 't', 'a', dq] ++
            ([':', '\x7b'] ++ (P ++ closers)))) := by
    simp [jsonMid2]
  rw [h, e, find_append_at _ _ _ _ (by simp [jsonHead, jsonMid1]; omega),
    findAux_skip_notin dq _ D _ _ hD, findAux_hit _ _ _ (isPrefixOf_append_self _ _)]

theorem shape_find_meta (hT : dq ∉ T) (hD : dq ∉ D) :
    find (jsonHead ++ (T ++ (jsonMid1 ++ (D ++ (jsonMid2 ++ (P ++ closers))))))
      (lit "\"metadata\":\x7b") 0 = some (21 + T.length + D.length) := by
  have h4 : lit "\"metadata\":\x7b"
      = [dq, 'm', 'e', 't', 'a', 'd', 'a', 't', 'a', dq, ':', '\x7b'] := by decide
  rw [find_zero, h4]
  have e : jsonHead ++ (T ++ (jsonMid1 ++ (D ++ (jsonMid2 ++ (P ++ closers)))))
      = ['\x7b', dq, 't', 'y', 'p', 'e', dq, ':'] ++ (dq :: (T ++
          ([dq, ',', dq, 'd', 'a', 't', 'a', dq, ':'] ++ (dq :: (D ++ ([dq, ','] ++
            ([dq, 'm', 'e', 't', 'a', 'd', 'a', 't', 'a', dq, ':', '\x7b'] ++
              (P ++ closers)))))))) := by
    simp [jsonHead, jsonMid1, jsonMid2]
  have hm1 : ([dq, 'm', 'e', 't', 'a', 'd', 'a', 't', 'a', dq, ':', '\x7b'] : Str).isPrefixOf
      (dq :: (T ++
          ([dq, ',', dq, 'd', 'a', 't', 'a', dq, ':'] ++ (dq :: (D ++ ([dq, ','] ++
            ([dq, 'm', 'e', 't', 'a', 'd', 'a', 't', 'a', dq, ':', '\x7b'] ++
              (P ++ closers))))))))
      = false := by
    have := isPrefixOf_mismatch_after dq ':' ',' (by decide)
      ['m', 'e', 't', 'a', 'd', 'a', 't', 'a'] ['\x7b'] T
      ([dq, 'd', 'a', 't', 'a', dq, ':'] ++ (dq :: (D ++ ([dq, ','] ++
            ([dq, 'm', 'e', 't', 'a', 'd', 'a', 't', 'a', dq, ':', '\x7b'] ++
              (P ++ closers))))))
      (by decide) hT
    simpa [List.isPrefixOf] using this
  have hm2 : ([dq, 'm', 'e', 't', 'a', 'd', 'a', 't', 'a', dq, ':', '\x7b'] : Str).isPrefixOf
      (dq :: (D ++ ([dq, ','] ++
            ([dq, 'm', 'e', 't', 'a', 'd', 'a', 't', 'a', dq, ':', '\x7b'] ++
              (P ++ closers)))))
      = false := by
    have := isPrefixOf_mismatch_after dq ':' ',' (by decide)
      ['m', 'e', 't', 'a', 'd', 'a', 't', 'a'] ['\x7b'] D
      ([dq, 'm', 'e', 't', 'a', 'd', 'a', 't', 'a', dq, ':', '\x7b'] ++ (P ++ closers))
      (by decide) hD
    simpa [List.isPrefixOf] using this
  rw [e, findAux_skip_clashAll _ _ _ _ (by decide), findAux_skip_one _ _ _ _ hm1,
    findAux_skip_notin dq _ T _ _ hT, findAux_skip_clashAll _ _ _ _ (by decide),
    findAux_skip_one _ _ _ _ hm2, findAux_skip_notin dq _ D _ _ hD,
    findAux_skip_clashAll _ _ _ _ (by decide),
    findAux_hit _ _ _ (isPrefixOf_append_self _ _)]
  simp only [List.length_cons, List.length_nil]
  congr 1
  omega

theorem shape_find_closers (m : StrMap) (first : Bool)
    (hm : ∀ p ∈ m, ¬ closers <:+: escape p.1 ∧ ¬ closers <:+: escape p.2) :
    find (jsonHead ++ (T ++ (jsonMid1 ++ (D ++ (jsonMid2 ++ (metaPairs first m ++ closers))))))
      closers (33 + T.length + D.length)
      = some (33 + T.length + D.length + (metaPairs first m).length) := by
  have e : jsonHead ++ (T ++ (jsonMid1 ++ (D ++ (jsonMid2 ++ (metaPairs first m ++ closers)))))
      = (jsonHead ++ (T ++ (jsonMid1 ++ (D ++ jsonMid2)))) ++
          (metaPairs first m ++ closers ++ []) := by
    simp
  rw [e, find_append_at _ _ _ _ (by simp [jsonHead, jsonMid1, jsonMid2]; omega),
    findAux_closers_metaPairs m first [] _ hm]

theorem shape_substr_type :
    substr (jsonHead ++ (T ++ (jsonMid1 ++ (D ++ (jsonMid2 ++ (P ++ closers))))))
      9 (9 + T.length - 9) = some T :=
  substr_append_at jsonHead T _ _ _ (by decide) (by omega)

theorem shape_substr_data :
    substr (jsonHead ++ (T ++ (jsonMid1 ++ (D ++ (jsonMid2 ++ (P ++ closers))))))
      (19 + T.length) (19 + T.length + D.length - (19 + T.length)) = some D := by
  have e : jsonHead ++ (T ++ (jsonMid1 ++ (D ++ (jsonMid2 ++ (P ++ closers)))))
      = (jsonHead ++ (T ++ jsonMid1)) ++ (D ++ (jsonMid2 ++ (P ++ closers))) := by
    simp
  rw [e]
  exact substr_append_at _ D _ _ _ (by simp [jsonHead, jsonMid1]; omega) (by omega)

theorem shape_substr_meta :
    substr (jsonHead ++ (T ++ (jsonMid1 ++ (D ++ (jsonMid2 ++ (P ++ closers))))))
      (33 + T.length + D.length) (33 + T.length + D.length + P.length
        - (33 + T.length + D.length)) = some P := by
  have e : jsonHead ++ (T ++ (jsonMid1 ++ (D ++ (jsonMid2 ++ (P ++ closers)))))
      = (jsonHead ++ (T ++ (jsonMid1 ++ (D ++ jsonMid2)))) ++ (P ++ closers) := by
    simp
  rw [e]
  exact substr_append_at _ P _ _ _ (by simp [jsonHead, jsonMid1, jsonMid2]; omega) (by omega)

end shape

/-- What `parseMessage` returns on the text of `createMessage` when the escaped type and
data hold no double quote and no escaped key or value holds a double quote or `}}`. -/
theorem parseMessage_createMessage_of_clean (t d : Str) (m : StrMap)
    (hT : dq ∉ escape t) (hD : dq ∉ escape d)
    (hq : ∀ p ∈ m, dq ∉ escape p.1 ∧ dq ∉ escape p.2)
    (hc : ∀ p ∈ m, ¬ closers <:+: escape p.1 ∧ ¬ closers <:+: escape p.2) :
    parseMessage (createMessage t d m)
      = some ⟨unescape (escape t), unescape (escape d), storePairs [] m⟩ := by
  have hpairs := parsePairs_metaPairs m (metaPairs true m).length [] true []
    (metaPairs_length_ge m true) hq
  simp only [List.nil_append, List.length_nil] at hpairs
  have h5 : lit "\x7d\x7d" = closers := by decide
  rw [createMessage_shape]
  simp only [parseMessage, findPlus8, h5, shape_find_type, shape_find_data _ _ _ hT,
    shape_find_meta _ _ _ hT hD]
  rw [show 1 + 8 = 9 from rfl, show 11 + (escape t).length + 8 = 19 + (escape t).length by omega,
    show 21 + (escape t).length + (escape d).length + 12
      = 33 + (escape t).length + (escape d).length by omega]
  simp only [shape_find_type_end _ _ _ hT, shape_find_data_end _ _ _ hD,
    shape_find_closers _ _ m true hc, shape_substr_type, shape_substr_data, shape_substr_meta,
    Option.map_some', hpairs]

/-- C1 (amended): for a type, a data string and a metadata map (a `std::map`, keys
ascending) whose type, data, keys and values hold none of the five escaped characters, and
whose keys and values moreover do not hold the text `}}`,
`parseMessage (createMessage type data metadata)` returns exactly that type, that data
and that metadata map. -/
theorem parseMessage_createMessage_plain (type data : Str) (metadata : StrMap)
    (hmap : StrMapOk metadata) (htype : Plain type) (hdata : Plain data)
    (hmeta : ∀ p ∈ metadata, Plain p.1 ∧ Plain p.2)
    (hclose : ∀ p ∈ metadata, ¬ closers <:+: p.1 ∧ ¬ closers <:+: p.2) :
    parseMessage (createMessage type data metadata) = some ⟨type, data, metadata⟩ := by
  have hesc : ∀ p ∈ metadata, escape p.1 = p.1 ∧ escape p.2 = p.2 := fun p hp =>
    ⟨escape_plain _ (hmeta p hp).1, escape_plain _ (hmeta p hp).2⟩
  have hun : ∀ p ∈ metadata, unescape (escape p.1) = p.1 ∧ unescape (escape p.2) = p.2 := by
    intro p hp
    rw [(hesc p hp).1, (hesc p hp).2]
    exact ⟨unescape_no_bslash _ (hmeta p hp).1.no_bslash,
      unescape_no_bslash _ (hmeta p hp).2.no_bslash⟩
  rw [parseMessage_createMessage_of_clean type data metadata
    (by rw [escape_plain _ htype]; exact htype.no_dq)
    (by rw [escape_plain _ hdata]; exact hdata.no_dq)
    (fun p hp => by
      rw [(hesc p hp).1, (hesc p hp).2]
      exact ⟨(hmeta p hp).1.no_dq, (hmeta p hp).2.no_dq⟩)
    (fun p hp => by
      rw [(hesc p hp).1, (hesc p hp).2]
      exact hclose p hp)]
  rw [escape_plain _ htype, escape_plain _ hdata, unescape_no_bslash _ htype.no_bslash,
    unescape_no_bslash _ hdata.no_bslash,
    storePairs_sorted metadata [] (by simpa using hmap) hun]
  rfl

/-- Witness of `parseMessage_createMessage_plain`: a `FILE` announcement with two
metadata entries. -/
theorem parseMessage_createMessage_plain_witness :
    StrMapOk [(lit "filename", lit "a.txt"), (lit "size", lit "3")] ∧
    parseMessage (createMessage (lit "FILE") [] [(lit "filename", lit "a.txt"), (lit "size", lit "3")])
      = some ⟨lit "FILE", [], [(lit "filename", lit "a.txt"), (lit "size", lit "3")]⟩ :=
  ⟨by decide,
   parseMessage_createMessage_plain (lit "FILE") [] [(lit "filename", lit "a.txt"), (lit "size", lit "3")]
    (by decide) (by decide) (by decide) (by decide) (by decide)⟩

/-- C1 (counterexample): the type `TEXT`, the data `hi` and the one-entry metadata map
`k ↦ }}` hold none of the five escaped characters, yet decoding the encoded envelope
returns an empty metadata map. -/
theorem parseMessage_createMessage_loses_closers :
    StrMapOk [(lit "k", lit "\x7d\x7d")] ∧ Plain (lit "TEXT") ∧ Plain (lit "hi") ∧
    (∀ p ∈ [(lit "k", lit "\x7d\x7d")], Plain p.1 ∧ Plain p.2) ∧
    parseMessage (createMessage (lit "TEXT") (lit "hi") [(lit "k", lit "\x7d\x7d")])
      = some ⟨lit "TEXT", lit "hi", []⟩ ∧
    parseMessage (createMessage (lit "TEXT") (lit "hi") [(lit "k", lit "\x7d\x7d")])
      ≠ some ⟨lit "TEXT", lit "hi", [(lit "k", lit "\x7d\x7d")]⟩ := by
  decide

/-! ### The fuel of the pair loop is never used up -/

theorem findAux_ge (pat : Str) : ∀ (s : Str) (i j : Nat), findAux pat s i = some j → i ≤ j
  | [], i, j, h => by
    simp only [findAux] at h
    split at h
    · simp only [Option.some.injEq] at h; omega
    · simp at h
  | c :: cs, i, j, h => by
    simp only [findAux] at h
    split at h
    · simp only [Option.some.injEq] at h; omega
    · have := findAux_ge pat cs (i + 1) j h
      omega

theorem find_ge (s pat : Str) (pos j : Nat) (h : find s pat pos = some j) : pos ≤ j := by
  unfold find at h
  split at h
  · exact findAux_ge pat _ pos j h
  · simp at h

/-- Any two amounts of fuel that cover the rest of the text give the same result: the
loop of `parseMessage` always ends by itself. -/
theorem parsePairs_fuel (metaStr : Str) :
    ∀ (fuel fuel' pos : Nat) (m : StrMap),
      metaStr.length ≤ pos + fuel → metaStr.length ≤ pos + fuel' →
      parsePairs fuel metaStr pos m = parsePairs fuel' metaStr pos m
  | 0, 0, _, _, _, _ => rfl
  | 0, fuel' + 1, pos, m, h, _ => by
    have hp : ¬ pos < metaStr.length := by omega
    simp [parsePairs, hp]
  | fuel + 1, 0, pos, m, _, h => by
    have hp : ¬ pos < metaStr.length := by omega
    simp [parsePairs, hp]
  | fuel + 1, fuel' + 1, pos, m, h, h' => by
    rw [parsePairs, parsePairs]
    split
    · cases h1 : find metaStr [dq] pos with
      | none => rfl
      | some ks =>
        simp only
        cases h2 : find metaStr [dq] (ks + 1) with
        | none => rfl
        | some keyEnd =>
          simp only
          cases h3 : find metaStr [dq] (keyEnd + 1) with
          | none => rfl
          | some vs =>
            simp only
            cases h4 : find metaStr [dq] (vs + 1) with
            | none => rfl
            | some valueEnd =>
              have g1 := find_ge _ _ _ _ h1
              have g2 := find_ge _ _ _ _ h2
              have g3 := find_ge _ _ _ _ h3
              have g4 := find_ge _ _ _ _ h4
              simp only
              split
              · exact parsePairs_fuel metaStr fuel fuel' (valueEnd + 1) _ (by omega) (by omega)
              · rfl
    · rfl

/-! ## Theorems: numbers and their text -/

theorem wrapInt32_of_range (x : Int) (h0 : -2 ^ 31 ≤ x) (h1 : x < 2 ^ 31) : wrapInt32 x = x := by
  unfold wrapInt32
  omega

theorem wrapInt32_add_wrap (a b : Int) : wrapInt32 (wrapInt32 a + b) = wrapInt32 (a + b) := by
  unfold wrapInt32
  omega

theorem wrapInt32_zero : wrapInt32 0 = 0 := by decide

theorem wrapInt32_idem (a : Int) : wrapInt32 (wrapInt32 a) = wrapInt32 a := by
  unfold wrapInt32
  omega

theorem digitVal_hexDigit (d : Nat) (h : d < 16) : digitVal (hexDigit d) = some d := by
  interval_cases d <;> decide

theorem hexDigit_not_space (d : Nat) (h : d < 16) : isSpace (hexDigit d) = false := by
  interval_cases d <;> decide

theorem hexDigit_not_sign (d : Nat) (h : d < 16) : hexDigit d ≠ '-' ∧ hexDigit d ≠ '+' := by
  interval_cases d <;> decide

theorem natDigits_append : ∀ (fuel n : Nat) (ds : Str),
    natDigits fuel n ds = natDigits fuel n [] ++ ds
  | 0, _, _ => rfl
  | fuel + 1, n, ds => by
    simp only [natDigits]
    split
    · rfl
    · rw [natDigits_append fuel (n / 10) (hexDigit (n % 10) :: ds),
        natDigits_append fuel (n / 10) [hexDigit (n % 10)]]
      simp

theorem natDigits_succ (fuel n : Nat) :
    natDigits (fuel + 1) n [] =
      if n / 10 = 0 then [hexDigit (n % 10)]
      else natDigits fuel (n / 10) [] ++ [hexDigit (n % 10)] := by
  simp only [natDigits]
  split
  · rfl
  · rw [natDigits_append]

/-- Reading back the decimal digits of `n`: `readDigits` takes them all and their value
is `n`. -/
theorem readDigits_natDigits : ∀ (fuel n : Nat), n < fuel → ∀ (rest : Str) (cnt acc : Nat),
    readDigits 10 (natDigits fuel n [] ++ rest) cnt acc
      = readDigits 10 rest (cnt + (natDigits fuel n []).length)
          (acc * 10 ^ (natDigits fuel n []).length + n)
  | 0, _, h, _, _, _ => absurd h (Nat.not_lt_zero _)
  | fuel + 1, n, h, rest, cnt, acc => by
    have hd : digitVal (hexDigit (n % 10)) = some (n % 10) :=
      digitVal_hexDigit _ (by omega)
    have hlt : n % 10 < 10 := Nat.mod_lt _ (by norm_num)
    rw [natDigits_succ]
    by_cases h0 : n / 10 = 0
    · have hn : n % 10 = n := by omega
      rw [hn] at hd hlt
      simp only [h0, if_true, List.cons_append, List.nil_append, readDigits, hd, hlt,
        List.length_cons, List.length_nil, pow_one, Nat.zero_add, hn]
    · have hlt' : n / 10 < fuel := by omega
      simp only [h0, if_false, List.append_assoc, List.cons_append, List.nil_append]
      rw [readDigits_natDigits fuel (n / 10) hlt']
      simp only [readDigits, hd, hlt, if_true, List.length_append, List.length_cons,
        List.length_nil]
      congr 1
      rw [pow_succ]
      have := Nat.div_add_mod n 10
      nlinarith [this]

/-- Fuel beyond the number of digits changes nothing. -/
theorem natDigits_fuel : ∀ (k n fuel : Nat), 1 ≤ k → n < 10 ^ k → k ≤ fuel →
    natDigits fuel n [] = natDigits k n []
  | 0, _, _, hk, _, _ => absurd hk (by omega)
  | k + 1, n, 0, _, _, hf => absurd hf (by omega)
  | k + 1, n, fuel + 1, _, hn, hf => by
    rw [natDigits_succ, natDigits_succ]
    by_cases h0 : n / 10 = 0
    · simp [h0]
    · have hn' : n / 10 < 10 ^ k := by
        rw [Nat.div_lt_iff_lt_mul (by norm_num)]
        rw [pow_succ] at hn
        exact hn
      have hk' : 1 ≤ k := by
        rcases Nat.eq_zero_or_pos k with rfl | h
        · simp at hn'
          exact absurd hn' h0
        · exact h
      simp only [h0, if_false]
      rw [natDigits_fuel k (n / 10) fuel hk' hn' (by omega)]

theorem natDigits_ne_nil (fuel n : Nat) : natDigits (fuel + 1) n [] ≠ [] := by
  rw [natDigits_succ]
  split <;> simp

theorem to_string_nat_injective (a b : Nat) (h : to_string_nat a = to_string_nat b) : a = b := by
  have ha := readDigits_natDigits (a + 1) a (Nat.lt_succ_self _) [] 0 0
  have hb := readDigits_natDigits (b + 1) b (Nat.lt_succ_self _) [] 0 0
  unfold to_string_nat at h
  rw [h, hb] at ha
  simp only [readDigits, Nat.zero_add, Nat.zero_mul, Prod.mk.injEq] at ha
  exact ha.2.symm

/-- Every character of a decimal numeral is a decimal digit. -/
theorem natDigits_all_digits : ∀ (fuel n : Nat), ∀ c ∈ natDigits fuel n [],
    ∃ d, d < 10 ∧ c = hexDigit d
  | 0, _, c, hc => by simp [natDigits] at hc
  | fuel + 1, n, c, hc => by
    rw [natDigits_succ] at hc
    have hlt : n % 10 < 10 := Nat.mod_lt _ (by norm_num)
    split at hc
    · simp only [List.mem_singleton] at hc
      exact ⟨_, hlt, hc⟩
    · rcases List.mem_append.mp hc with hc | hc
      · exact natDigits_all_digits fuel (n / 10) c hc
      · simp only [List.mem_singleton] at hc
        exact ⟨_, hlt, hc⟩

theorem to_string_nat_head (n : Nat) :
    ∃ d r, d < 10 ∧ to_string_nat n = hexDigit d :: r := by
  unfold to_string_nat
  have hne := natDigits_ne_nil n n
  cases hs : natDigits (n + 1) n [] with
  | nil => exact absurd hs hne
  | cons c r =>
    obtain ⟨d, hd, rfl⟩ := natDigits_all_digits (n + 1) n c (by rw [hs]; exact List.mem_cons_self _ _)
    exact ⟨d, r, hd, rfl⟩

theorem to_string_int_injective (a b : Int) (h : to_string_int a = to_string_int b) : a = b := by
  unfold to_string_int at h
  by_cases ha : a < 0 <;> by_cases hb : b < 0
  · simp only [ha, hb, if_true, List.cons.injEq, true_and] at h
    have := to_string_nat_injective _ _ h
    omega
  · simp only [ha, hb, if_true, if_false] at h
    obtain ⟨d, r, hd, hr⟩ := to_string_nat_head b.toNat
    rw [hr] at h
    have := (List.cons.inj h).1
    exact absurd this.symm (hexDigit_not_sign d (by omega)).1
  · simp only [ha, hb, if_true, if_false] at h
    obtain ⟨d, r, hd, hr⟩ := to_string_nat_head a.toNat
    rw [hr] at h
    have := (List.cons.inj h).1
    exact absurd this (hexDigit_not_sign d (by omega)).1
  · simp only [ha, hb, if_false] at h
    have := to_string_nat_injective _ _ h
    omega

theorem skipHexMark_ten (s : Str) : skipHexMark 10 s = s := by
  unfold skipHexMark
  split <;> simp

/-- `std::stoull(std::to_string(n))` gives `n` back for every `n` that fits 64 bits. -/
theorem stoul_to_string_nat (n : Nat) (h : n < 2 ^ 64) : stoul (to_string_nat n) 10 = some n := by
  obtain ⟨d, r, hd, hr⟩ := to_string_nat_head n
  have hsp : (to_string_nat n).dropWhile isSpace = to_string_nat n := by
    rw [hr, List.dropWhile_cons, hexDigit_not_space d (by omega)]
    rfl
  have hsign : readSign (to_string_nat n) = (false, to_string_nat n) := by
    rw [hr]
    have h1 := (hexDigit_not_sign d (by omega)).1
    have h2 := (hexDigit_not_sign d (by omega)).2
    unfold readSign
    split
    · rename_i heq; exact absurd (List.cons.inj heq).1 h1
    · rename_i heq; exact absurd (List.cons.inj heq).1 h2
    · rfl
  have hmark : skipHexMark 10 (to_string_nat n) = to_string_nat n :=
    skipHexMark_ten _
  have hread := readDigits_natDigits (n + 1) n (Nat.lt_succ_self _) [] 0 0
  simp only [List.append_nil, readDigits, Nat.zero_add, Nat.zero_mul] at hread
  have hlen : (natDigits (n + 1) n []).length ≠ 0 := by
    intro e
    exact natDigits_ne_nil n n (List.length_eq_zero.mp e)
  have hnot : ¬ 2 ^ 64 ≤ n := by omega
  unfold stoul
  simp only [hsp, hsign, hmark]
  simp only [to_string_nat, hread, hlen, if_false, hnot, Bool.false_eq_true]

set_option maxRecDepth 100000 in
theorem stoul_hexOf : ∀ b, b < 256 → stoul (hexOf b) 16 = some b := by
  decide

theorem hexOf_mod (b : Nat) : hexOf (b % 256) = hexOf b := by
  simp [hexOf]

theorem hexDecodeServer_hexEncode : ∀ bs : List Nat,
    hexDecodeServer (hexEncode bs) = some (bs.map (· % 256))
  | [] => rfl
  | b :: bs => by
    have h := stoul_hexOf (b % 256) (Nat.mod_lt _ (by norm_num))
    rw [hexOf_mod] at h
    have e : hexEncode (b :: bs)
        = hexDigit (b % 256 / 16) :: hexDigit (b % 256 % 16) :: hexEncode bs := rfl
    have e2 : hexOf b = [hexDigit (b % 256 / 16), hexDigit (b % 256 % 16)] := rfl
    rw [e2] at h
    simp [e, hexDecodeServer, h, hexDecodeServer_hexEncode bs]

theorem hexDecodeClient_hexEncode : ∀ bs : List Nat,
    hexDecodeClient (hexEncode bs) = some (bs.map (· % 256))
  | [] => rfl
  | b :: bs => by
    have h := stoul_hexOf (b % 256) (Nat.mod_lt _ (by norm_num))
    rw [hexOf_mod] at h
    have e : hexEncode (b :: bs)
        = hexDigit (b % 256 / 16) :: hexDigit (b % 256 % 16) :: hexEncode bs := rfl
    have e2 : hexOf b = [hexDigit (b % 256 / 16), hexDigit (b % 256 % 16)] := rfl
    rw [e2] at h
    simp [e, hexDecodeClient, h, hexDecodeClient_hexEncode bs]

theorem map_mod_of_bytes (bs : List Nat) (h : ∀ b ∈ bs, b < 256) : bs.map (· % 256) = bs := by
  induction bs with
  | nil => rfl
  | cons b bs ih =>
    have hb := h b (List.mem_cons_self _ _)
    simp only [List.map_cons, Nat.mod_eq_of_lt hb]
    rw [ih (fun x hx => h x (List.mem_cons_of_mem _ hx))]

/-! ## Theorems: framing -/

theorem ntohl_be32 (n : Nat) (h : n < 2 ^ 32) : ntohl (be32 n) = n := by
  have h0 : ∀ k, k < 256 → (Char.ofNat k).toNat = k := by
    intro k hk
    have hv : k.isValidChar := Or.inl (by omega)
    simp only [Char.ofNat, hv, Char.toNat, Char.ofNatAux, dite_true]
    rfl
  simp only [be32, ntohl]
  rw [h0 _ (Nat.mod_lt _ (by norm_num)), h0 _ (Nat.mod_lt _ (by norm_num)),
    h0 _ (Nat.mod_lt _ (by norm_num)), h0 _ (Nat.mod_lt _ (by norm_num))]
  omega

theorem be32_length (n : Nat) : (be32 n).length = 4 := rfl

theorem readFrame_of_header (hdr rest : Str) (h4 : hdr.length = 4) :
    readFrame (hdr ++ rest) =
      if ntohl hdr > 1024 * 1024 then (none, rest)
      else if (rest.take (ntohl hdr)).length ≠ ntohl hdr then (none, rest.drop (ntohl hdr))
      else (some (rest.take (ntohl hdr)), rest.drop (ntohl hdr)) := by
  have ht : (hdr ++ rest).take 4 = hdr := by
    rw [← h4]; simp
  have hd : (hdr ++ rest).drop 4 = rest := by
    rw [← h4]; simp
  simp only [readFrame, recvAll, ht, hd, h4, ne_eq, not_true_eq_false, if_false]

theorem readFrame_frameBytes (b rest : Str) (h : b.length ≤ 1048576) :
    readFrame (frameBytes b ++ rest) = (some b, rest) := by
  have hlt : b.length < 2 ^ 32 := by omega
  rw [frameBytes, List.append_assoc, readFrame_of_header _ _ (be32_length _),
    Nat.mod_eq_of_lt hlt, ntohl_be32 _ hlt]
  have h1 : ¬ b.length > 1024 * 1024 := by omega
  simp [h1]

theorem readFrames_wireOf : ∀ (bodies : List Str) (rest : Str),
    (∀ b ∈ bodies, b.length ≤ 1048576) →
      readFrames bodies.length (wireOf bodies ++ rest) = (bodies.map some, rest)
  | [], rest, _ => by simp [readFrames, wireOf]
  | b :: bs, rest, h => by
    have ih := readFrames_wireOf bs rest (fun x hx => h x (List.mem_cons_of_mem _ hx))
    have hb := readFrame_frameBytes b (wireOf bs ++ rest) (h b (List.mem_cons_self _ _))
    have e : wireOf (b :: bs) ++ rest = frameBytes b ++ (wireOf bs ++ rest) := by
      simp [wireOf]
    simp only [List.length_cons, readFrames, e, hb, ih, List.map_cons]

/-- C4: `receiveMessage` fails on every frame whose four-byte big-endian length prefix
is greater than 1,048,576, and the unread rest of the stream is then everything after
the four prefix bytes: no body byte was read. A prefix of exactly 1,048,576 passes the
check: the body is read (1,048,576 bytes leave the stream) and handed to `parseMessage`. -/
theorem receiveMessage_size_ceiling (hdr rest : Str) (h4 : hdr.length = 4) :
    (1048576 < ntohl hdr → receiveMessage (hdr ++ rest) = (none, rest)) ∧
    (ntohl hdr = 1048576 → 1048576 ≤ rest.length →
      receiveMessage (hdr ++ rest)
        = (parseMessage (rest.take 1048576), rest.drop 1048576)) := by
  constructor
  · intro h
    have h' : ntohl hdr > 1024 * 1024 := by omega
    simp [receiveMessage, readFrame_of_header hdr rest h4, h']
  · intro h hr
    have h' : ¬ ntohl hdr > 1024 * 1024 := by omega
    have hl : (rest.take 1048576).length = 1048576 := by
      rw [List.length_take]; omega
    rw [h] at h'
    simp only [receiveMessage, readFrame_of_header hdr rest h4, h, h', if_false, hl, ne_eq,
      not_true_eq_false]

/-- Witness of `receiveMessage_size_ceiling`: the prefix `00 10 00 01` (1,048,577) in
front of five body bytes, and the prefix `00 10 00 00` in front of 1,048,576 bytes. -/
theorem receiveMessage_size_ceiling_witness :
    receiveMessage (be32 1048577 ++ lit "hello") = (none, lit "hello") ∧
    receiveMessage (be32 1048576 ++ List.replicate 1048576 'a')
      = (parseMessage ((List.replicate 1048576 'a').take 1048576),
          (List.replicate 1048576 'a').drop 1048576) :=
  ⟨(receiveMessage_size_ceiling (be32 1048577) (lit "hello") rfl).1
      (by rw [ntohl_be32 _ (by norm_num)]; norm_num),
   (receiveMessage_size_ceiling (be32 1048576) (List.replicate 1048576 'a') rfl).2
      (ntohl_be32 _ (by norm_num)) (by rw [List.length_replicate])⟩

/-- C5: for every list of message bodies of at most 1,048,576 bytes each, the bytes
`sendMessage` writes for them (per body the four big-endian length bytes, then the body)
are read back by successive frame reads of `receiveMessage` as exactly those bodies, in
order; each read takes exactly the `4 + length` bytes of its frame off the stream and
`receiveMessage` hands the body to `parseMessage`. -/
theorem readFrames_of_sent (bodies : List Str) (rest : Str)
    (h : ∀ b ∈ bodies, b.length ≤ 1048576) :
    readFrames bodies.length (wireOf bodies ++ rest) = (bodies.map some, rest) ∧
    ∀ b ∈ bodies, ∀ r : Str,
      (frameBytes b).length = 4 + b.length ∧
      frameBytes b = be32 b.length ++ b ∧
      readFrame (frameBytes b ++ r) = (some b, r) ∧
      receiveMessage (frameBytes b ++ r) = (parseMessage b, r) := by
  refine ⟨readFrames_wireOf bodies rest h, fun b hb r => ⟨?_, ?_, ?_, ?_⟩⟩
  · simp [frameBytes, be32_length]
  · have hlt : b.length < 2 ^ 32 := by have := h b hb; omega
    rw [frameBytes, Nat.mod_eq_of_lt hlt]
  · exact readFrame_frameBytes b r (h b hb)
  · simp [receiveMessage, readFrame_frameBytes b r (h b hb)]

/-- Witness of `readFrames_of_sent`: two bodies followed by one stray byte. -/
theorem readFrames_of_sent_witness :
    readFrames 2 (wireOf [lit "ab", lit "c"] ++ lit "x")
      = ([some (lit "ab"), some (lit "c")], lit "x") :=
  (readFrames_of_sent [lit "ab", lit "c"] (lit "x") (by decide)).1

/-! ## Theorems: registry and router -/

theorem attempts_length (net : Nat → Bool) (t d : Str) (m : StrMap) :
    ∀ (start : Nat) (l : List Int), (attempts net t d m start l).length = l.length
  | _, [] => rfl
  | start, _ :: ss => by simp [attempts, attempts_length net t d m (start + 1) ss]

theorem attempts_sockets (net : Nat → Bool) (t d : Str) (m : StrMap) :
    ∀ (start : Nat) (l : List Int), (attempts net t d m start l).map Sent.socket = l
  | _, [] => rfl
  | start, _ :: ss => by simp [attempts, attempts_sockets net t d m (start + 1) ss]

theorem attempts_envelope (net : Nat → Bool) (t d : Str) (m : StrMap) :
    ∀ (start : Nat) (l : List Int), ∀ x ∈ attempts net t d m start l,
      x.type = t ∧ x.data = d ∧ x.metadata = m
  | _, [], x, hx => by simp [attempts] at hx
  | start, s :: ss, x, hx => by
    simp only [attempts, List.mem_cons] at hx
    rcases hx with rfl | hx
    · exact ⟨rfl, rfl, rfl⟩
    · exact attempts_envelope net t d m (start + 1) ss x hx

theorem broadcastLoop_eq (net : Nat → Bool) (t d : Str) (m : StrMap) (ex : Int) :
    ∀ (l : List (Int × ClientInfo)) (st : Server),
      broadcastLoop net t d m ex l st
        = { st with sent := st.sent ++ attempts net t d m st.sent.length (recipients l ex) }
  | [], st => by simp [broadcastLoop, recipients, attempts]
  | pair :: rest, st => by
    by_cases h : pair.1 = ex
    · simp [broadcastLoop, h, recipients, broadcastLoop_eq net t d m ex rest st]
    · simp [broadcastLoop, h, recipients, broadcastLoop_eq net t d m ex rest, sendMessage,
        attempts]

/-- `broadcastMessage` as a whole: one `sendMessage` call per registry entry other than
the excluded socket, in the order of the map, and nothing else changes. -/
theorem broadcastMessage_eq (net : Nat → Bool) (st : Server) (t d : Str) (m : StrMap)
    (ex : Int) :
    broadcastMessage net st t d m ex
      = { st with sent := st.sent ++
            attempts net t d m st.sent.length (recipients st.clients ex) } :=
  broadcastLoop_eq net t d m ex st.clients st

theorem newSends_append (st : Server) (l : List Sent) :
    newSends st { st with sent := st.sent ++ l } = l := by
  simp [newSends]

theorem findAux_none_of_notin (q : Char) :
    ∀ (s : Str) (i : Nat), q ∉ s → findAux [q] s i = none
  | [], _, _ => by simp [findAux, List.isPrefixOf]
  | x :: s, i, h => by
    have hx : q ≠ x := fun e => h (e ▸ List.mem_cons_self _ _)
    have hp : ([q] : Str).isPrefixOf (x :: s) = false := by simp [List.isPrefixOf, hx]
    rw [findAux_skip_one _ _ _ _ hp]
    exact findAux_none_of_notin q s (i + 1) (fun e => h (List.mem_cons_of_mem _ e))

theorem clientsOk_count (clients : List (Int × ClientInfo)) (hok : ClientsOk clients)
    (ex s : Int) :
    (recipients clients ex).count s
      = if s ≠ ex ∧ s ∈ clients.map Prod.fst then 1 else 0 := by
  have hnd : (clients.map Prod.fst).Nodup := by
    unfold ClientsOk at hok
    rw [List.Nodup, List.pairwise_map]
    exact hok.imp (fun h => ne_of_lt h)
  have hnd' : (recipients clients ex).Nodup := by
    unfold recipients
    rw [List.Nodup, List.pairwise_map]
    exact (List.Pairwise.filter _ (List.pairwise_map.mp hnd))
  have hmem : s ∈ recipients clients ex ↔ s ≠ ex ∧ s ∈ clients.map Prod.fst := by
    simp only [recipients, List.mem_map, List.mem_filter, decide_eq_true_eq, ne_eq]
    constructor
    · rintro ⟨p, ⟨hp, hne⟩, rfl⟩
      exact ⟨hne, p, hp, rfl⟩
    · rintro ⟨hne, p, hp, rfl⟩
      exact ⟨p, ⟨hp, hne⟩, rfl⟩
  rw [List.count_eq_of_nodup hnd']
  by_cases h : s ∈ recipients clients ex
  · rw [if_pos h, if_pos (hmem.mp h)]
  · rw [if_neg h, if_neg (fun e => h (hmem.mpr e))]

/-- C6: when a connection `C` with user name `u` sends a `TEXT` envelope whose data `d`
does not start with `@`, or holds no space, the server makes exactly one `sendMessage`
call per registered connection other than `C`, each carrying a `TEXT` envelope with data
`u ++ ": " ++ d` and empty metadata, makes no call to `C`, and changes nothing else. -/
theorem processMessage_text_broadcast (net : Nat → Bool) (st : Server) (C : Int)
    (msg : ParsedMessage) (u : Str) (hreg : ClientsOk st.clients)
    (htype : msg.type = MessageType.TEXT)
    (hd : msg.data.head? ≠ some '@' ∨ ' ' ∉ msg.data) :
    ∃ st1, processMessage net st C msg u = some st1 ∧
      st1.clients = st.clients ∧ st1.file_transfers = st.file_transfers ∧ st1.fs = st.fs ∧
      st1.sent = st.sent ++ newSends st st1 ∧
      newSends st st1 = attempts net MessageType.TEXT (u ++ lit ": " ++ msg.data) []
        st.sent.length (recipients st.clients C) ∧
      (∀ x ∈ newSends st st1, x.type = MessageType.TEXT ∧
        x.data = u ++ lit ": " ++ msg.data ∧ x.metadata = []) ∧
      (∀ s, ((newSends st st1).map Sent.socket).count s
        = if s ≠ C ∧ s ∈ st.clients.map Prod.fst then 1 else 0) ∧
      ((newSends st st1).map Sent.socket).count C = 0 := by
  have hp : processMessage net st C msg u
      = some (broadcastMessage net st MessageType.TEXT (u ++ lit ": " ++ msg.data) [] C) := by
    rcases hd with hd | hd
    · simp [processMessage, htype, hd]
    · have hf : find msg.data [' '] 0 = none := by
        rw [find_zero]; exact findAux_none_of_notin ' ' _ 0 hd
      simp [processMessage, htype, hf]
  refine ⟨_, hp, ?_⟩
  rw [broadcastMessage_eq, newSends_append]
  refine ⟨rfl, rfl, rfl, rfl, rfl, attempts_envelope _ _ _ _ _ _, ?_, ?_⟩
  · intro s
    rw [attempts_sockets]
    exact clientsOk_count st.clients hreg C s
  · rw [attempts_sockets, clientsOk_count st.clients hreg C C]
    simp

/-- Witness of `processMessage_text_broadcast`: `alice` (socket 4) says `hello` on the
sample server. -/
theorem processMessage_text_broadcast_witness :
    ∃ st1, processMessage netUp sampleServer 4 ⟨MessageType.TEXT, lit "hello", []⟩ (lit "alice")
        = some st1 ∧
      st1.clients = sampleServer.clients ∧ st1.file_transfers = sampleServer.file_transfers ∧
      st1.fs = sampleServer.fs ∧
      st1.sent = sampleServer.sent ++ newSends sampleServer st1 ∧
      newSends sampleServer st1 = attempts netUp MessageType.TEXT
        (lit "alice" ++ lit ": " ++ lit "hello") []
        sampleServer.sent.length (recipients sampleServer.clients 4) ∧
      (∀ x ∈ newSends sampleServer st1, x.type = MessageType.TEXT ∧
        x.data = lit "alice" ++ lit ": " ++ lit "hello" ∧ x.metadata = []) ∧
      (∀ s, ((newSends sampleServer st1).map Sent.socket).count s
        = if s ≠ 4 ∧ s ∈ sampleServer.clients.map Prod.fst then 1 else 0) ∧
      ((newSends sampleServer st1).map Sent.socket).count 4 = 0 :=
  processMessage_text_broadcast netUp sampleServer 4 ⟨MessageType.TEXT, lit "hello", []⟩
    (lit "alice") (by decide) rfl (Or.inl (by decide))

theorem find_space_at (name rest : Str) (hn : ' ' ∉ name) :
    find ('@' :: (name ++ ' ' :: rest)) [' '] 0 = some (name.length + 1) := by
  have hp : ([' '] : Str).isPrefixOf ('@' :: (name ++ ' ' :: rest)) = false := by
    simp [List.isPrefixOf]
  rw [find_zero, findAux_skip_one _ _ _ _ hp, findAux_skip_notin ' ' [] name _ _ hn,
    findAux_hit _ _ _ (by simp [List.isPrefixOf])]
  congr 1
  omega

theorem substr_target (name rest : Str) :
    substr ('@' :: (name ++ ' ' :: rest)) 1 (name.length + 1 - 1) = some name := by
  have := substr_append_at ['@'] name (' ' :: rest) 1 (name.length + 1 - 1) rfl (by omega)
  simpa using this

theorem substrFrom_rest (name rest : Str) :
    substrFrom ('@' :: (name ++ ' ' :: rest)) (name.length + 1 + 1) = some rest := by
  have e : '@' :: (name ++ ' ' :: rest) = ('@' :: (name ++ [' '])) ++ rest := by simp
  have hl : name.length + 1 + 1 = ('@' :: (name ++ [' '])).length := by simp
  rw [e, hl]
  simp [substrFrom]

/-- What `processMessage` does with `@name rest`: `sendToUser`, then an `ERROR` to the
sender when that returned `false`. -/
theorem processMessage_private (net : Nat → Bool) (st : Server) (C : Int) (u name rest : Str)
    (m : StrMap) (hn : ' ' ∉ name) :
    processMessage net st C ⟨MessageType.TEXT, '@' :: (name ++ ' ' :: rest), m⟩ u =
      if (sendToUser net st name MessageType.TEXT
            (lit "[私信来自 " ++ u ++ lit "]: " ++ rest) []).1
      then some (sendToUser net st name MessageType.TEXT
            (lit "[私信来自 " ++ u ++ lit "]: " ++ rest) []).2
      else some (sendMessage net (sendToUser net st name MessageType.TEXT
            (lit "[私信来自 " ++ u ++ lit "]: " ++ rest) []).2 C MessageType.ERROR
            (lit "用户 '" ++ name ++ lit "' 不在线") []).2 := by
  simp only [processMessage, find_space_at name rest hn, substr_target, substrFrom_rest]
  simp

/-- C7: when a connection `C` sends a `TEXT` envelope whose data is `@`, a name without
space, a space and more text, and no registered connection has that name as user name,
the server makes exactly one `sendMessage` call: an `ERROR` envelope to `C` whose data
holds the missing name. No other connection is sent anything and the registry, the
transfer sessions and the files are unchanged. -/
theorem processMessage_unicast_miss (net : Nat → Bool) (st : Server) (C : Int)
    (u name rest : Str) (m : StrMap) (hn : ' ' ∉ name)
    (hmiss : ∀ pair ∈ st.clients, pair.2.username ≠ name) :
    ∃ st1, processMessage net st C ⟨MessageType.TEXT, '@' :: (name ++ ' ' :: rest), m⟩ u
        = some st1 ∧
      st1.clients = st.clients ∧ st1.file_transfers = st.file_transfers ∧ st1.fs = st.fs ∧
      st1.sent = st.sent ++ newSends st st1 ∧
      newSends st st1 = [⟨C, MessageType.ERROR, lit "用户 '" ++ name ++ lit "' 不在线", [],
        net st.sent.length⟩] ∧
      name <:+: lit "用户 '" ++ name ++ lit "' 不在线" := by
  have hfind : st.clients.find? (fun pair => pair.2.username = name) = none := by
    rw [List.find?_eq_none]
    intro p hp
    simpa using hmiss p hp
  have hsend : ∀ t d md, sendToUser net st name t d md = (false, st) := by
    intro t d md
    simp [sendToUser, hfind]
  refine ⟨_, by rw [processMessage_private net st C u name rest m hn, hsend]; rfl, ?_⟩
  refine ⟨rfl, rfl, rfl, ?_, ?_, ?_⟩
  · simp [sendMessage, newSends]
  · simp [sendMessage, newSends]
  · exact ⟨lit "用户 '", lit "' 不在线", rfl⟩

/-- Witness of `processMessage_unicast_miss`: `alice` writes `@ghost hello` on the
sample server, where nobody is called `ghost`. -/
theorem processMessage_unicast_miss_witness :
    ∃ st1, processMessage netUp sampleServer 4
        ⟨MessageType.TEXT, '@' :: (lit "ghost" ++ ' ' :: lit "hello"), []⟩ (lit "alice")
        = some st1 ∧
      st1.clients = sampleServer.clients ∧ st1.file_transfers = sampleServer.file_transfers ∧
      st1.fs = sampleServer.fs ∧
      st1.sent = sampleServer.sent ++ newSends sampleServer st1 ∧
      newSends sampleServer st1 = [⟨4, MessageType.ERROR,
        lit "用户 '" ++ lit "ghost" ++ lit "' 不在线", [], netUp sampleServer.sent.length⟩] ∧
      lit "ghost" <:+: lit "用户 '" ++ lit "ghost" ++ lit "' 不在线" :=
  processMessage_unicast_miss netUp sampleServer 4 (lit "alice") (lit "ghost") (lit "hello") []
    (by decide) (by decide)

/-- C8: when a connection `C` with user name `u` sends `TEXT` data of the form `@`, a
name without space, a space and `rest`, some registered connection has that name as user
name, and the send succeeds, the server makes exactly one `sendMessage` call: a `TEXT`
envelope to one connection registered under that name, whose data is the private-message
tag naming `u` followed by `rest` unchanged. No `ERROR` goes to `C`, no other connection
is sent anything, and nothing else changes. -/
theorem processMessage_unicast_hit (net : Nat → Bool) (st : Server) (C : Int)
    (u name rest : Str) (m : StrMap) (hn : ' ' ∉ name)
    (hhit : ∃ pair ∈ st.clients, pair.2.username = name)
    (hsent : net st.sent.length = true) :
    ∃ st1 target, processMessage net st C
        ⟨MessageType.TEXT, '@' :: (name ++ ' ' :: rest), m⟩ u = some st1 ∧
      target ∈ st.clients ∧ target.2.username = name ∧
      st1.clients = st.clients ∧ st1.file_transfers = st.file_transfers ∧ st1.fs = st.fs ∧
      st1.sent = st.sent ++ newSends st st1 ∧
      newSends st st1 = [⟨target.1, MessageType.TEXT,
        lit "[私信来自 " ++ u ++ lit "]: " ++ rest, [], true⟩] := by
  obtain ⟨p, hp, hpn⟩ := hhit
  have hsome : (st.clients.find? (fun pair => pair.2.username = name)).isSome := by
    rw [List.find?_isSome]
    exact ⟨p, hp, by simpa using hpn⟩
  obtain ⟨target, ht⟩ := Option.isSome_iff_exists.mp hsome
  have hmem : target ∈ st.clients := List.mem_of_find?_eq_some ht
  have hname : target.2.username = name := by
    simpa using List.find?_some ht
  have hsend : ∀ t d md, sendToUser net st name t d md
      = (true, { st with sent := st.sent ++ [⟨target.1, t, d, md, true⟩] }) := by
    intro t d md
    simp [sendToUser, ht, sendMessage, hsent]
  refine ⟨{ st with sent := st.sent ++ [⟨target.1, MessageType.TEXT,
      lit "[私信来自 " ++ u ++ lit "]: " ++ rest, [], true⟩] }, target,
    by rw [processMessage_private net st C u name rest m hn, hsend]; rfl,
    hmem, hname, rfl, rfl, rfl, ?_, ?_⟩
  · simp [newSends]
  · simp [newSends]

/-- Witness of `processMessage_unicast_hit`: `alice` writes `@bob hello` on the sample
server. -/
theorem processMessage_unicast_hit_witness :
    ∃ st1 target, processMessage netUp sampleServer 4
        ⟨MessageType.TEXT, '@' :: (lit "bob" ++ ' ' :: lit "hello"), []⟩ (lit "alice")
        = some st1 ∧
      target ∈ sampleServer.clients ∧ target.2.username = lit "bob" ∧
      st1.clients = sampleServer.clients ∧ st1.file_transfers = sampleServer.file_transfers ∧
      st1.fs = sampleServer.fs ∧
      st1.sent = sampleServer.sent ++ newSends sampleServer st1 ∧
      newSends sampleServer st1 = [⟨target.1, MessageType.TEXT,
        lit "[私信来自 " ++ lit "alice" ++ lit "]: " ++ lit "hello", [], true⟩] :=
  processMessage_unicast_hit netUp sampleServer 4 (lit "alice") (lit "bob") (lit "hello") []
    (by decide) (by decide) rfl

theorem mem_mapSet {α : Type} (lt : Int → Int → Bool) (k : Int) (v : α) :
    ∀ (l : List (Int × α)) (p : Int × α), p ∈ mapSet lt k v l → p = (k, v) ∨ p ∈ l
  | [], p, h => by simp [mapSet] at h; exact Or.inl h
  | (k', v') :: rest, p, h => by
    simp only [mapSet] at h
    split at h
    · rcases List.mem_cons.mp h with h | h
      · exact Or.inl h
      · exact Or.inr h
    · split at h
      · rcases List.mem_cons.mp h with h | h
        · exact Or.inr (h ▸ List.mem_cons_self _ _)
        · rcases mem_mapSet lt k v rest p h with h | h
          · exact Or.inl h
          · exact Or.inr (List.mem_cons_of_mem _ h)
      · rcases List.mem_cons.mp h with h | h
        · exact Or.inl h
        · exact Or.inr (List.mem_cons_of_mem _ h)

theorem mapSet_sorted {α : Type} (k : Int) (v : α) :
    ∀ (l : List (Int × α)), l.Pairwise (fun a b => a.1 < b.1) →
      (mapSet intLt k v l).Pairwise (fun a b => a.1 < b.1)
  | [], _ => by simp [mapSet]
  | (k', v') :: rest, h => by
    have hrest := (List.pairwise_cons.mp h).2
    have hhead := (List.pairwise_cons.mp h).1
    simp only [mapSet, intLt]
    by_cases h1 : k < k'
    · simp only [h1, decide_True, if_true]
      refine List.pairwise_cons.mpr ⟨?_, h⟩
      intro p hp
      rcases List.mem_cons.mp hp with rfl | hp
      · exact h1
      · exact lt_trans h1 (hhead p hp)
    · by_cases h2 : k' < k
      · simp only [h1, h2, decide_True, decide_False, if_true]
        refine List.pairwise_cons.mpr ⟨?_, mapSet_sorted k v rest hrest⟩
        intro p hp
        rcases mem_mapSet intLt k v rest p hp with rfl | hp
        · exact h2
        · exact hhead p hp
      · have e : k = k' := by omega
        subst e
        simp only [h1, decide_False]
        exact List.pairwise_cons.mpr ⟨hhead, hrest⟩

theorem mapErase_sublist {α : Type} (lt : Int → Int → Bool) (k : Int) :
    ∀ (l : List (Int × α)), (mapErase lt k l).Sublist l
  | [] => by simp [mapErase]
  | (k', v') :: rest => by
    simp only [mapErase]
    split
    · exact List.Sublist.refl _
    · split
      · exact (mapErase_sublist lt k rest).cons₂ _
      · exact List.sublist_cons_self _ _

theorem broadcastMessage_clients (net : Nat → Bool) (st : Server) (t d : Str) (m : StrMap)
    (ex : Int) : (broadcastMessage net st t d m ex).clients = st.clients := by
  rw [broadcastMessage_eq]

theorem applyOp_clientsOk (net : Nat → Bool) (st : Server) (op : RegOp)
    (h : ClientsOk st.clients) : ClientsOk (applyOp net st op).clients := by
  cases op with
  | join s a d =>
    simp only [applyOp, handleClientJoin, ne_eq, not_true_eq_false, if_false, sendMessage,
      broadcastMessage_clients]
    exact mapSet_sorted _ _ _ h
  | leave s =>
    simp only [applyOp, disconnectClient]
    split
    · rw [broadcastMessage_clients]
      exact List.Pairwise.sublist (mapErase_sublist _ _ _) h
    · exact List.Pairwise.sublist (mapErase_sublist _ _ _) h

theorem runOps_clientsOk (net : Nat → Bool) :
    ∀ (ops : List RegOp) (st : Server), ClientsOk st.clients →
      ClientsOk (runOps net st ops).clients
  | [], _, h => h
  | op :: ops, st, h => by
    simp only [runOps, List.foldl_cons]
    exact runOps_clientsOk net ops _ (applyOp_clientsOk net st op h)

theorem find?_least (p : Int × ClientInfo → Bool) :
    ∀ (l : List (Int × ClientInfo)) (x : Int × ClientInfo), ClientsOk l →
      l.find? p = some x → ∀ y ∈ l, p y = true → x.1 ≤ y.1
  | [], _, _, h, _, _, _ => by simp at h
  | a :: l, x, hok, h, y, hy, hpy => by
    have hhead := (List.pairwise_cons.mp hok).1
    have hrest := (List.pairwise_cons.mp hok).2
    by_cases ha : p a = true
    · simp only [List.find?_cons, ha, Option.some.injEq] at h
      subst h
      rcases List.mem_cons.mp hy with rfl | hy
      · exact le_refl _
      · exact le_of_lt (hhead y hy)
    · have ha' : p a = false := by simpa using ha
      simp only [List.find?_cons, ha'] at h
      rcases List.mem_cons.mp hy with rfl | hy
      · exact absurd hpy ha
      · exact find?_least p l x hrest h y hy hpy

/-- C9 (amended): in every registry state reached by registrations and unregistrations
in which one or several registered connections have the user name `name`,
`sendToUser(name, ...)` makes its one `sendMessage` call to the one among them with the
smallest socket number (the first match in the key order of the map), whatever the
order in which they registered. -/
theorem sendToUser_smallest_socket (net : Nat → Bool) (fs : FS) (ops : List RegOp)
    (name t d : Str) (m : StrMap)
    (hname : ∃ pair ∈ (runOps net (Server.init fs) ops).clients, pair.2.username = name) :
    ∃ target ∈ (runOps net (Server.init fs) ops).clients,
      target.2.username = name ∧
      (∀ pair ∈ (runOps net (Server.init fs) ops).clients,
        pair.2.username = name → target.1 ≤ pair.1) ∧
      newSends (runOps net (Server.init fs) ops)
          (sendToUser net (runOps net (Server.init fs) ops) name t d m).2
        = [⟨target.1, t, d, m, net (runOps net (Server.init fs) ops).sent.length⟩] := by
  have hok : ClientsOk (runOps net (Server.init fs) ops).clients :=
    runOps_clientsOk net ops _ (by simp [Server.init, ClientsOk])
  generalize runOps net (Server.init fs) ops = st at hname hok ⊢
  obtain ⟨p, hp, hpn⟩ := hname
  have hsome : (st.clients.find? (fun pair => pair.2.username = name)).isSome := by
    rw [List.find?_isSome]
    exact ⟨p, hp, by simpa using hpn⟩
  obtain ⟨target, ht⟩ := Option.isSome_iff_exists.mp hsome
  refine ⟨target, List.mem_of_find?_eq_some ht, by simpa using List.find?_some ht, ?_, ?_⟩
  · intro pair hpair hpn'
    exact find?_least _ st.clients target hok ht pair hpair (by simpa using hpn')
  · simp [sendToUser, ht, sendMessage, newSends]

/-- Witness of `sendToUser_smallest_socket`: the history in which socket 5 and then
socket 4 register as `bob`. -/
theorem sendToUser_smallest_socket_witness :
    ∃ target ∈ (runOps netUp (Server.init []) lateJoinOps).clients,
      target.2.username = lit "bob" ∧
      (∀ pair ∈ (runOps netUp (Server.init []) lateJoinOps).clients,
        pair.2.username = lit "bob" → target.1 ≤ pair.1) ∧
      newSends (runOps netUp (Server.init []) lateJoinOps)
          (sendToUser netUp (runOps netUp (Server.init []) lateJoinOps) (lit "bob")
            MessageType.TEXT (lit "hi") []).2
        = [⟨target.1, MessageType.TEXT, lit "hi", [],
            netUp (runOps netUp (Server.init []) lateJoinOps).sent.length⟩] :=
  sendToUser_smallest_socket netUp [] lateJoinOps (lit "bob") MessageType.TEXT (lit "hi") []
    (by decide)

/-- C9 (counterexample): socket 5 registers as `bob` (clock 0), then socket 4 registers
as `bob` (clock 1). Both are registered, socket 5 was registered first, and
`sendToUser("bob", ...)` makes its one call to socket 4. -/
theorem sendToUser_not_earliest_registered :
    (runOps netUp (Server.init []) lateJoinOps).clients.map
        (fun pair => (pair.1, pair.2.username, pair.2.connect_time))
      = [(4, lit "bob", 1), (5, lit "bob", 0)] ∧
    (newSends (runOps netUp (Server.init []) lateJoinOps)
        (sendToUser netUp (runOps netUp (Server.init []) lateJoinOps) (lit "bob")
          MessageType.TEXT (lit "hi") []).2).map Sent.socket = [4] := by
  decide
/-! ## Theorems: paths as the file system reads them -/

theorem splitLastDot_append : ∀ (s n e : Str), splitLastDot s = some (n, e) → s = n ++ e
  | [], _, _, h => by simp [splitLastDot] at h
  | c :: cs, n, e, h => by
    cases hs : splitLastDot cs with
    | some ne =>
      obtain ⟨n', e'⟩ := ne
      simp only [splitLastDot, hs, Option.some.injEq, Prod.mk.injEq] at h
      obtain ⟨rfl, rfl⟩ := h
      rw [List.cons_append, ← splitLastDot_append cs n' e' hs]
    | none =>
      by_cases hc : c = '.'
      · simp only [splitLastDot, hs, hc, if_true, Option.some.injEq, Prod.mk.injEq] at h
        obtain ⟨rfl, rfl⟩ := h
        simp [hc]
      · simp [splitLastDot, hs, hc] at h

theorem c_str_of_no_nul (s : Str) (h : NUL ∉ s) : c_str s = s := by
  unfold c_str
  rw [List.takeWhile_eq_self_iff]
  intro x hx
  have : x ≠ NUL := fun e => h (e ▸ hx)
  simpa using this

theorem scanPath_append (start : Named × Str) (a b : Str) :
    scanPath start (a ++ b) = scanPath (scanPath start a) b := by
  simp only [scanPath, List.foldl_append]

/-- Bytes other than `/` are added to the component being read. -/
theorem scanPath_no_slash : ∀ (name : Str) (cur : Named) (comp : Str), '/' ∉ name →
    scanPath (cur, comp) name = (cur, comp ++ name)
  | [], cur, comp, _ => by simp [scanPath]
  | c :: cs, cur, comp, h => by
    have hc : c ≠ '/' := fun e => h (e ▸ List.mem_cons_self _ _)
    have hcs : '/' ∉ cs := fun m => h (List.mem_cons_of_mem _ m)
    have ih := scanPath_no_slash cs cur (comp ++ [c]) hcs
    simp only [scanPath] at ih ⊢
    simp only [List.foldl_cons, hc, if_false]
    rw [ih, List.append_assoc, List.singleton_append]

/-- The name of a file in one of the two directories of the program is an entry of it. -/
theorem step_fileName (d : Dir) (name : Str) (hd : d = .downloads ∨ d = .received)
    (h : FileName name) : (Named.dir d).step name = .entry d name := by
  obtain ⟨_, _, h0, h1, h2, hlen⟩ := h
  have hlen' : ¬ name.length > NAME_MAX := by omega
  have hchild : d.child name = none := by
    rcases hd with rfl | rfl <;> simp [Dir.child]
  simp only [Named.step, h0, h1, h2, hlen', hchild, or_self, if_false]

theorem scanPath_downloads :
    scanPath (.dir .cwd, []) (lit "./files/downloads" ++ lit "/") = (.dir .downloads, []) := by
  decide

theorem scanPath_received :
    scanPath (.dir .cwd, []) (lit "./files/received" ++ lit "/") = (.dir .received, []) := by
  decide

/-- A directory of the program, `/` and the name of a file: the path names that entry
of the directory, under its own text. -/
theorem isSlot_of_fileName (d : Dir) (name : Str) (hd : d = .downloads ∨ d = .received)
    (h : FileName name) : isSlot (d.text ++ lit "/" ++ name) = true := by
  have hnul : NUL ∉ d.text ++ lit "/" ++ name := by
    intro hm
    rcases List.mem_append.mp hm with hm | hm
    · rcases hd with rfl | rfl <;> revert hm <;> decide
    · exact h.1 hm
  have hscan : scanPath (.dir .cwd, []) (d.text ++ lit "/") = (.dir d, []) := by
    rcases hd with rfl | rfl
    · exact scanPath_downloads
    · exact scanPath_received
  have hlen : (d.text ++ lit "/" ++ name).length < PATH_MAX := by
    have h5 := h.2.2.2.2.2
    have : (d.text ++ lit "/").length ≤ 18 := by
      rcases hd with rfl | rfl <;> decide
    rw [List.length_append]
    unfold NAME_MAX at h5
    unfold PATH_MAX
    omega
  have hne : d.text ++ lit "/" ++ name ≠ [] := by
    intro e
    have h0 := congrArg List.length e
    rw [List.length_append, List.length_append] at h0
    have : 0 < (lit "/").length := by decide
    simp only [List.length_nil] at h0
    omega
  have hnamei : namei (d.text ++ lit "/" ++ name) = .entry d name := by
    unfold namei
    have h1 : ¬ (d.text ++ lit "/" ++ name = [] ∨ PATH_MAX ≤ (d.text ++ lit "/" ++ name).length) := by
      rintro (h1 | h1)
      · exact hne h1
      · omega
    rw [if_neg h1]
    simp only [scanPath_append, hscan, scanPath_no_slash name _ _ h.2.1, List.nil_append]
    exact step_fileName d name hd h
  simp only [isSlot, c_str_of_no_nul _ hnul, hnamei, decide_True]

/-- On a path that names an entry under its own text, `access` looks the text up in
the listing. -/
theorem fsExists_slot (fs : FS) (path : Str) (h : isSlot path = true) :
    fsExists fs path = fsHas fs path := by
  unfold isSlot at h
  unfold fsExists
  split at h
  · rename_i d name hn
    have := of_decide_eq_true h
    simp only [hn, this]
  · exact absurd h (by simp)

/-- On a path that names an entry under its own text, a closed stream is opened on that
text and the file is there, empty. -/
theorem openOn_slot (fs : FS) (path : Str) (h : isSlot path = true) :
    OFStream.closed.openOn fs path = (⟨some path, false⟩, fsPut fs path []) := by
  unfold isSlot at h
  split at h
  · rename_i d name hn
    have := of_decide_eq_true h
    simp only [OFStream.openOn, OFStream.closed, hn, this]
  · exact absurd h (by simp)

theorem fsHas_iff (fs : FS) (p : Str) : fsHas fs p = true ↔ p ∈ fs.map Prod.fst := by
  simp only [fsHas, List.any_eq_true, decide_eq_true_eq, List.mem_map]
theorem natDigits_length_le : ∀ (fuel n : Nat) (ds : Str),
    (natDigits fuel n ds).length ≤ fuel + ds.length
  | 0, _, ds => by simp [natDigits]
  | fuel + 1, n, ds => by
    rw [natDigits]
    split
    · simp only [List.length_cons]; omega
    · have := natDigits_length_le fuel (n / 10) (hexDigit (n % 10) :: ds)
      simp only [List.length_cons] at this
      omega

theorem to_string_nat_length_small (n : Nat) (h : n < 2 ^ 31) :
    (to_string_nat n).length ≤ 10 := by
  unfold to_string_nat
  by_cases hs : n + 1 ≤ 10
  · have := natDigits_length_le (n + 1) n []
    simp only [List.length_nil] at this
    omega
  · rw [natDigits_fuel 10 n (n + 1) (by norm_num) (by norm_num at h ⊢; omega) (by omega)]
    have := natDigits_length_le 10 n []
    simpa using this

/-- A character that is no decimal digit does not occur in the text of a number. -/
theorem to_string_nat_not_mem (c : Char) (hc : ∀ d, d < 10 → c ≠ hexDigit d) (k : Nat) :
    c ∉ to_string_nat k := by
  intro h
  obtain ⟨d, hd, he⟩ := natDigits_all_digits (k + 1) k c h
  exact hc d hd he

/-- The two shapes of a numbered name in one: the text goes between two parts of the
file name. -/
theorem insertText_cases (filename txt : Str) :
    ∃ n e, filename = n ++ e ∧ insertText filename txt = n ++ lit "_" ++ txt ++ e := by
  unfold insertText
  cases hs : splitLastDot filename with
  | none => exact ⟨filename, [], by simp, by simp⟩
  | some ne =>
    obtain ⟨n, e⟩ := ne
    exact ⟨n, e, splitLastDot_append filename n e hs, rfl⟩

theorem fileName_numbered (pre filename : Str) (j : Nat) (hj : j < 2 ^ 31)
    (hnul : NUL ∉ pre ++ filename) (hsl : '/' ∉ pre ++ filename)
    (hlen : (pre ++ filename).length + 11 ≤ NAME_MAX) :
    FileName (pre ++ insertCounter filename j) := by
  obtain ⟨n, e, hf, hins⟩ := insertText_cases filename (to_string_nat j)
  have hd1 : NUL ∉ to_string_nat j :=
    to_string_nat_not_mem NUL (fun d hd => by interval_cases d <;> decide) j
  have hd2 : '/' ∉ to_string_nat j :=
    to_string_nat_not_mem '/' (fun d hd => by interval_cases d <;> decide) j
  have hu1 : NUL ∉ lit "_" := by decide
  have hu2 : '/' ∉ lit "_" := by decide
  have hdl := to_string_nat_length_small j hj
  have hund : '_' ∈ pre ++ insertCounter filename j := by
    unfold insertCounter
    rw [hins]
    simp only [List.mem_append]
    exact Or.inr (Or.inl (Or.inl (Or.inr (by decide))))
  subst hf
  simp only [List.mem_append, not_or] at hnul hsl
  simp only [List.length_append] at hlen
  unfold NAME_MAX at hlen
  refine ⟨?_, ?_, ?_, ?_, ?_, ?_⟩
  · unfold insertCounter
    rw [hins]
    simp only [List.mem_append, not_or]
    exact ⟨hnul.1, ⟨⟨hnul.2.1, hu1⟩, hd1⟩, hnul.2.2⟩
  · unfold insertCounter
    rw [hins]
    simp only [List.mem_append, not_or]
    exact ⟨hsl.1, ⟨⟨hsl.2.1, hu2⟩, hd2⟩, hsl.2.2⟩
  · intro h0
    rw [h0] at hund
    exact absurd hund (by decide)
  · intro h0
    rw [h0] at hund
    exact absurd hund (by decide)
  · intro h0
    rw [h0] at hund
    exact absurd hund (by decide)
  · unfold insertCounter
    rw [hins]
    have h1 : (lit "_").length = 1 := by decide
    simp only [List.length_append, h1]
    unfold NAME_MAX
    omega

/-- Every path the naming loop tries for a storable name, with a counter below 2^31,
names an entry of the directory under its own text. -/
theorem tryPath_isSlot (d : Dir) (hd : d = .downloads ∨ d = .received) (pre filename : Str)
    (h : StorableName (pre ++ filename)) :
    ∀ j, j < 2 ^ 31 → isSlot (tryPath (d.text ++ lit "/" ++ pre) filename j) = true
  | 0, _ => by
    rw [tryPath, List.append_assoc]
    exact isSlot_of_fileName d _ hd h.1
  | j + 1, hj => by
    rw [tryPath, List.append_assoc]
    exact isSlot_of_fileName d _ hd
      (fileName_numbered pre filename (j + 1) hj h.1.1 h.1.2.1 h.2)

theorem slots_downloads (filename : Str) (h : StorableName filename) :
    ∀ j, j < 2 ^ 31 →
      isSlot (tryPath (lit "./files/downloads" ++ lit "/") filename j) = true := by
  have := tryPath_isSlot .downloads (Or.inl rfl) [] filename (by simpa using h)
  simpa [Dir.text] using this

theorem slots_received (username filename : Str)
    (h : StorableName (username ++ lit "_" ++ filename)) :
    ∀ j, j < 2 ^ 31 →
      isSlot (tryPath (lit "./files/received" ++ lit "/" ++ (username ++ lit "_")) filename j)
        = true :=
  tryPath_isSlot .received (Or.inr rfl) (username ++ lit "_") filename h

/-! ## Theorems: the name of a received file -/

theorem findLastAux_dot : ∀ (s : Str) (i : Nat) (acc : Option Nat),
    findLastAux '.' s i acc =
      match splitLastDot s with
      | some ne => some (i + ne.1.length)
      | none => acc
  | [], _, _ => rfl
  | c :: cs, i, acc => by
    rw [findLastAux, findLastAux_dot cs (i + 1)]
    cases h : splitLastDot cs with
    | some ne =>
      obtain ⟨n, e⟩ := ne
      simp only [splitLastDot, h, List.length_cons]
      congr 1
      omega
    | none =>
      by_cases hc : c = '.'
      · simp [splitLastDot, h, hc]
      · simp [splitLastDot, h, hc]

theorem to_string_int_natCast (k : Nat) : to_string_int (k : Int) = to_string_nat k := by
  have h : ¬ ((k : Int) < 0) := by omega
  simp [to_string_int, h]

/-- The name the code forms for a counter: the text of the counter goes where the
specification puts `_k`. -/
theorem numberedName_text (stem filename : Str) (c : Int) :
    numberedName stem filename c = some (stem ++ insertText filename (to_string_int c)) := by
  unfold numberedName insertText find_last_of
  rw [findLastAux_dot]
  cases h : splitLastDot filename with
  | none => simp
  | some ne =>
    obtain ⟨n, e⟩ := ne
    have hf := splitLastDot_append filename n e h
    have h1 : substr filename 0 (0 + n.length) = some n := by
      subst hf
      simp [substr]
    have h2 : substrFrom filename (0 + n.length) = some e := by
      subst hf
      simp [substrFrom]
    simp only [h1, h2]
    simp

/-- The name the code forms for a counter is the one the specification describes. -/
theorem numberedName_eq (stem filename : Str) (k : Nat) :
    numberedName stem filename (k : Int) = some (stem ++ insertCounter filename k) := by
  rw [numberedName_text, to_string_int_natCast]
  rfl

theorem insertText_injective (filename a b : Str)
    (h : insertText filename a = insertText filename b) : a = b := by
  unfold insertText at h
  cases hs : splitLastDot filename with
  | none =>
    simp only [hs, List.append_assoc] at h
    exact List.append_cancel_left (List.append_cancel_left h)
  | some ne =>
    obtain ⟨n, e⟩ := ne
    simp only [hs, List.append_assoc] at h
    exact List.append_cancel_right (List.append_cancel_left (List.append_cancel_left h))

theorem insertCounter_injective (filename : Str) (a b : Nat)
    (h : insertCounter filename a = insertCounter filename b) : a = b :=
  to_string_nat_injective _ _ (insertText_injective filename _ _ h)

/-- No more numbered names can be listed than there are files. -/
theorem numbered_existing_le (fs : FS) (stem filename : Str) (n : Nat)
    (h : ∀ j, 1 ≤ j → j ≤ n → fsHas fs (stem ++ insertCounter filename j) = true) :
    n ≤ fs.length := by
  have hnd : ((List.range n).map fun j => stem ++ insertCounter filename (j + 1)).Nodup := by
    refine List.Nodup.map ?_ (List.nodup_range n)
    intro a b hab
    have := insertCounter_injective filename _ _ (List.append_cancel_left hab)
    omega
  have hsub : ((List.range n).map fun j => stem ++ insertCounter filename (j + 1))
      ⊆ fs.map Prod.fst := by
    intro p hp
    obtain ⟨j, hj, rfl⟩ := List.mem_map.mp hp
    exact (fsHas_iff fs _).mp (h (j + 1) (by omega) (by have := List.mem_range.mp hj; omega))
  have := (List.Nodup.subperm hnd hsub).length_le
  simpa using this

theorem resolveLoop_spec (fs : FS) (stem filename : Str) (hsmall : fs.length + 2 < 2 ^ 31)
    (hslot : ∀ j, j < 2 ^ 31 → isSlot (tryPath stem filename j) = true) :
    ∀ (fuel i : Nat), fs.length + 2 = i + fuel →
      (∀ j, j < i → fsExists fs (tryPath stem filename j) = true) →
      ∃ k, i ≤ k ∧
        resolveLoop fs stem filename fuel ((i : Int) + 1) (tryPath stem filename i)
          = some (tryPath stem filename k) ∧
        fsExists fs (tryPath stem filename k) = false ∧
        ∀ j, j < k → fsExists fs (tryPath stem filename j) = true
  | 0, i, hf, hex => by
    exfalso
    have := numbered_existing_le fs stem filename (i - 1) (fun j h1 h2 => by
      have := hex j (by omega)
      rw [fsExists_slot _ _ (hslot j (by omega))] at this
      obtain ⟨j', rfl⟩ : ∃ j', j = j' + 1 := ⟨j - 1, by omega⟩
      exact this)
    omega
  | fuel + 1, i, hf, hex => by
    by_cases hi : fsExists fs (tryPath stem filename i) = true
    · have hex' : ∀ j, j < i + 1 → fsExists fs (tryPath stem filename j) = true := by
        intro j hj
        rcases Nat.lt_succ_iff_lt_or_eq.mp hj with h | h
        · exact hex j h
        · exact h ▸ hi
      have hle := numbered_existing_le fs stem filename i (fun j h1 h2 => by
        have := hex' j (by omega)
        rw [fsExists_slot _ _ (hslot j (by omega))] at this
        obtain ⟨j', rfl⟩ : ∃ j', j = j' + 1 := ⟨j - 1, by omega⟩
        exact this)
      obtain ⟨k, hk, hres, hfree, hall⟩ :=
        resolveLoop_spec fs stem filename hsmall hslot fuel (i + 1) (by omega) hex'
      refine ⟨k, by omega, ?_, hfree, hall⟩
      have hname : numberedName stem filename ((i : Int) + 1)
          = some (tryPath stem filename (i + 1)) := by
        have := numberedName_eq stem filename (i + 1)
        simpa [tryPath] using this
      have hwrap : wrapInt32 ((i : Int) + 1 + 1) = ((i + 1 : Nat) : Int) + 1 := by
        rw [wrapInt32_of_range _ (by omega) (by omega)]
        push_cast
        ring
      rw [resolveLoop]
      simp only [hi, if_true, hname, hwrap]
      exact hres
    · have hi' : fsExists fs (tryPath stem filename i) = false := by simpa using hi
      refine ⟨i, le_refl _, ?_, hi', hex⟩
      rw [resolveLoop]
      simp [hi']

/-- The resolved path, when every path the loop can try names an entry of a directory:
the loop ends, on the plain path when that is free and otherwise on the numbered path
with the least free counter; and the path it ends on names such an entry. -/
theorem resolvePath_picksFree (fs : FS) (stem filename : Str) (hsmall : fs.length + 2 < 2 ^ 31)
    (hslot : ∀ j, j < 2 ^ 31 → isSlot (tryPath stem filename j) = true) :
    ∃ path, resolvePath fs stem filename = some path ∧ PicksFree fs stem filename path ∧
      isSlot path = true := by
  obtain ⟨k, _, hres, hfree, hall⟩ :=
    resolveLoop_spec fs stem filename hsmall hslot (fs.length + 2) 0 (by omega)
      (fun j hj => absurd hj (Nat.not_lt_zero _))
  have hk : k < 2 ^ 31 := by
    have := numbered_existing_le fs stem filename (k - 1) (fun j h1 h2 => by
      have := hall j (by omega)
      by_cases hj : j < 2 ^ 31
      · rw [fsExists_slot _ _ (hslot j hj)] at this
        obtain ⟨j', rfl⟩ : ∃ j', j = j' + 1 := ⟨j - 1, by omega⟩
        exact this
      · exfalso
        have h0 := numbered_existing_le fs stem filename (2 ^ 31 - 1) (fun i h1 h2 => by
          have := hall i (by omega)
          rw [fsExists_slot _ _ (hslot i (by omega))] at this
          obtain ⟨i', rfl⟩ : ∃ i', i = i' + 1 := ⟨i - 1, by omega⟩
          exact this)
        omega)
    omega
  refine ⟨tryPath stem filename k, ?_, ⟨hfree, ?_⟩, hslot k hk⟩
  · simpa [resolvePath, tryPath] using hres
  · cases k with
    | zero => exact Or.inl rfl
    | succ k =>
      refine Or.inr ⟨hall 0 (by omega), k + 1, by omega, rfl, ?_⟩
      intro j h1 h2
      obtain ⟨j', rfl⟩ : ∃ j', j = j' + 1 := ⟨j - 1, by omega⟩
      exact hall (j' + 1) h2

theorem mapFind_mapSet_same {α : Type} (k : Int) (v : α) :
    ∀ l : List (Int × α), mapFind intLt k (mapSet intLt k v l) = some v
  | [] => by simp [mapSet, mapFind, intLt]
  | (k', v') :: rest => by
    simp only [mapSet, intLt]
    by_cases h1 : k < k'
    · simp [h1, mapFind, intLt]
    · by_cases h2 : k' < k
      · simp only [h1, h2, decide_True, decide_False, if_true, mapFind, intLt]
        exact mapFind_mapSet_same k v rest
      · simp [h1, h2, mapFind, intLt]

theorem fsRead_fsPut_same (fs : FS) (p : Str) (b : List Nat) :
    fsRead (fsPut fs p b) p = some b := by
  simp [fsRead, fsPut]

theorem find?_filter_ne (p q : Str) (h : q ≠ p) :
    ∀ fs : FS, (fs.filter fun e => e.1 ≠ p).find? (fun e => e.1 = q)
      = fs.find? (fun e => e.1 = q)
  | [] => rfl
  | e :: fs => by
    have ih := find?_filter_ne p q h fs
    by_cases he : e.1 = p
    · have heq : ¬ e.1 = q := fun e' => h (e' ▸ he)
      have h1 : (decide (e.1 ≠ p)) = false := by simpa using he
      have h2 : (decide (e.1 = q)) = false := by simpa using heq
      rw [List.filter_cons, List.find?_cons]
      simp only [h1, h2, Bool.false_eq_true, if_false]
      exact ih
    · have h1 : (decide (e.1 ≠ p)) = true := by simpa using he
      rw [List.filter_cons]
      simp only [h1, if_true, List.find?_cons]
      rw [ih]

theorem fsRead_fsPut_other (fs : FS) (p q : Str) (b : List Nat) (h : q ≠ p) :
    fsRead (fsPut fs p b) q = fsRead fs q := by
  have hpq : (decide (p = q)) = false := by simpa using fun e : p = q => h e.symm
  simp only [fsRead, fsPut, List.find?_cons, hpq]
  rw [find?_filter_ne p q h fs]

/-- Any two amounts of fuel above the number of unread bytes give the same result: the
loop of `sendFile` always ends by itself, whatever the network does. -/
theorem sendFileLoop_fuel (net : Nat → Bool) (file_size : Nat) :
    ∀ (fuel fuel' : Nat) (file : List Nat) (bytes_sent : Nat) (chunk_count : Int)
      (log : List Attempt), file.length < fuel → file.length < fuel' →
      sendFileLoop net file_size fuel file bytes_sent chunk_count log
        = sendFileLoop net file_size fuel' file bytes_sent chunk_count log
  | 0, _, _, _, _, _, h, _ => absurd h (Nat.not_lt_zero _)
  | _ + 1, 0, _, _, _, _, _, h => absurd h (Nat.not_lt_zero _)
  | fuel + 1, fuel' + 1, file, bytes_sent, chunk_count, log, h, h' => by
    rw [sendFileLoop, sendFileLoop]
    split
    · by_cases hnil : file = []
      · subst hnil
        simp
      · have hpos : 0 < file.length := List.length_pos.mpr hnil
        have htake : (file.take 8192).length ≠ 0 := by
          rw [List.length_take]; omega
        have hdrop : (file.drop 8192).length < file.length := by
          rw [List.length_drop]; omega
        simp only [htake, if_false]
        split
        · exact sendFileLoop_fuel net file_size fuel fuel' _ _ _ _ (by omega) (by omega)
        · rfl
    · rfl

theorem sendFileLoop_up (file_size : Nat) (hsize : file_size < 2 ^ 64) :
    ∀ (fuel : Nat) (file : List Nat) (bytes_sent : Nat) (chunk_count : Int) (log : List Attempt),
      file.length < fuel → bytes_sent + file.length = file_size →
      sendFileLoop netUp file_size fuel file bytes_sent chunk_count log
        = (true,
           wrapInt32 (wrapInt32 chunk_count
             + (dataEnvelopes file_size fuel file bytes_sent chunk_count).length) ,
           log ++ (dataEnvelopes file_size fuel file bytes_sent chunk_count).map (·, true)) ∨
      (dataEnvelopes file_size fuel file bytes_sent chunk_count = [] ∧
        sendFileLoop netUp file_size fuel file bytes_sent chunk_count log
          = (true, chunk_count, log))
  | 0, _, _, _, _, h, _ => absurd h (Nat.not_lt_zero _)
  | fuel + 1, file, bytes_sent, chunk_count, log, hf, hb => by
    by_cases hnil : file = []
    · right
      subst hnil
      simp at hb
      simp [dataEnvelopes, sendFileLoop, hb]
    · left
      have hpos : 0 < file.length := List.length_pos.mpr hnil
      have hlt : bytes_sent < file_size := by omega
      have htake : (file.take 8192).length ≠ 0 := by
        rw [List.length_take]; omega
      have hle : (file.take 8192).length ≤ file.length := by
        rw [List.length_take]; omega
      have hdrop : (file.take 8192).length + (file.drop 8192).length = file.length := by
        rw [List.length_take, List.length_drop]; omega
      have hmod : (bytes_sent + (file.take 8192).length) % 2 ^ 64
          = bytes_sent + (file.take 8192).length := Nat.mod_eq_of_lt (by omega)
      have ih := sendFileLoop_up file_size hsize fuel (file.drop 8192)
        (bytes_sent + (file.take 8192).length) (wrapInt32 (chunk_count + 1))
        (log ++ [(⟨MessageType.FILE_DATA, hexEncode (file.take 8192),
          chunkMetadata bytes_sent file_size chunk_count⟩, true)])
        (by omega) (by omega)
      rw [sendFileLoop]
      simp only [hlt, if_true, htake, if_false, netUp, hmod, dataEnvelopes, hnil,
        List.length_cons, List.map_cons]
      rcases ih with ih | ⟨hnone, ih⟩
      · rw [ih]
        refine Prod.ext rfl (Prod.ext ?_ ?_)
        · simp only
          rw [wrapInt32_add_wrap, wrapInt32_add_wrap, wrapInt32_add_wrap]
          congr 1
          push_cast
          ring
        · simp
      · rw [ih, hnone]
        refine Prod.ext rfl (Prod.ext ?_ ?_)
        · simp only [List.length_nil]
          rw [wrapInt32_add_wrap]
          rfl
        · simp

theorem dataEnvelopes_length (file_size : Nat) :
    ∀ (fuel : Nat) (file : List Nat) (bytes_sent : Nat) (chunk_count : Int),
      file.length < fuel →
      (dataEnvelopes file_size fuel file bytes_sent chunk_count).length
        = (file.length + 8191) / 8192
  | 0, _, _, _, h => absurd h (Nat.not_lt_zero _)
  | fuel + 1, file, bytes_sent, chunk_count, hf => by
    by_cases hnil : file = []
    · subst hnil
      simp [dataEnvelopes]
    · have hpos : 0 < file.length := List.length_pos.mpr hnil
      have hdrop : (file.drop 8192).length = file.length - 8192 := List.length_drop _ _
      have ih := dataEnvelopes_length file_size fuel (file.drop 8192)
        (bytes_sent + (file.take 8192).length) (wrapInt32 (chunk_count + 1)) (by omega)
      simp only [dataEnvelopes, hnil, if_false, List.length_cons, ih, hdrop]
      omega

theorem dataEnvelopes_type (file_size : Nat) :
    ∀ (fuel : Nat) (file : List Nat) (bytes_sent : Nat) (chunk_count : Int),
      ∀ e ∈ dataEnvelopes file_size fuel file bytes_sent chunk_count,
        e.type = MessageType.FILE_DATA
  | 0, _, _, _, e, he => by simp [dataEnvelopes] at he
  | fuel + 1, file, bytes_sent, chunk_count, e, he => by
    by_cases hnil : file = []
    · simp [dataEnvelopes, hnil] at he
    · simp only [dataEnvelopes, hnil, if_false, List.mem_cons] at he
      rcases he with rfl | he
      · rfl
      · exact dataEnvelopes_type file_size fuel _ _ _ e he

theorem sendFileLoop_up_zero (file : List Nat) (hsize : file.length < 2 ^ 64)
    (log : List Attempt) :
    sendFileLoop netUp file.length (file.length + 1) file 0 0 log
      = (true, wrapInt32 (((file.length + 8191) / 8192 : Nat) : Int),
         log ++ (dataEnvelopes file.length (file.length + 1) file 0 0).map (·, true)) := by
  have hlen := dataEnvelopes_length file.length (file.length + 1) file 0 0 (Nat.lt_succ_self _)
  rcases sendFileLoop_up file.length hsize (file.length + 1) file 0 0 log
      (Nat.lt_succ_self _) (Nat.zero_add _) with h | ⟨hnil, h⟩
  · rw [h, hlen, wrapInt32_add_wrap, Int.zero_add]
  · rw [h]
    rw [hnil] at hlen
    simp only [List.length_nil] at hlen
    rw [← hlen, hnil]
    simp [wrapInt32]

theorem write_open (p : Str) (fs : FS) (content bytes : List Nat)
    (h : fsRead fs p = some content) :
    OFStream.write ⟨some p, false⟩ fs bytes = fsPut fs p (content ++ bytes) := by
  simp [OFStream.write, h]

theorem processReceivedMessage_data (cur : FileReceive) (fs : FS) (chunk : List Nat)
    (md : StrMap) :
    processReceivedMessage ⟨some cur, fs⟩ ⟨MessageType.FILE_DATA, hexEncode chunk, md⟩
      = some ⟨some { cur with
            received := (cur.received + chunk.length) % 2 ^ 64
            chunk_count := wrapInt32 (cur.chunk_count + 1) },
          cur.file_handle.write fs (chunk.map (· % 256))⟩ := by
  have h1 : MessageType.FILE_DATA ≠ MessageType.TEXT := by decide
  have h2 : MessageType.FILE_DATA ≠ MessageType.USER_JOIN := by decide
  have h3 : MessageType.FILE_DATA ≠ MessageType.USER_LEAVE := by decide
  have h4 : MessageType.FILE_DATA ≠ MessageType.FILE := by decide
  simp [processReceivedMessage, receiveFileChunk, hexDecodeClient_hexEncode, h1, h2, h3, h4]

/-- The client's session after the `FILE_DATA` envelopes of a file: every byte appended
to the open file, the counters advanced. -/
theorem clientRun_data (file_size : Nat) (p : Str) :
    ∀ (fuel : Nat) (file : List Nat) (bytes_sent : Nat) (chunk_count : Int)
      (cur : FileReceive) (fs : FS) (content : List Nat),
      file.length < fuel → cur.file_handle = ⟨some p, false⟩ → fsRead fs p = some content →
      cur.received < 2 ^ 64 → wrapInt32 cur.chunk_count = cur.chunk_count →
      ∃ fs1, clientRun ⟨some cur, fs⟩ (dataEnvelopes file_size fuel file bytes_sent chunk_count)
          = some ⟨some { cur with
              received := (cur.received + file.length) % 2 ^ 64
              chunk_count := wrapInt32 (cur.chunk_count
                + (((file.length + 8191) / 8192 : Nat) : Int)) }, fs1⟩ ∧
        fsRead fs1 p = some (content ++ file.map (· % 256)) ∧
        ∀ q, q ≠ p → fsRead fs1 q = fsRead fs q
  | 0, _, _, _, _, _, _, h, _, _, _, _ => absurd h (Nat.not_lt_zero _)
  | fuel + 1, file, bytes_sent, chunk_count, cur, fs, content, hf, hh, hc, hr, hw => by
    by_cases hnil : file = []
    · subst hnil
      refine ⟨fs, ?_, by simpa using hc, fun q _ => rfl⟩
      simp only [dataEnvelopes, if_true, clientRun, List.length_nil, Nat.add_zero,
        Nat.mod_eq_of_lt hr]
      simp [hw]
    · have hpos : 0 < file.length := List.length_pos.mpr hnil
      have hdrop : (file.drop 8192).length = file.length - 8192 := List.length_drop _ _
      have htake : (file.take 8192).length = min 8192 file.length := List.length_take _ _
      obtain ⟨fs1, hrun, hread, hother⟩ := clientRun_data file_size p fuel (file.drop 8192)
        (bytes_sent + (file.take 8192).length) (wrapInt32 (chunk_count + 1))
        { cur with
          received := (cur.received + (file.take 8192).length) % 2 ^ 64
          chunk_count := wrapInt32 (cur.chunk_count + 1) }
        (fsPut fs p (content ++ (file.take 8192).map (· % 256)))
        (content ++ (file.take 8192).map (· % 256))
        (by omega) hh (fsRead_fsPut_same _ _ _) (Nat.mod_lt _ (by norm_num))
        (wrapInt32_idem _)
      have hrec : ((cur.received + (file.take 8192).length) % 2 ^ 64
          + (file.drop 8192).length) % 2 ^ 64 = (cur.received + file.length) % 2 ^ 64 := by
        rw [hdrop, htake]; omega
      have hcnt : wrapInt32 (wrapInt32 (cur.chunk_count + 1)
          + ((((file.drop 8192).length + 8191) / 8192 : Nat) : Int))
          = wrapInt32 (cur.chunk_count + (((file.length + 8191) / 8192 : Nat) : Int)) := by
        rw [wrapInt32_add_wrap, hdrop]
        congr 1
        have : (file.length - 8192 + 8191) / 8192 + 1 = (file.length + 8191) / 8192 := by
          omega
        omega
      have hwrite : cur.file_handle.write fs ((file.take 8192).map (· % 256))
          = fsPut fs p (content ++ (file.take 8192).map (· % 256)) := by
        rw [hh]; exact write_open p fs content _ hc
      dsimp only at hrun
      rw [hrec, hcnt] at hrun
      refine ⟨fs1, ?_, ?_, ?_⟩
      · simp only [dataEnvelopes, hnil, if_false, clientRun, processReceivedMessage_data, hwrite]
        exact hrun
      · rw [hread, List.append_assoc, ← List.map_append, List.take_append_drop]
      · intro q hq
        rw [hother q hq, fsRead_fsPut_other _ _ _ _ hq]

theorem broadcastMessage_fs (net : Nat → Bool) (st : Server) (t d : Str) (m : StrMap)
    (ex : Int) : (broadcastMessage net st t d m ex).fs = st.fs := by
  rw [broadcastMessage_eq]

theorem broadcastMessage_transfers (net : Nat → Bool) (st : Server) (t d : Str) (m : StrMap)
    (ex : Int) : (broadcastMessage net st t d m ex).file_transfers = st.file_transfers := by
  rw [broadcastMessage_eq]

theorem processMessage_data (net : Nat → Bool) (st : Server) (C : Int) (u : Str)
    (tr : FileTransfer) (chunk : List Nat) (md : StrMap)
    (h : mapFind intLt C st.file_transfers = some tr) :
    processMessage net st C ⟨MessageType.FILE_DATA, hexEncode chunk, md⟩ u
      = some (broadcastMessage net
          { st with
            fs := tr.file_handle.write st.fs (chunk.map (· % 256))
            file_transfers := mapSet intLt C
              { tr with
                received := (tr.received + chunk.length) % 2 ^ 64
                chunk_count := wrapInt32 (tr.chunk_count + 1) } st.file_transfers }
          MessageType.FILE_DATA (hexEncode chunk) md C) := by
  have h1 : MessageType.FILE_DATA ≠ MessageType.TEXT := by decide
  have h4 : MessageType.FILE_DATA ≠ MessageType.FILE := by decide
  simp [processMessage, saveFileChunk, hexDecodeServer_hexEncode, h1, h4, h]

/-- The server's session after the `FILE_DATA` envelopes of a file: every byte appended
to the open file, the counters advanced, the registry as it was. -/
theorem serverRun_data (net : Nat → Bool) (C : Int) (u : Str) (file_size : Nat) (p : Str) :
    ∀ (fuel : Nat) (file : List Nat) (bytes_sent : Nat) (chunk_count : Int)
      (st : Server) (tr : FileTransfer) (content : List Nat),
      file.length < fuel → mapFind intLt C st.file_transfers = some tr →
      tr.file_handle = ⟨some p, false⟩ → fsRead st.fs p = some content →
      tr.received < 2 ^ 64 → wrapInt32 tr.chunk_count = tr.chunk_count →
      TransfersOk st.file_transfers →
      ∃ st1, serverRun net C u st (dataEnvelopes file_size fuel file bytes_sent chunk_count)
          = some st1 ∧
        mapFind intLt C st1.file_transfers = some { tr with
            received := (tr.received + file.length) % 2 ^ 64
            chunk_count := wrapInt32 (tr.chunk_count
              + (((file.length + 8191) / 8192 : Nat) : Int)) } ∧
        fsRead st1.fs p = some (content ++ file.map (· % 256)) ∧
        (∀ q, q ≠ p → fsRead st1.fs q = fsRead st.fs q) ∧
        st1.clients = st.clients ∧ TransfersOk st1.file_transfers
  | 0, _, _, _, _, _, _, h, _, _, _, _, _, _ => absurd h (Nat.not_lt_zero _)
  | fuel + 1, file, bytes_sent, chunk_count, st, tr, content, hf, hm, hh, hc, hr, hw, hok => by
    by_cases hnil : file = []
    · subst hnil
      refine ⟨st, ?_, ?_, by simpa using hc, fun q _ => rfl, rfl, hok⟩
      · simp [dataEnvelopes, serverRun]
      · rw [hm]
        simp only [List.length_nil, Nat.add_zero, Nat.mod_eq_of_lt hr]
        simp [hw]
    · have hpos : 0 < file.length := List.length_pos.mpr hnil
      have hdrop : (file.drop 8192).length = file.length - 8192 := List.length_drop _ _
      have htake : (file.take 8192).length = min 8192 file.length := List.length_take _ _
      have hwrite : tr.file_handle.write st.fs ((file.take 8192).map (· % 256))
          = fsPut st.fs p (content ++ (file.take 8192).map (· % 256)) := by
        rw [hh]; exact write_open p st.fs content _ hc
      have hstep := processMessage_data net st C u tr (file.take 8192)
        (chunkMetadata bytes_sent file_size chunk_count) hm
      rw [hwrite] at hstep
      obtain ⟨st1, hrun, hfind, hread, hother, hcl, hok1⟩ :=
        serverRun_data net C u file_size p fuel (file.drop 8192)
          (bytes_sent + (file.take 8192).length) (wrapInt32 (chunk_count + 1))
          (broadcastMessage net
            { st with
              fs := fsPut st.fs p (content ++ (file.take 8192).map (· % 256))
              file_transfers := mapSet intLt C
                { tr with
                  received := (tr.received + (file.take 8192).length) % 2 ^ 64
                  chunk_count := wrapInt32 (tr.chunk_count + 1) } st.file_transfers }
            MessageType.FILE_DATA (hexEncode (file.take 8192))
            (chunkMetadata bytes_sent file_size chunk_count) C)
          { tr with
            received := (tr.received + (file.take 8192).length) % 2 ^ 64
            chunk_count := wrapInt32 (tr.chunk_count + 1) }
          (content ++ (file.take 8192).map (· % 256))
          (by omega)
          (by rw [broadcastMessage_transfers]; exact mapFind_mapSet_same _ _ _)
          hh
          (by rw [broadcastMessage_fs]; exact fsRead_fsPut_same _ _ _)
          (Nat.mod_lt _ (by norm_num)) (wrapInt32_idem _)
          (by rw [broadcastMessage_transfers]; exact mapSet_sorted _ _ _ hok)
      have hrec : ((tr.received + (file.take 8192).length) % 2 ^ 64
          + (file.drop 8192).length) % 2 ^ 64 = (tr.received + file.length) % 2 ^ 64 := by
        rw [hdrop, htake]; omega
      have hcnt : wrapInt32 (wrapInt32 (tr.chunk_count + 1)
          + ((((file.drop 8192).length + 8191) / 8192 : Nat) : Int))
          = wrapInt32 (tr.chunk_count + (((file.length + 8191) / 8192 : Nat) : Int)) := by
        rw [wrapInt32_add_wrap, hdrop]
        congr 1
        have : (file.length - 8192 + 8191) / 8192 + 1 = (file.length + 8191) / 8192 := by
          omega
        omega
      dsimp only at hfind
      rw [hrec, hcnt] at hfind
      refine ⟨st1, ?_, hfind, ?_, ?_, ?_, hok1⟩
      · simp only [dataEnvelopes, hnil, if_false, serverRun, hstep]
        exact hrun
      · rw [hread, List.append_assoc, ← List.map_append, List.take_append_drop]
      · intro q hq
        rw [hother q hq, broadcastMessage_fs]
        exact fsRead_fsPut_other _ _ _ _ hq
      · rw [hcl, broadcastMessage_clients]

theorem fileMetadata_filename (f : Str) (n : Nat) (s d : Str) :
    metaOr (fileMetadata f n s) (lit "filename") d = f := rfl

theorem fileMetadata_sender (f : Str) (n : Nat) (s d : Str) :
    metaOr (fileMetadata f n s) (lit "sender") d = s := rfl

theorem fileMetadata_size (f : Str) (n : Nat) (s : Str) :
    mapFind strLt (lit "size") (fileMetadata f n s) = some (to_string_nat n) := rfl

/-- The envelopes of a whole file when every send succeeds: `FILE`, the `FILE_DATA`
envelopes, `FILE_COMPLETE` announcing the (wrapped) number of chunks. -/
theorem sentEnvelopes_eq (username file_path : Str) (file : List Nat)
    (hsize : file.length < 2 ^ 64) :
    sentEnvelopes username file_path file =
      ⟨MessageType.FILE, [],
          fileMetadata (file_path.drop (afterLastSlash file_path)) file.length username⟩ ::
        (dataEnvelopes file.length (file.length + 1) file 0 0 ++
          [⟨MessageType.FILE_COMPLETE, [],
            completeMetadata (file_path.drop (afterLastSlash file_path)) file.length
              (wrapInt32 (((file.length + 8191) / 8192 : Nat) : Int))⟩]) := by
  simp only [sentEnvelopes, sendFile, sendFileLoop_up_zero file hsize]
  simp [netUp, Function.comp_def]

theorem clientRun_append : ∀ (a b : List ParsedMessage) (st : Client),
    clientRun st (a ++ b) = (clientRun st a).bind fun s => clientRun s b
  | [], _, _ => rfl
  | m :: a, b, st => by
    simp only [List.cons_append, clientRun]
    cases processReceivedMessage st m with
    | none => rfl
    | some s => exact clientRun_append a b s

theorem serverRun_append (net : Nat → Bool) (C : Int) (u : Str) :
    ∀ (a b : List ParsedMessage) (st : Server),
      serverRun net C u st (a ++ b) = (serverRun net C u st a).bind fun s => serverRun net C u s b
  | [], _, _ => rfl
  | m :: a, b, st => by
    simp only [List.cons_append, serverRun]
    cases processMessage net st C m u with
    | none => rfl
    | some s => exact serverRun_append net C u a b s

theorem processReceivedMessage_file (st : Client) (f : Str) (n : Nat) (s : Str)
    (hn : n < 2 ^ 64) :
    processReceivedMessage st ⟨MessageType.FILE, [], fileMetadata f n s⟩
      = startFileReception st f n s := by
  have h1 : MessageType.FILE ≠ MessageType.TEXT := by decide
  have h2 : MessageType.FILE ≠ MessageType.USER_JOIN := by decide
  have h3 : MessageType.FILE ≠ MessageType.USER_LEAVE := by decide
  simp only [processReceivedMessage, h1, h2, h3, if_false, or_self, if_true,
    fileMetadata_filename, fileMetadata_sender, fileMetadata_size, stoul_to_string_nat n hn]

theorem processReceivedMessage_complete (cur : FileReceive) (fs : FS) (md : StrMap) :
    processReceivedMessage ⟨some cur, fs⟩ ⟨MessageType.FILE_COMPLETE, [], md⟩
      = some ⟨none, fs⟩ := by
  have h1 : MessageType.FILE_COMPLETE ≠ MessageType.TEXT := by decide
  have h2 : MessageType.FILE_COMPLETE ≠ MessageType.USER_JOIN := by decide
  have h3 : MessageType.FILE_COMPLETE ≠ MessageType.USER_LEAVE := by decide
  have h4 : MessageType.FILE_COMPLETE ≠ MessageType.FILE := by decide
  have h5 : MessageType.FILE_COMPLETE ≠ MessageType.FILE_DATA := by decide
  simp [processReceivedMessage, ChatClient.completeFileReception, h1, h2, h3, h4, h5]

theorem processMessage_file (net : Nat → Bool) (st : Server) (C : Int) (u f : Str) (n : Nat)
    (s : Str) (hn : n < 2 ^ 64) :
    processMessage net st C ⟨MessageType.FILE, [], fileMetadata f n s⟩ u
      = (prepareFileReception st C f n u).map fun st1 =>
          broadcastMessage net st1 MessageType.FILE [] (fileMetadata f n s) C := by
  have h1 : MessageType.FILE ≠ MessageType.TEXT := by decide
  simp only [processMessage, h1, if_false, if_true, fileMetadata_filename, fileMetadata_size,
    stoul_to_string_nat n hn]
  cases prepareFileReception st C f n u <;> rfl

theorem processMessage_complete (net : Nat → Bool) (st : Server) (C : Int) (u : Str)
    (md : StrMap) :
    ∃ st1, processMessage net st C ⟨MessageType.FILE_COMPLETE, [], md⟩ u = some st1 ∧
      st1.file_transfers = (completeFileReception st C).file_transfers ∧
      st1.fs = st.fs ∧ st1.clients = st.clients := by
  have h1 : MessageType.FILE_COMPLETE ≠ MessageType.TEXT := by decide
  have h4 : MessageType.FILE_COMPLETE ≠ MessageType.FILE := by decide
  have h5 : MessageType.FILE_COMPLETE ≠ MessageType.FILE_DATA := by decide
  refine ⟨_, by simp only [processMessage, h1, h4, h5, if_false, if_true]; rfl, ?_, ?_, ?_⟩
  · rw [broadcastMessage_transfers, broadcastMessage_transfers]
  · rw [broadcastMessage_fs, broadcastMessage_fs]
    unfold completeFileReception
    split <;> rfl
  · rw [broadcastMessage_clients, broadcastMessage_clients]
    unfold completeFileReception
    split <;> rfl

theorem mapFind_none_of_lt {α : Type} (k : Int) :
    ∀ l : List (Int × α), (∀ p ∈ l, k < p.1) → mapFind intLt k l = none
  | [], _ => rfl
  | (k', v') :: rest, h => by
    have := h (k', v') (List.mem_cons_self _ _)
    simp [mapFind, intLt, this]

theorem mapFind_mapErase_same {α : Type} (k : Int) :
    ∀ l : List (Int × α), l.Pairwise (fun a b => a.1 < b.1) →
      mapFind intLt k (mapErase intLt k l) = none
  | [], _ => rfl
  | (k', v') :: rest, h => by
    have hhead := (List.pairwise_cons.mp h).1
    have hrest := (List.pairwise_cons.mp h).2
    simp only [mapErase, intLt]
    by_cases h1 : k < k'
    · simp [h1, mapFind, intLt]
    · by_cases h2 : k' < k
      · simp only [h1, h2, decide_True, decide_False, if_true, mapFind, intLt]
        exact mapFind_mapErase_same k rest hrest
      · have e : k = k' := by omega
        subst e
        simp only [h1, decide_False]
        exact mapFind_none_of_lt k rest hhead

theorem hexEncode_length : ∀ bs : List Nat, (hexEncode bs).length = 2 * bs.length
  | [] => rfl
  | b :: bs => by
    have e : hexEncode (b :: bs)
        = hexDigit (b % 256 / 16) :: hexDigit (b % 256 % 16) :: hexEncode bs := rfl
    rw [e, List.length_cons, List.length_cons, hexEncode_length bs, List.length_cons]
    omega

theorem hexDigit_lower (d : Nat) (h : d < 16) : hexDigit d ∈ lit "0123456789abcdef" := by
  interval_cases d <;> decide

theorem hexEncode_lower : ∀ (bs : List Nat), ∀ ch ∈ hexEncode bs, ch ∈ lit "0123456789abcdef"
  | [], ch, h => by simp [hexEncode] at h
  | b :: bs, ch, h => by
    have e : hexEncode (b :: bs)
        = hexDigit (b % 256 / 16) :: hexDigit (b % 256 % 16) :: hexEncode bs := rfl
    rw [e] at h
    rcases List.mem_cons.mp h with rfl | h
    · exact hexDigit_lower _ (by omega)
    · rcases List.mem_cons.mp h with rfl | h
      · exact hexDigit_lower _ (by omega)
      · exact hexEncode_lower bs ch h

/-- The payloads of the `FILE_DATA` envelopes are the hexadecimal texts of the
successive buffers of at most 8192 bytes, which together make up the file. -/
theorem dataEnvelopes_chunks (file_size : Nat) :
    ∀ (fuel : Nat) (file : List Nat) (bytes_sent : Nat) (chunk_count : Int),
      file.length < fuel →
      ∃ chunks : List (List Nat),
        (dataEnvelopes file_size fuel file bytes_sent chunk_count).map ParsedMessage.data
          = chunks.map hexEncode ∧
        chunks.flatten = file ∧ ∀ c ∈ chunks, 1 ≤ c.length ∧ c.length ≤ 8192
  | 0, _, _, _, h => absurd h (Nat.not_lt_zero _)
  | fuel + 1, file, bytes_sent, chunk_count, hf => by
    by_cases hnil : file = []
    · subst hnil
      exact ⟨[], by simp [dataEnvelopes], rfl, by simp⟩
    · have hpos : 0 < file.length := List.length_pos.mpr hnil
      have hdrop : (file.drop 8192).length = file.length - 8192 := List.length_drop _ _
      have htake : (file.take 8192).length = min 8192 file.length := List.length_take _ _
      obtain ⟨chunks, h1, h2, h3⟩ := dataEnvelopes_chunks file_size fuel (file.drop 8192)
        (bytes_sent + (file.take 8192).length) (wrapInt32 (chunk_count + 1)) (by omega)
      refine ⟨file.take 8192 :: chunks, ?_, ?_, ?_⟩
      · simp only [dataEnvelopes, hnil, if_false, List.map_cons, h1]
      · rw [List.flatten_cons, h2, List.take_append_drop]
      · intro c hc
        rcases List.mem_cons.mp hc with rfl | hc
        · rw [htake]; omega
        · exact h3 c hc

/-- C2 (amended): for every byte sequence `F` (a file of fewer than 2^64 bytes), the send
side produces one `FILE`, then `FILE_DATA` envelopes that each carry up to 8192 bytes as
two lower-case hexadecimal digits per byte, then `FILE_COMPLETE`; feeding these
envelopes into the receive side, started with no active session, with fewer than
2^31 - 2 files on disk and under a name that can be stored (on the client the announced
file name, on the server the user name, `_` and the file name: one path component
without NUL byte and without `/`, not empty, not `.` or `..`, of at most 244 bytes),
stores exactly the bytes of `F`, in order, in the file the session opened, leaves every
other file as it was, and ends with no active session: on the client
(`processReceivedMessage`) and on the server (`processMessage`). -/
theorem file_round_trip (F : List Nat) (username file_path : Str)
    (hbytes : ∀ b ∈ F, b < 256) (hsize : F.length < 2 ^ 64) :
    (∃ (data : List ParsedMessage) (chunks : List (List Nat)) (md1 md2 : StrMap),
      sentEnvelopes username file_path F
        = ⟨MessageType.FILE, [], md1⟩ :: (data ++ [⟨MessageType.FILE_COMPLETE, [], md2⟩]) ∧
      (∀ e ∈ data, e.type = MessageType.FILE_DATA) ∧
      data.map ParsedMessage.data = chunks.map hexEncode ∧
      chunks.flatten = F ∧
      ∀ c ∈ chunks, 1 ≤ c.length ∧ c.length ≤ 8192 ∧ (hexEncode c).length = 2 * c.length ∧
        ∀ ch ∈ hexEncode c, ch ∈ lit "0123456789abcdef") ∧
    (∀ fs : FS, fs.length + 2 < 2 ^ 31 →
      StorableName (file_path.drop (afterLastSlash file_path)) →
      ∃ path st1,
        clientRun ⟨none, fs⟩ (sentEnvelopes username file_path F) = some st1 ∧
        PicksFree fs (lit "./files/downloads" ++ lit "/")
          (file_path.drop (afterLastSlash file_path)) path ∧
        st1.current_file = none ∧ fsRead st1.fs path = some F ∧
        ∀ q, q ≠ path → fsRead st1.fs q = fsRead fs q) ∧
    (∀ (net : Nat → Bool) (st : Server) (C : Int) (u : Str), st.fs.length + 2 < 2 ^ 31 →
      TransfersOk st.file_transfers → mapFind intLt C st.file_transfers = none →
      StorableName (u ++ lit "_" ++ file_path.drop (afterLastSlash file_path)) →
      ∃ path st1,
        serverRun net C u st (sentEnvelopes username file_path F) = some st1 ∧
        PicksFree st.fs (lit "./files/received" ++ lit "/" ++ (u ++ lit "_"))
          (file_path.drop (afterLastSlash file_path)) path ∧
        mapFind intLt C st1.file_transfers = none ∧ fsRead st1.fs path = some F ∧
        (∀ q, q ≠ path → fsRead st1.fs q = fsRead st.fs q) ∧ st1.clients = st.clients) := by
  have hF : F.map (· % 256) = F := map_mod_of_bytes F hbytes
  refine ⟨?_, ?_, ?_⟩
  · obtain ⟨chunks, h1, h2, h3⟩ := dataEnvelopes_chunks F.length (F.length + 1) F 0 0
      (Nat.lt_succ_self _)
    exact ⟨_, chunks, _, _, sentEnvelopes_eq username file_path F hsize,
      dataEnvelopes_type F.length (F.length + 1) F 0 0, h1, h2,
      fun c hc => ⟨(h3 c hc).1, (h3 c hc).2, hexEncode_length c, hexEncode_lower c⟩⟩
  · intro fs hsmall hname
    obtain ⟨path, hres, hpick, hslot⟩ := resolvePath_picksFree fs
      (lit "./files/downloads" ++ lit "/")
      (file_path.drop (afterLastSlash file_path)) hsmall (slots_downloads _ hname)
    obtain ⟨fs1, hrun, hread, hother⟩ := clientRun_data F.length path (F.length + 1) F 0 0
      ⟨file_path.drop (afterLastSlash file_path), path, F.length, 0, username,
        ⟨some path, false⟩, 0⟩
      (fsPut fs path []) [] (Nat.lt_succ_self _) rfl (fsRead_fsPut_same _ _ _)
      (by norm_num) wrapInt32_zero
    refine ⟨path, ⟨none, fs1⟩, ?_, hpick, rfl, by simpa [hF] using hread, ?_⟩
    · rw [sentEnvelopes_eq _ _ _ hsize]
      simp only [clientRun, processReceivedMessage_file _ _ _ _ hsize, startFileReception, hres,
        openOn_slot _ _ hslot, clientRun_append, hrun, Option.bind,
        processReceivedMessage_complete]
    · intro q hq
      rw [hother q hq, fsRead_fsPut_other _ _ _ _ hq]
  · intro net st C u hsmall hok hnone hname
    obtain ⟨path, hres, hpick, hslot⟩ := resolvePath_picksFree st.fs
      (lit "./files/received" ++ lit "/" ++ (u ++ lit "_"))
      (file_path.drop (afterLastSlash file_path)) hsmall (slots_received _ _ hname)
    have hprep : prepareFileReception st C (file_path.drop (afterLastSlash file_path))
        F.length u = some { st with
          file_transfers := mapSet intLt C
            ⟨file_path.drop (afterLastSlash file_path), path, F.length, 0, u,
              ⟨some path, false⟩, 0⟩ st.file_transfers
          fs := fsPut st.fs path [] } := by
      simp only [prepareFileReception, hres, hnone, openOn_slot _ _ hslot]
    obtain ⟨st1, hrun, hfind, hread, hother, hcl, hok1⟩ :=
      serverRun_data net C u F.length path (F.length + 1) F 0 0
        (broadcastMessage net { st with
          file_transfers := mapSet intLt C
            ⟨file_path.drop (afterLastSlash file_path), path, F.length, 0, u,
              ⟨some path, false⟩, 0⟩ st.file_transfers
          fs := fsPut st.fs path [] } MessageType.FILE []
          (fileMetadata (file_path.drop (afterLastSlash file_path)) F.length username) C)
        ⟨file_path.drop (afterLastSlash file_path), path, F.length, 0, u,
          ⟨some path, false⟩, 0⟩ []
        (Nat.lt_succ_self _)
        (by rw [broadcastMessage_transfers]; exact mapFind_mapSet_same _ _ _) rfl
        (by rw [broadcastMessage_fs]; exact fsRead_fsPut_same _ _ _)
        (by norm_num) wrapInt32_zero
        (by rw [broadcastMessage_transfers]; exact mapSet_sorted _ _ _ hok)
    obtain ⟨st2, hcomp, htr, hfs, hcl2⟩ := processMessage_complete net st1 C u
      (completeMetadata (file_path.drop (afterLastSlash file_path)) F.length
        (wrapInt32 (((F.length + 8191) / 8192 : Nat) : Int)))
    refine ⟨path, st2, ?_, hpick, ?_, ?_, ?_, ?_⟩
    · rw [sentEnvelopes_eq _ _ _ hsize]
      simp only [serverRun, processMessage_file _ _ _ _ _ _ _ hsize, hprep, Option.map,
        serverRun_append, hrun, Option.bind, hcomp]
    · rw [htr]
      simp only [completeFileReception, hfind]
      exact mapFind_mapErase_same C _ hok1
    · rw [hfs, hread]
      simp [hF]
    · intro q hq
      rw [hfs, hother q hq, broadcastMessage_fs]
      exact fsRead_fsPut_other _ _ _ _ hq
    · rw [hcl2, hcl, broadcastMessage_clients]

/-- Witness of `file_round_trip`: the three bytes `01 02 03` of `/tmp/a.txt`, received
by a client with an empty download directory. -/
theorem file_round_trip_witness :
    (∀ b ∈ [1, 2, 3], b < 256) ∧
    ∃ path st1,
      clientRun ⟨none, []⟩ (sentEnvelopes (lit "bob") (lit "/tmp/a.txt") [1, 2, 3]) = some st1 ∧
      PicksFree [] (lit "./files/downloads" ++ lit "/")
        ((lit "/tmp/a.txt").drop (afterLastSlash (lit "/tmp/a.txt"))) path ∧
      st1.current_file = none ∧ fsRead st1.fs path = some [1, 2, 3] ∧
      ∀ q, q ≠ path → fsRead st1.fs q = fsRead [] q :=
  ⟨by decide,
   (file_round_trip [1, 2, 3] (lit "bob") (lit "/tmp/a.txt") (by decide) (by norm_num)).2.1 []
    (by decide) (by decide)⟩

/-- C2 fails as stated: the connection on socket 4 joins with `x/y` in its `USER_JOIN`,
which the server takes as the user name, and sends the three bytes of `/tmp/a.txt`. The
server forms the path `./files/received/x/y_a.txt`; there is no directory
`./files/received/x`, so `open` fails, which the code does not look at: the session has
a closed stream with its failure flag set, every write is dropped, and the run ends
with no session and with no file on disk. -/
theorem bytes_of_user_with_slash_are_dropped :
    (handleClientJoin netUp (Server.init []) 4 (lit "10.0.0.1:5000")
        (some ⟨MessageType.USER_JOIN, lit "x/y", []⟩)).map Prod.fst = some (lit "x/y") ∧
    ((handleClientJoin netUp (Server.init []) 4 (lit "10.0.0.1:5000")
        (some ⟨MessageType.USER_JOIN, lit "x/y", []⟩)).bind fun joined =>
      (serverRun netUp 4 joined.1 joined.2
        (sentEnvelopes joined.1 (lit "/tmp/a.txt") [1, 2, 3])).map
        fun st => (st.file_transfers.map Prod.fst, st.fs)) = some ([], []) ∧
    (prepareFileReception (Server.init []) 4 (lit "a.txt") 3 (lit "x/y")).map
      (fun st => st.file_transfers.map fun t => (t.2.filepath, t.2.file_handle))
      = some [(lit "./files/received/x/y_a.txt", ⟨none, true⟩)] := by
  refine ⟨?_, ?_, ?_⟩ <;> decide

theorem broadcastMessage_sent (net : Nat → Bool) (st : Server) (t d : Str) (m : StrMap)
    (ex : Int) :
    (broadcastMessage net st t d m ex).sent
      = st.sent ++ attempts net t d m st.sent.length (recipients st.clients ex) := by
  rw [broadcastMessage_eq]

theorem saveFileChunk_idle (st : Server) (C : Int) (hex_data : Str)
    (hidle : mapFind intLt C st.file_transfers = none) :
    saveFileChunk st C hex_data = some st := by
  simp [saveFileChunk, hidle]

theorem completeFileReception_idle (st : Server) (C : Int)
    (hidle : mapFind intLt C st.file_transfers = none) :
    completeFileReception st C = st := by
  simp [completeFileReception, hidle]

/-- C11: a `FILE_DATA` or `FILE_COMPLETE` envelope that arrives while the connection has
no transfer session is handled without an exception and leaves things as they were: on
the server (`processMessage`) the map of sessions is the same, still without a session
for the connection, and the files on disk are the same; on the client
(`processReceivedMessage`) `current_file` stays null and the files on disk are the
same. -/
theorem orphan_chunk_is_noop (msg : ParsedMessage)
    (htype : msg.type = MessageType.FILE_DATA ∨ msg.type = MessageType.FILE_COMPLETE) :
    (∀ (net : Nat → Bool) (st : Server) (C : Int) (u : Str),
      mapFind intLt C st.file_transfers = none →
      ∃ st1, processMessage net st C msg u = some st1 ∧
        st1.file_transfers = st.file_transfers ∧
        mapFind intLt C st1.file_transfers = none ∧ st1.fs = st.fs) ∧
    (∀ fs : FS, processReceivedMessage ⟨none, fs⟩ msg = some ⟨none, fs⟩) := by
  have d1 : MessageType.FILE_DATA ≠ MessageType.TEXT := by decide
  have d2 : MessageType.FILE_DATA ≠ MessageType.FILE := by decide
  have d3 : MessageType.FILE_DATA ≠ MessageType.USER_JOIN := by decide
  have d4 : MessageType.FILE_DATA ≠ MessageType.USER_LEAVE := by decide
  have c1 : MessageType.FILE_COMPLETE ≠ MessageType.TEXT := by decide
  have c2 : MessageType.FILE_COMPLETE ≠ MessageType.FILE := by decide
  have c3 : MessageType.FILE_COMPLETE ≠ MessageType.USER_JOIN := by decide
  have c4 : MessageType.FILE_COMPLETE ≠ MessageType.USER_LEAVE := by decide
  have c5 : MessageType.FILE_COMPLETE ≠ MessageType.FILE_DATA := by decide
  constructor
  · intro net st C u hidle
    rcases htype with h | h
    · refine ⟨broadcastMessage net st MessageType.FILE_DATA msg.data msg.metadata C, ?_, ?_, ?_, ?_⟩
      · simp only [processMessage, h, d1, d2, if_false, if_true,
          saveFileChunk_idle st C msg.data hidle]
      · rw [broadcastMessage_transfers]
      · rw [broadcastMessage_transfers]; exact hidle
      · rw [broadcastMessage_fs]
    · refine ⟨broadcastMessage net
          (broadcastMessage net st MessageType.TEXT
            (lit "用户 '" ++ u ++ lit "' 分享了文件: "
              ++ metaOr msg.metadata (lit "filename") (lit "unknown_file")) [] C)
          MessageType.FILE_COMPLETE msg.data msg.metadata C, ?_, ?_, ?_, ?_⟩
      · simp only [processMessage, h, c1, c2, c5, if_false, if_true,
          completeFileReception_idle st C hidle]
      · rw [broadcastMessage_transfers, broadcastMessage_transfers]
      · rw [broadcastMessage_transfers, broadcastMessage_transfers]; exact hidle
      · rw [broadcastMessage_fs, broadcastMessage_fs]
  · intro fs
    rcases htype with h | h
    · simp [processReceivedMessage, h, d1, d2, d3, d4]
    · simp [processReceivedMessage, h, c1, c2, c3, c4, c5]

theorem orphan_chunk_is_noop_witness :
    (∃ st1, processMessage netUp sampleServer 4 ⟨MessageType.FILE_DATA, lit "0102", []⟩
        (lit "alice") = some st1 ∧
      st1.file_transfers = sampleServer.file_transfers ∧
      mapFind intLt 4 st1.file_transfers = none ∧ st1.fs = sampleServer.fs) ∧
    processReceivedMessage ⟨none, []⟩ ⟨MessageType.FILE_DATA, lit "0102", []⟩
      = some ⟨none, []⟩ :=
  ⟨(orphan_chunk_is_noop ⟨MessageType.FILE_DATA, lit "0102", []⟩ (Or.inl rfl)).1
      netUp sampleServer 4 (lit "alice") rfl,
   (orphan_chunk_is_noop ⟨MessageType.FILE_DATA, lit "0102", []⟩ (Or.inl rfl)).2 []⟩

/-- Every character of the list of hexadecimal digits lies between `0` and `z`. -/
theorem hexChars_range :
    ∀ x ∈ lit "0123456789abcdefABCDEF", 48 ≤ x.toNat ∧ x.toNat ≤ 122 := by decide

theorem isHexChar_eq (c : Char) : isHexChar c = (digitVal c).any (· < 16) := by
  have hc : c = Char.ofNat c.toNat := (Char.ofNat_toNat c).symm
  by_cases hr : 48 ≤ c.toNat ∧ c.toNat ≤ 122
  · generalize c.toNat = n at hc hr
    subst hc
    obtain ⟨h1, h2⟩ := hr
    interval_cases n <;> decide
  · have hd : digitVal c = none := by
      unfold digitVal
      split_ifs <;> first | rfl | omega
    rw [hd, Option.any_none]
    cases hm : isHexChar c
    · rfl
    · exact absurd (hexChars_range c (List.mem_of_elem_eq_true hm)) hr

theorem isSpace_cases (c : Char) (h : isSpace c = true) :
    isHexChar c = false ∧ isSign c = false ∧ digitVal c = none := by
  simp only [isSpace, Bool.or_eq_true, decide_eq_true_eq] at h
  rcases h with ((((rfl | rfl) | rfl) | rfl) | rfl) | rfl <;> decide

theorem isSign_cases (c : Char) (h : isSign c = true) :
    isHexChar c = false ∧ isSpace c = false ∧ digitVal c = none := by
  simp only [isSign, Bool.or_eq_true, decide_eq_true_eq] at h
  rcases h with rfl | rfl <;> decide

theorem readSign_other (c : Char) (r : Str) (h : isSign c = false) :
    readSign (c :: r) = (false, c :: r) := by
  simp only [isSign, Bool.or_eq_false_iff, decide_eq_false_iff_not] at h
  unfold readSign
  split
  · rename_i heq; exact absurd (List.cons.inj heq).1 h.2
  · rename_i heq; exact absurd (List.cons.inj heq).1 h.1
  · rfl

theorem readSign_sign (c : Char) (r : Str) (h : isSign c = true) :
    (readSign (c :: r)).2 = r := by
  simp only [isSign, Bool.or_eq_true, decide_eq_true_eq] at h
  rcases h with rfl | rfl <;> rfl

/-- The digits `std::stoul(.., 16)` reads at the front of a text of at most two
characters: how many, and a value below 256. -/
theorem readDigits_short (s : Str) (hs : s.length ≤ 2) :
    (readDigits 16 s 0 0).2 < 256 ∧
    ((readDigits 16 s 0 0).1 = 0 ↔ (s.head?.bind digitVal).any (· < 16) = false) := by
  match s, hs with
  | [], _ => simp [readDigits]
  | [a], _ =>
    cases ha : digitVal a with
    | none => simp [readDigits, ha]
    | some d =>
      by_cases hd : d < 16
      · simp [readDigits, ha, hd]; omega
      · simp [readDigits, ha, hd]
  | [a, b], _ =>
    cases ha : digitVal a with
    | none => simp [readDigits, ha]
    | some d =>
      by_cases hd : d < 16
      · cases hb : digitVal b with
        | none => simp [readDigits, ha, hb, hd]; omega
        | some e =>
          by_cases he : e < 16
          · simp [readDigits, ha, hb, hd, he]; omega
          · simp [readDigits, ha, hb, hd, he]; omega
      · simp [readDigits, ha, hd]

theorem skipHexMark_short (base : Nat) (s : Str) (hs : s.length ≤ 2) :
    skipHexMark base s = s := by
  unfold skipHexMark
  split
  · simp only [List.length_cons] at hs; omega
  · rfl

theorem readSign_length (s : Str) : (readSign s).2.length ≤ s.length := by
  unfold readSign
  split <;> simp

theorem stoul_short (s : Str) (hs : s.length ≤ 2) :
    (stoul s 16).isSome
      = (((readSign (s.dropWhile isSpace)).2.head?.bind digitVal).any (· < 16)) := by
  have hlen : (readSign (s.dropWhile isSpace)).2.length ≤ 2 :=
    le_trans (readSign_length _) (le_trans (List.dropWhile_sublist _).length_le hs)
  have hr := readDigits_short _ hlen
  unfold stoul
  simp only [skipHexMark_short 16 _ hlen]
  by_cases h0 : (readDigits 16 (readSign (s.dropWhile isSpace)).2 0 0).1 = 0
  · rw [if_pos h0, hr.2.mp h0]; rfl
  · have hlt : ¬ 2 ^ 64 ≤ (readDigits 16 (readSign (s.dropWhile isSpace)).2 0 0).2 := by
      have := hr.1; omega
    rw [if_neg h0, if_neg hlt]
    cases hb : ((readSign (s.dropWhile isSpace)).2.head?.bind digitVal).any (· < 16)
    · exact absurd (hr.2.mpr hb) h0
    · rfl

theorem stoul_single (a : Char) : (stoul [a] 16).isSome = groupReads [a] := by
  rw [stoul_short [a] (by simp)]
  simp only [groupReads]
  by_cases hsp : isSpace a = true
  · simp [List.dropWhile, hsp, readSign, (isSpace_cases a hsp).1]
  · by_cases hsg : isSign a = true
    · simp [List.dropWhile, hsp, readSign_sign a [] hsg, (isSign_cases a hsg).1]
    · simp only [Bool.not_eq_true] at hsp hsg
      simp [List.dropWhile, hsp, readSign_other a [] hsg, isHexChar_eq]

theorem stoul_pair (a b : Char) : (stoul [a, b] 16).isSome = groupReads [a, b] := by
  rw [stoul_short [a, b] (by simp)]
  simp only [groupReads]
  by_cases hsp : isSpace a = true
  · have ha := isSpace_cases a hsp
    by_cases hsp' : isSpace b = true
    · simp [List.dropWhile, hsp, hsp', readSign, ha.1, (isSpace_cases b hsp').1]
    · by_cases hsg' : isSign b = true
      · simp [List.dropWhile, hsp, hsp', readSign_sign b [] hsg', ha.1,
          (isSign_cases b hsg').1]
      · simp only [Bool.not_eq_true] at hsp' hsg'
        simp [List.dropWhile, hsp, hsp', readSign_other b [] hsg', ha.1, isHexChar_eq b]
  · by_cases hsg : isSign a = true
    · have ha := isSign_cases a hsg
      simp [List.dropWhile, ha.2.1, readSign_sign a [b] hsg, ha.1, hsg, isHexChar_eq b]
    · simp only [Bool.not_eq_true] at hsp hsg
      simp [List.dropWhile, hsp, hsg, readSign_other a [b] hsg, isHexChar_eq a]

theorem hexDecodeServer_isSome :
    ∀ hex_data : Str, (hexDecodeServer hex_data).isSome = (groupsOf hex_data).all groupReads
  | [] => rfl
  | [a] => by
    have h := stoul_single a
    cases hs : stoul [a] 16 <;> simp [hexDecodeServer, groupsOf, hs, ← h]
  | a :: b :: rest => by
    have h := stoul_pair a b
    have ih := hexDecodeServer_isSome rest
    cases hs : stoul [a, b] 16 <;> cases hr : hexDecodeServer rest <;>
      simp [hexDecodeServer, groupsOf, hs, hr, ← h, ← ih]

theorem hexDecodeClient_isSome :
    ∀ hex_data : Str, (hexDecodeClient hex_data).isSome
      = ((groupsOf hex_data).filter fun g => g.length = 2).all groupReads
  | [] => rfl
  | [a] => by simp [hexDecodeClient, groupsOf]
  | a :: b :: rest => by
    have h := stoul_pair a b
    have ih := hexDecodeClient_isSome rest
    cases hs : stoul [a, b] 16 <;> cases hr : hexDecodeClient rest <;>
      simp [hexDecodeClient, groupsOf, hs, hr, ← h, ← ih]

theorem hexDecodeServer_length :
    ∀ (hex_data : Str) (bytes : List Nat), hexDecodeServer hex_data = some bytes →
      bytes.length = (hex_data.length + 1) / 2
  | [], bytes, h => by simp [hexDecodeServer] at h; simp [← h]
  | [a], bytes, h => by
    cases hs : stoul [a] 16 <;> simp [hexDecodeServer, hs] at h
    simp [← h]
  | a :: b :: rest, bytes, h => by
    cases hs : stoul [a, b] 16 <;> cases hr : hexDecodeServer rest <;>
      simp [hexDecodeServer, hs, hr] at h
    have ih := hexDecodeServer_length rest _ hr
    simp only [← h, List.length_cons, ih]
    omega

theorem hexDecodeClient_length :
    ∀ (hex_data : Str) (bytes : List Nat), hexDecodeClient hex_data = some bytes →
      bytes.length = hex_data.length / 2
  | [], bytes, h => by simp [hexDecodeClient] at h; simp [← h]
  | [a], bytes, h => by simp [hexDecodeClient] at h; simp [← h]
  | a :: b :: rest, bytes, h => by
    cases hs : stoul [a, b] 16 <;> cases hr : hexDecodeClient rest <;>
      simp [hexDecodeClient, hs, hr] at h
    have ih := hexDecodeClient_length rest _ hr
    simp only [← h, List.length_cons, ih]
    omega

theorem isSome_eq_false_iff {α : Type} (o : Option α) : o.isSome = false ↔ o = none := by
  cases o <;> simp

theorem all_eq_false_iff (l : List Str) :
    l.all groupReads = false ↔ ∃ g ∈ l, groupReads g = false := by
  rw [← Bool.not_eq_true, List.all_eq_true]
  constructor
  · intro h
    by_contra hne
    exact h fun g hg => by
      cases hgr : groupReads g
      · exact absurd ⟨g, hg, hgr⟩ hne
      · rfl
  · rintro ⟨g, hg, hgr⟩ h
    rw [h g hg] at hgr
    exact Bool.noConfusion hgr

theorem saveFileChunk_none_iff (st : Server) (C : Int) (hex_data : Str) (tr : FileTransfer)
    (hact : mapFind intLt C st.file_transfers = some tr) :
    saveFileChunk st C hex_data = none ↔ ∃ g ∈ groupsOf hex_data, groupReads g = false := by
  rw [← all_eq_false_iff, ← hexDecodeServer_isSome, isSome_eq_false_iff]
  cases hd : hexDecodeServer hex_data <;> simp [saveFileChunk, hact, hd]

/-- C12 (amended): with a transfer session active, a `FILE_DATA` payload fails the chunk
exactly when one of its groups of two characters (on the server also a last single
character; the client leaves a last single character out) begins neither with a
hexadecimal digit nor with one white-space or sign character that a hexadecimal digit
follows. `std::stoul` then throws in the decoding loop, before the write: the server
reaches the `catch` of `handleClient` with its files and the session's counters as they
were, and the client's `processReceivedMessage` is left by the exception. Every other
payload is decoded: `(n + 1) / 2` bytes of an `n`-character payload are written and
counted on the server, `n / 2` on the client, and the chunk counter goes up by one. -/
theorem chunk_fails_iff_group_unreadable (hex_data : Str) (md : StrMap) :
    (∀ (net : Nat → Bool) (st : Server) (C : Int) (u : Str) (tr : FileTransfer),
      mapFind intLt C st.file_transfers = some tr →
      (saveFileChunk st C hex_data = none ↔
        ∃ g ∈ groupsOf hex_data, groupReads g = false) ∧
      ((∃ g ∈ groupsOf hex_data, groupReads g = false) →
        handleClientRound net st C ⟨MessageType.FILE_DATA, hex_data, md⟩ u = (st, false)) ∧
      (∀ st1, saveFileChunk st C hex_data = some st1 →
        ∃ bytes : List Nat, bytes.length = (hex_data.length + 1) / 2 ∧
          st1.fs = tr.file_handle.write st.fs bytes ∧
          mapFind intLt C st1.file_transfers = some { tr with
            received := (tr.received + bytes.length) % 2 ^ 64
            chunk_count := wrapInt32 (tr.chunk_count + 1) })) ∧
    (∀ (cur : FileReceive) (fs : FS),
      (processReceivedMessage ⟨some cur, fs⟩ ⟨MessageType.FILE_DATA, hex_data, md⟩ = none ↔
        ∃ g ∈ groupsOf hex_data, g.length = 2 ∧ groupReads g = false) ∧
      (∀ st1, processReceivedMessage ⟨some cur, fs⟩ ⟨MessageType.FILE_DATA, hex_data, md⟩
          = some st1 →
        ∃ bytes : List Nat, bytes.length = hex_data.length / 2 ∧
          st1.fs = cur.file_handle.write fs bytes ∧
          st1.current_file = some { cur with
            received := (cur.received + bytes.length) % 2 ^ 64
            chunk_count := wrapInt32 (cur.chunk_count + 1) })) := by
  have d1 : MessageType.FILE_DATA ≠ MessageType.TEXT := by decide
  have d2 : MessageType.FILE_DATA ≠ MessageType.FILE := by decide
  have d3 : MessageType.FILE_DATA ≠ MessageType.USER_JOIN := by decide
  have d4 : MessageType.FILE_DATA ≠ MessageType.USER_LEAVE := by decide
  constructor
  · intro net st C u tr hact
    have hiff := saveFileChunk_none_iff st C hex_data tr hact
    refine ⟨hiff, ?_, ?_⟩
    · intro hbad
      have hnone := hiff.mpr hbad
      simp only [handleClientRound, processMessage, d1, d2, if_false, if_true, hnone]
    · intro st1 h1
      cases hd : hexDecodeServer hex_data with
      | none => simp [saveFileChunk, hact, hd] at h1
      | some bytes =>
        simp only [saveFileChunk, hact, hd, Option.some.injEq] at h1
        subst h1
        exact ⟨bytes, hexDecodeServer_length _ _ hd, rfl, mapFind_mapSet_same _ _ _⟩
  · intro cur fs
    have hproc : processReceivedMessage ⟨some cur, fs⟩ ⟨MessageType.FILE_DATA, hex_data, md⟩
        = receiveFileChunk ⟨some cur, fs⟩ hex_data := by
      simp [processReceivedMessage, d1, d2, d3, d4]
    rw [hproc]
    constructor
    · have e : (∃ g ∈ groupsOf hex_data, g.length = 2 ∧ groupReads g = false)
          ↔ ∃ g ∈ (groupsOf hex_data).filter (fun g => g.length = 2),
              groupReads g = false := by
        constructor
        · rintro ⟨g, hg, h2, hr⟩
          exact ⟨g, List.mem_filter.mpr ⟨hg, by simpa using h2⟩, hr⟩
        · rintro ⟨g, hg, hr⟩
          have := List.mem_filter.mp hg
          exact ⟨g, this.1, by simpa using this.2, hr⟩
      rw [e, ← all_eq_false_iff, ← hexDecodeClient_isSome, isSome_eq_false_iff]
      cases hd : hexDecodeClient hex_data <;> simp [receiveFileChunk, hd]
    · intro st1 h1
      cases hd : hexDecodeClient hex_data with
      | none => simp [receiveFileChunk, hd] at h1
      | some bytes =>
        simp only [receiveFileChunk, hd, Option.some.injEq] at h1
        subst h1
        exact ⟨bytes, hexDecodeClient_length _ _ hd, rfl, rfl⟩

theorem chunk_fails_iff_group_unreadable_witness :
    mapFind intLt 4 midTransferServer.file_transfers
        = some ⟨lit "a.txt", lit "./files/received/alice_a.txt", 3, 1, lit "alice",
            ⟨some (lit "./files/received/alice_a.txt"), false⟩, 1⟩ ∧
    (∃ g ∈ groupsOf (lit "01zz"), groupReads g = false) ∧
    handleClientRound netUp midTransferServer 4 ⟨MessageType.FILE_DATA, lit "01zz", []⟩
      (lit "alice") = (midTransferServer, false) :=
  ⟨rfl, ⟨lit "zz", by decide, by decide⟩,
    ((chunk_fails_iff_group_unreadable (lit "01zz") []).1 netUp midTransferServer 4
      (lit "alice") _ rfl).2.1 ⟨lit "zz", by decide, by decide⟩⟩

/-- C12 fails as stated. With a session active that has stored the byte `1`, the payload
`abc` (odd length) is written as the bytes `ab`, `0c` on the server and as the byte `ab`
on the client, and the payload `1g` (`g` is no hexadecimal digit) as the byte `01` on
both; the counters go up each time. -/
theorem odd_or_stray_payload_is_written :
    (lit "abc").length % 2 = 1 ∧ isHexChar 'g' = false ∧
    (saveFileChunk midTransferServer 4 (lit "abc")).map (fun s =>
        (fsRead s.fs (lit "./files/received/alice_a.txt"),
         (mapFind intLt 4 s.file_transfers).map fun t => (t.received, t.chunk_count)))
      = some (some [1, 171, 12], some (3, 2)) ∧
    (receiveFileChunk midTransferClient (lit "abc")).map (fun s =>
        (fsRead s.fs (lit "./files/downloads/a.txt"),
         s.current_file.map fun t => (t.received, t.chunk_count)))
      = some (some [1, 171], some (2, 2)) ∧
    (saveFileChunk midTransferServer 4 (lit "1g")).map (fun s =>
        (fsRead s.fs (lit "./files/received/alice_a.txt"),
         (mapFind intLt 4 s.file_transfers).map fun t => (t.received, t.chunk_count)))
      = some (some [1, 1], some (2, 2)) ∧
    (receiveFileChunk midTransferClient (lit "1g")).map (fun s =>
        (fsRead s.fs (lit "./files/downloads/a.txt"),
         s.current_file.map fun t => (t.received, t.chunk_count)))
      = some (some [1, 1], some (2, 2)) := by
  refine ⟨by decide, by decide, ?_, ?_, ?_, ?_⟩ <;> decide

/-! ## The handshake -/

theorem mapFind_mapSet_other {α : Type} (k j : Int) (v : α) (hj : j ≠ k) :
    ∀ l : List (Int × α), mapFind intLt j (mapSet intLt k v l) = mapFind intLt j l
  | [] => by
    simp only [mapSet, mapFind, intLt]
    by_cases h1 : j < k
    · simp [h1]
    · have h2 : k < j := by omega
      simp [h1, h2]
  | (k', v') :: rest => by
    simp only [mapSet, intLt]
    by_cases h1 : k < k'
    · simp only [h1, decide_True, if_true, mapFind, intLt]
      by_cases h3 : j < k
      · have h4 : j < k' := by omega
        simp [h3, h4]
      · have h4 : k < j := by omega
        simp [h3, h4]
    · by_cases h2 : k' < k
      · simp only [h1, h2, decide_True, decide_False, if_true, mapFind, intLt]
        rw [mapFind_mapSet_other k j v hj rest]
      · have e : k = k' := by omega
        subst e
        simp only [h1, decide_False, mapFind, intLt]
        by_cases h3 : j < k
        · simp [h3]
        · have h4 : k < j := by omega
          simp [h3, h4]

theorem handleClientJoin_none (net : Nat → Bool) (st : Server) (c : Int) (addr : Str)
    (first : Option ParsedMessage)
    (h : first = none ∨ ∃ msg, first = some msg ∧ msg.type ≠ MessageType.USER_JOIN) :
    handleClientJoin net st c addr first = none := by
  rcases h with rfl | ⟨msg, rfl, hne⟩
  · rfl
  · simp [handleClientJoin, hne]

/-- C13: when the first `receiveMessage` on a new connection fails, or gives an envelope
whose type is not `USER_JOIN`, `handleClient` closes the socket and returns with the
server as it was: the registry is unchanged, no transfer session has been created, no
file has been touched and no `sendMessage` call has been made. -/
theorem handleClient_rejects_without_join (net : Nat → Bool) (st : Server) (c : Int)
    (addr stream : Str)
    (hfirst : (receiveMessage stream).1 = none ∨
      ∃ msg, (receiveMessage stream).1 = some msg ∧ msg.type ≠ MessageType.USER_JOIN) :
    handleClient net st c addr stream = ⟨st, true⟩ ∧
    (handleClient net st c addr stream).closed = true ∧
    (handleClient net st c addr stream).st.clients = st.clients ∧
    (handleClient net st c addr stream).st.file_transfers = st.file_transfers ∧
    (handleClient net st c addr stream).st.fs = st.fs ∧
    newSends st (handleClient net st c addr stream).st = [] := by
  have h : handleClient net st c addr stream = ⟨st, true⟩ := by
    simp only [handleClient, handleClientJoin_none net st c addr _ hfirst]
  rw [h]
  exact ⟨rfl, rfl, rfl, rfl, rfl, by simp [newSends]⟩

theorem handleClient_rejects_without_join_witness :
    ((receiveMessage ([] : Str)).1 = none ∧
      handleClient netUp sampleServer 9 (lit "10.0.0.9:5000") [] = ⟨sampleServer, true⟩) ∧
    ((∃ msg, (receiveMessage (frameBytes (createMessage MessageType.TEXT (lit "hi") []))).1
          = some msg ∧ msg.type ≠ MessageType.USER_JOIN) ∧
      handleClient netUp sampleServer 9 (lit "10.0.0.9:5000")
          (frameBytes (createMessage MessageType.TEXT (lit "hi") []))
        = ⟨sampleServer, true⟩) :=
  ⟨⟨by decide,
    (handleClient_rejects_without_join netUp sampleServer 9 (lit "10.0.0.9:5000") []
      (Or.inl (by decide))).1⟩,
   ⟨⟨⟨MessageType.TEXT, lit "hi", []⟩, by decide, by decide⟩,
    (handleClient_rejects_without_join netUp sampleServer 9 (lit "10.0.0.9:5000")
      (frameBytes (createMessage MessageType.TEXT (lit "hi") []))
      (Or.inr ⟨⟨MessageType.TEXT, lit "hi", []⟩, by decide, by decide⟩)).1⟩⟩

/-- What a successful handshake leaves: the new registry entry, and everything else but
the record of the sends as it was. -/
theorem handleClientJoin_some (net : Nat → Bool) (st : Server) (c : Int) (addr : Str)
    (msg : ParsedMessage) (hjoin : msg.type = MessageType.USER_JOIN) :
    ∃ st1, handleClientJoin net st c addr (some msg)
        = some (if msg.data = [] then lit "User_" ++ to_string_int c else msg.data, st1) ∧
      st1.clients = mapSet intLt c
        ⟨if msg.data = [] then lit "User_" ++ to_string_int c else msg.data, addr, st.clock⟩
        st.clients ∧
      st1.file_transfers = st.file_transfers ∧ st1.fs = st.fs := by
  refine ⟨_, by simp only [handleClientJoin, hjoin, ne_eq, not_true_eq_false, if_false]; rfl,
    ?_, ?_, ?_⟩
  · simp only [sendMessage, broadcastMessage_clients]
  · simp only [sendMessage, broadcastMessage_transfers]
  · simp only [sendMessage, broadcastMessage_fs]

/-- C14: a handshake on connection `c` whose first envelope is a `USER_JOIN` with data
`d` succeeds, and afterwards the registry holds for `c` the user name `d` when `d` is
not empty and `User_` followed by the decimal text of `c` when `d` is empty; what the
registry holds for every other connection is what it held before. -/
theorem handshake_registers_username (net : Nat → Bool) (st : Server) (c : Int)
    (addr : Str) (msg : ParsedMessage) (hjoin : msg.type = MessageType.USER_JOIN) :
    ∃ username st1, handleClientJoin net st c addr (some msg) = some (username, st1) ∧
      (msg.data ≠ [] → username = msg.data) ∧
      (msg.data = [] → username = lit "User_" ++ to_string_int c) ∧
      (mapFind intLt c st1.clients).map ClientInfo.username = some username ∧
      (mapFind intLt c st1.clients).map ClientInfo.address = some addr ∧
      ∀ k, k ≠ c → mapFind intLt k st1.clients = mapFind intLt k st.clients := by
  obtain ⟨st1, hrun, hcl, _, _⟩ := handleClientJoin_some net st c addr msg hjoin
  refine ⟨_, st1, hrun, ?_, ?_, ?_, ?_, ?_⟩
  · intro h; rw [if_neg h]
  · intro h; rw [if_pos h]
  · rw [hcl, mapFind_mapSet_same]; rfl
  · rw [hcl, mapFind_mapSet_same]; rfl
  · intro k hk
    rw [hcl]
    exact mapFind_mapSet_other c k _ hk st.clients

theorem handshake_registers_username_witness :
    ∃ username st1, handleClientJoin netUp sampleServer 9 (lit "10.0.0.9:5000")
        (some ⟨MessageType.USER_JOIN, [], []⟩) = some (username, st1) ∧
      (([] : Str) ≠ [] → username = []) ∧
      (([] : Str) = [] → username = lit "User_" ++ to_string_int 9) ∧
      (mapFind intLt 9 st1.clients).map ClientInfo.username = some username ∧
      (mapFind intLt 9 st1.clients).map ClientInfo.address = some (lit "10.0.0.9:5000") ∧
      ∀ k, k ≠ 9 → mapFind intLt k st1.clients = mapFind intLt k sampleServer.clients :=
  handshake_registers_username netUp sampleServer 9 (lit "10.0.0.9:5000")
    ⟨MessageType.USER_JOIN, [], []⟩ rfl

/-! ## Decoding what is not an envelope -/

theorem find_pos_le (s pat : Str) (pos j : Nat) (h : find s pat pos = some j) :
    pos ≤ s.length := by
  unfold find at h
  split at h
  · assumption
  · simp at h

theorem findAux_le (pat : Str) :
    ∀ (s : Str) (i j : Nat), findAux pat s i = some j → j ≤ i + s.length
  | [], i, j, h => by
    simp only [findAux] at h
    split at h
    · simp only [Option.some.injEq] at h; simp only [List.length_nil]; omega
    · simp at h
  | c :: cs, i, j, h => by
    simp only [findAux] at h
    split at h
    · simp only [Option.some.injEq] at h; omega
    · have := findAux_le pat cs (i + 1) j h
      simp only [List.length_cons]; omega

theorem find_le (s pat : Str) (pos j : Nat) (h : find s pat pos = some j) :
    j ≤ s.length := by
  have hp := find_pos_le s pat pos j h
  unfold find at h
  rw [if_pos hp] at h
  have := findAux_le pat _ pos j h
  rw [List.length_drop] at this
  omega

theorem substr_of_find (s pat : Str) (pos j n : Nat) (h : find s pat pos = some j) :
    substr s pos n = some ((s.drop pos).take n) := by
  simp [substr, find_pos_le s pat pos j h]

/-- The loop over the pairs never throws: each `substr` starts where a `find` has just
succeeded. -/
theorem parsePairs_isSome (metaStr : Str) :
    ∀ (fuel pos : Nat) (m : StrMap), ∃ r, parsePairs fuel metaStr pos m = some r
  | 0, _, m => ⟨m, rfl⟩
  | fuel + 1, pos, m => by
    rw [parsePairs]
    split
    · cases h1 : find metaStr [dq] pos with
      | none => exact ⟨m, rfl⟩
      | some ks =>
        simp only
        cases h2 : find metaStr [dq] (ks + 1) with
        | none => exact ⟨m, rfl⟩
        | some keyEnd =>
          simp only
          cases h3 : find metaStr [dq] (keyEnd + 1) with
          | none => exact ⟨m, rfl⟩
          | some vs =>
            simp only
            cases h4 : find metaStr [dq] (vs + 1) with
            | none => exact ⟨m, rfl⟩
            | some valueEnd =>
              simp only [substr_of_find _ _ _ _ _ h2, substr_of_find _ _ _ _ _ h4]
              exact parsePairs_isSome metaStr fuel (valueEnd + 1) _
    · exact ⟨m, rfl⟩

theorem assemble_some (a b : Option Str) (c : Option StrMap) (t d : Str) (m : StrMap)
    (ha : a = some t) (hb : b = some d) (hc : c = some m) :
    (match a, b, c with
      | some t, some d, some m => some (ParsedMessage.mk t d m)
      | _, _, _ => none) = some ⟨t, d, m⟩ := by
  subst ha hb hc; rfl

theorem parseMessage_some (json : Str) :
    ∃ d m, parseMessage json = some ⟨typeRead json, d, m⟩ := by
  have hT : (match find json [dq] (findPlus8 json (lit "\"type\":\"")) with
      | some typeEnd => (substr json (findPlus8 json (lit "\"type\":\""))
          (typeEnd - findPlus8 json (lit "\"type\":\""))).map unescape
      | none => some []) = some (typeRead json) := by
    unfold typeRead typeMarker
    cases h : find json [dq] (findPlus8 json (lit "\"type\":\"")) with
    | none => rfl
    | some e => simp only [substr_of_find _ _ _ _ _ h, Option.map_some']
  have hD : ∃ d, (match (match find json (lit "\",\"metadata\"")
          (findPlus8 json (lit "\"data\":\"")) with
        | some e => some e
        | none => find json (lit "\"\x7d") (findPlus8 json (lit "\"data\":\""))) with
      | some e => (substr json (findPlus8 json (lit "\"data\":\""))
          (e - findPlus8 json (lit "\"data\":\""))).map unescape
      | none => some []) = some d := by
    cases h1 : find json (lit "\",\"metadata\"") (findPlus8 json (lit "\"data\":\"")) with
    | some e =>
      simp only [substr_of_find _ _ _ _ _ h1, Option.map_some']
      exact ⟨_, rfl⟩
    | none =>
      cases h2 : find json (lit "\"\x7d") (findPlus8 json (lit "\"data\":\"")) with
      | some e =>
        simp only [substr_of_find _ _ _ _ _ h2, Option.map_some']
        exact ⟨_, rfl⟩
      | none => exact ⟨[], rfl⟩
  have hM : ∃ m, (match find json (lit "\"metadata\":\x7b") 0 with
      | some ms =>
        match find json (lit "\x7d\x7d") (ms + 12) with
        | some metaEnd =>
          match substr json (ms + 12) (metaEnd - (ms + 12)) with
          | some metaStr => parsePairs metaStr.length metaStr 0 []
          | none => none
        | none => some []
      | none => some []) = some m := by
    cases h1 : find json (lit "\"metadata\":\x7b") 0 with
    | none => exact ⟨[], rfl⟩
    | some ms =>
      simp only
      cases h2 : find json (lit "\x7d\x7d") (ms + 12) with
      | none => exact ⟨[], rfl⟩
      | some metaEnd =>
        simp only [substr_of_find _ _ _ _ _ h2]
        exact parsePairs_isSome _ _ 0 []
  obtain ⟨d, hD⟩ := hD
  obtain ⟨m, hM⟩ := hM
  exact ⟨d, m, assemble_some _ _ _ _ _ _ hT hD hM⟩

theorem receiveMessage_frameBytes (body rest : Str) (hlen : body.length ≤ 1048576) :
    receiveMessage (frameBytes body ++ rest) = (parseMessage body, rest) := by
  simp only [receiveMessage, readFrame_frameBytes body rest hlen]

/-- C15 (amended): a frame body without the marker `"type":"` is decoded without any
failure signal: `receiveMessage` returns `true` with a message whose type is the text of
the body from position 7 (what `npos + 8` comes to) up to the next double quote,
unescaped, and the empty text when no double quote follows. -/
theorem receiveMessage_without_type_marker (body rest : Str)
    (hlen : body.length ≤ 1048576) (hno : find body typeMarker 0 = none) :
    ∃ msg, receiveMessage (frameBytes body ++ rest) = (some msg, rest) ∧
      msg.type = (match find body [dq] 7 with
        | some typeEnd => unescape ((body.drop 7).take (typeEnd - 7))
        | none => []) := by
  obtain ⟨d, m, h⟩ := parseMessage_some body
  refine ⟨_, by rw [receiveMessage_frameBytes body rest hlen, h], ?_⟩
  have h7 : findPlus8 body typeMarker = 7 := by simp [findPlus8, hno]
  simp only [typeRead, h7]

theorem receiveMessage_without_type_marker_witness :
    (lit "hello").length ≤ 1048576 ∧ find (lit "hello") typeMarker 0 = none ∧
    ∃ msg, receiveMessage (frameBytes (lit "hello") ++ []) = (some msg, []) ∧
      msg.type = (match find (lit "hello") [dq] 7 with
        | some typeEnd => unescape (((lit "hello").drop 7).take (typeEnd - 7))
        | none => []) :=
  ⟨by decide, by decide,
    receiveMessage_without_type_marker (lit "hello") [] (by decide) (by decide)⟩

/-- C15 fails as stated: the body `{"data":"x"}` has no `"type":"` marker, and
`receiveMessage` reports success for its frame, with a message of type `:` and
data `x`. -/
theorem receiveMessage_accepts_body_without_type :
    find (lit "\x7b\"data\":\"x\"\x7d") typeMarker 0 = none ∧
    receiveMessage (frameBytes (lit "\x7b\"data\":\"x\"\x7d"))
      = (some ⟨lit ":", lit "x", []⟩, []) := by
  constructor <;> decide

/-- C16: `parseMessage` returns a message for every input text, whatever it holds or
lacks: no `substr` is asked for a position beyond the end of the text (each one starts
where a `find` has just been made from, and `find` gives `npos` from a position beyond
the end), and the loop over the metadata pairs ends by itself (more fuel than the
length of the pairs text changes nothing). -/
theorem parseMessage_total (json : Str) :
    (∃ msg, parseMessage json = some msg) ∧
    (∀ typeEnd, find json [dq] (findPlus8 json typeMarker) = some typeEnd →
      findPlus8 json typeMarker ≤ typeEnd ∧ typeEnd ≤ json.length) ∧
    (∀ pat dataEnd, find json pat (findPlus8 json (lit "\"data\":\"")) = some dataEnd →
      findPlus8 json (lit "\"data\":\"") ≤ dataEnd ∧
      findPlus8 json (lit "\"data\":\"") ≤ json.length) ∧
    (∀ ms metaEnd, find json (lit "\x7d\x7d") (ms + 12) = some metaEnd →
      ms + 12 ≤ metaEnd ∧ ms + 12 ≤ json.length) ∧
    (∀ (metaStr : Str) (more pos : Nat) (m : StrMap),
      (∃ r, parsePairs metaStr.length metaStr pos m = some r) ∧
      parsePairs (metaStr.length + more) metaStr pos m
        = parsePairs metaStr.length metaStr pos m) := by
  obtain ⟨d, m, h⟩ := parseMessage_some json
  refine ⟨⟨_, h⟩, ?_, ?_, ?_, ?_⟩
  · intro e he
    exact ⟨find_ge _ _ _ _ he, find_le _ _ _ _ he⟩
  · intro pat e he
    exact ⟨find_ge _ _ _ _ he, find_pos_le _ _ _ _ he⟩
  · intro ms e he
    exact ⟨find_ge _ _ _ _ he, find_pos_le _ _ _ _ he⟩
  · intro metaStr more pos m
    exact ⟨parsePairs_isSome metaStr _ pos m,
      parsePairs_fuel metaStr _ _ pos m (by omega) (by omega)⟩

/-- C17, the code at the failing inputs: while a download is active a `FILE_DATA`
envelope with the payload `zz` makes `std::stoul` throw inside
`processReceivedMessage`, and so does a `FILE` envelope whose `size` is `abc`, through
`std::stoull`; nothing in `receiveMessages` catches the exception, so the frame of such
an envelope ends the receive loop by the exception rather than by a return. -/
theorem processReceivedMessage_throws :
    processReceivedMessage midTransferClient ⟨MessageType.FILE_DATA, lit "zz", []⟩ = none ∧
    processReceivedMessage ⟨none, []⟩ ⟨MessageType.FILE, [], [(lit "size", lit "abc")]⟩
      = none ∧
    receiveMessages 2 (frameBytes (createMessage MessageType.FILE_DATA (lit "zz") []))
      midTransferClient = none ∧
    receiveMessages 2
      (frameBytes (createMessage MessageType.FILE [] [(lit "size", lit "abc")]))
      ⟨none, []⟩ = none := by
  refine ⟨?_, ?_, ?_, ?_⟩ <;> decide

/-! ## Relaying the envelopes of a transfer -/

theorem mapFind_mapErase_other {α : Type} (k j : Int) (hj : j ≠ k) :
    ∀ l : List (Int × α), l.Pairwise (fun a b => a.1 < b.1) →
      mapFind intLt j (mapErase intLt k l) = mapFind intLt j l
  | [], _ => rfl
  | (k', v') :: rest, h => by
    have hhead := (List.pairwise_cons.mp h).1
    have hrest := (List.pairwise_cons.mp h).2
    simp only [mapErase, intLt]
    by_cases h1 : k < k'
    · simp [h1]
    · by_cases h2 : k' < k
      · simp only [h1, h2, decide_True, decide_False, if_true, mapFind, intLt]
        rw [mapFind_mapErase_other k j hj rest hrest]
      · have e : k = k' := by omega
        subst e
        simp only [h1, decide_False, mapFind, intLt]
        by_cases h3 : j < k
        · simp only [h3, decide_True, if_true]
          exact mapFind_none_of_lt j rest (fun p hp => lt_trans h3 (hhead p hp))
        · have h4 : k < j := by omega
          simp [h3, h4]

theorem completeFileReception_transfers (st : Server) (C : Int) :
    (completeFileReception st C).file_transfers = mapErase intLt C st.file_transfers ∧
    (completeFileReception st C).clients = st.clients ∧
    (completeFileReception st C).fs = st.fs ∧
    (completeFileReception st C).sent = st.sent := by
  unfold completeFileReception
  cases h : mapFind intLt C st.file_transfers with
  | some t => exact ⟨rfl, rfl, rfl, rfl⟩
  | none =>
    refine ⟨?_, rfl, rfl, rfl⟩
    simp only
    generalize st.file_transfers = l at h
    induction l with
    | nil => rfl
    | cons p rest ih =>
      obtain ⟨k', v'⟩ := p
      simp only [mapFind, intLt] at h
      simp only [mapErase, intLt]
      by_cases h1 : C < k'
      · simp [h1]
      · by_cases h2 : k' < C
        · simp only [h1, h2, decide_True, decide_False, if_true, Bool.false_eq_true,
            if_false] at h ⊢
          rw [← ih h]
        · simp [h1, h2] at h

theorem count_append_attempts (net : Nat → Bool) (t1 d1 t2 d2 : Str) (m1 m2 : StrMap)
    (a b : Nat) (l : List Int) (s : Int) :
    ((attempts net t1 d1 m1 a l ++ attempts net t2 d2 m2 b l).map Sent.socket).count s
      = 2 * l.count s := by
  rw [List.map_append, attempts_sockets, attempts_sockets, List.count_append]
  omega

/-- C18: on a `FILE_COMPLETE` envelope from connection `C` with user name `u` the
server drops the transfer session of `C` (the stream of the session is closed with it)
and leaves the other sessions, the registry and the files as they are; it then makes
one `sendMessage` call per registered connection other than `C` with a `TEXT` notice
that holds `u` and the file name of the envelope's metadata (`unknown_file` when the
metadata has none), and after these one call per registered connection other than `C`
with a `FILE_COMPLETE` envelope of the same data and metadata as the inbound one; no
call goes to `C`. -/
theorem processMessage_complete_relays (net : Nat → Bool) (st : Server) (C : Int)
    (msg : ParsedMessage) (u : Str) (hreg : ClientsOk st.clients)
    (htr : TransfersOk st.file_transfers)
    (htype : msg.type = MessageType.FILE_COMPLETE) :
    ∃ st1, processMessage net st C msg u = some st1 ∧
      mapFind intLt C st1.file_transfers = none ∧
      (∀ k, k ≠ C → mapFind intLt k st1.file_transfers = mapFind intLt k st.file_transfers) ∧
      st1.clients = st.clients ∧ st1.fs = st.fs ∧
      st1.sent = st.sent ++ newSends st st1 ∧
      newSends st st1
        = attempts net MessageType.TEXT
            (completeNotice u (metaOr msg.metadata (lit "filename") (lit "unknown_file"))) []
            st.sent.length (recipients st.clients C)
          ++ attempts net MessageType.FILE_COMPLETE msg.data msg.metadata
            (st.sent.length + (recipients st.clients C).length) (recipients st.clients C) ∧
      (∀ f, mapFind strLt (lit "filename") msg.metadata = some f →
        metaOr msg.metadata (lit "filename") (lit "unknown_file") = f ∧
        u <:+: completeNotice u f ∧ f <:+: completeNotice u f) ∧
      (∀ s, ((newSends st st1).map Sent.socket).count s
        = if s ≠ C ∧ s ∈ st.clients.map Prod.fst then 2 else 0) ∧
      ((newSends st st1).map Sent.socket).count C = 0 := by
  have c1 : MessageType.FILE_COMPLETE ≠ MessageType.TEXT := by decide
  have c2 : MessageType.FILE_COMPLETE ≠ MessageType.FILE := by decide
  have c5 : MessageType.FILE_COMPLETE ≠ MessageType.FILE_DATA := by decide
  obtain ⟨ht, hc, hf, hs⟩ := completeFileReception_transfers st C
  have hp : processMessage net st C msg u
      = some (broadcastMessage net
          (broadcastMessage net (completeFileReception st C) MessageType.TEXT
            (completeNotice u (metaOr msg.metadata (lit "filename") (lit "unknown_file")))
            [] C)
          MessageType.FILE_COMPLETE msg.data msg.metadata C) := by
    simp only [processMessage, htype, c1, c2, c5, if_false, if_true, completeNotice]
  have hsent : (broadcastMessage net
          (broadcastMessage net (completeFileReception st C) MessageType.TEXT
            (completeNotice u (metaOr msg.metadata (lit "filename") (lit "unknown_file")))
            [] C)
          MessageType.FILE_COMPLETE msg.data msg.metadata C).sent
      = st.sent ++ (attempts net MessageType.TEXT
            (completeNotice u (metaOr msg.metadata (lit "filename") (lit "unknown_file"))) []
            st.sent.length (recipients st.clients C)
          ++ attempts net MessageType.FILE_COMPLETE msg.data msg.metadata
            (st.sent.length + (recipients st.clients C).length)
            (recipients st.clients C)) := by
    rw [broadcastMessage_sent, broadcastMessage_clients, broadcastMessage_sent, hc, hs,
      List.length_append, attempts_length, List.append_assoc]
  have hnew : newSends st (broadcastMessage net
          (broadcastMessage net (completeFileReception st C) MessageType.TEXT
            (completeNotice u (metaOr msg.metadata (lit "filename") (lit "unknown_file")))
            [] C)
          MessageType.FILE_COMPLETE msg.data msg.metadata C)
      = attempts net MessageType.TEXT
            (completeNotice u (metaOr msg.metadata (lit "filename") (lit "unknown_file"))) []
            st.sent.length (recipients st.clients C)
          ++ attempts net MessageType.FILE_COMPLETE msg.data msg.metadata
            (st.sent.length + (recipients st.clients C).length)
            (recipients st.clients C) := by
    simp only [newSends, hsent, List.drop_left]
  refine ⟨_, hp, ?_, ?_, ?_, ?_, ?_, hnew, ?_, ?_, ?_⟩
  · rw [broadcastMessage_transfers, broadcastMessage_transfers, ht]
    exact mapFind_mapErase_same C _ htr
  · intro k hk
    rw [broadcastMessage_transfers, broadcastMessage_transfers, ht]
    exact mapFind_mapErase_other C k hk _ htr
  · rw [broadcastMessage_clients, broadcastMessage_clients, hc]
  · rw [broadcastMessage_fs, broadcastMessage_fs, hf]
  · rw [hnew, hsent]
  · intro f hfn
    refine ⟨by simp [metaOr, hfn], ?_, ?_⟩
    · exact ⟨lit "用户 '", lit "' 分享了文件: " ++ f, by simp [completeNotice]⟩
    · exact ⟨lit "用户 '" ++ u ++ lit "' 分享了文件: ", [], by simp [completeNotice]⟩
  · intro s
    rw [hnew, count_append_attempts, clientsOk_count st.clients hreg C s]
    split <;> simp
  · rw [hnew, count_append_attempts, clientsOk_count st.clients hreg C C]
    simp

theorem processMessage_complete_relays_witness :
    ∃ st1, processMessage netUp midTransferServer 4
        ⟨MessageType.FILE_COMPLETE, [], [(lit "filename", lit "a.txt")]⟩ (lit "alice")
        = some st1 ∧
      mapFind intLt 4 st1.file_transfers = none ∧
      (∀ k, k ≠ 4 →
        mapFind intLt k st1.file_transfers = mapFind intLt k midTransferServer.file_transfers) ∧
      st1.clients = midTransferServer.clients ∧ st1.fs = midTransferServer.fs ∧
      st1.sent = midTransferServer.sent ++ newSends midTransferServer st1 ∧
      newSends midTransferServer st1
        = attempts netUp MessageType.TEXT
            (completeNotice (lit "alice")
              (metaOr [(lit "filename", lit "a.txt")] (lit "filename") (lit "unknown_file"))) []
            midTransferServer.sent.length (recipients midTransferServer.clients 4)
          ++ attempts netUp MessageType.FILE_COMPLETE [] [(lit "filename", lit "a.txt")]
            (midTransferServer.sent.length + (recipients midTransferServer.clients 4).length)
            (recipients midTransferServer.clients 4) ∧
      (∀ f, mapFind strLt (lit "filename") [(lit "filename", lit "a.txt")] = some f →
        metaOr [(lit "filename", lit "a.txt")] (lit "filename") (lit "unknown_file") = f ∧
        lit "alice" <:+: completeNotice (lit "alice") f ∧
        f <:+: completeNotice (lit "alice") f) ∧
      (∀ s, ((newSends midTransferServer st1).map Sent.socket).count s
        = if s ≠ 4 ∧ s ∈ midTransferServer.clients.map Prod.fst then 2 else 0) ∧
      ((newSends midTransferServer st1).map Sent.socket).count 4 = 0 :=
  processMessage_complete_relays netUp midTransferServer 4
    ⟨MessageType.FILE_COMPLETE, [], [(lit "filename", lit "a.txt")]⟩ (lit "alice")
    (by decide) (by decide) rfl

/-- `open` leaves the files as they are, or makes one empty file at the path when that
names an entry under its own text. -/
theorem openOn_slot_fs (h : OFStream) (fs : FS) (path : Str) (hs : isSlot path = true) :
    (h.openOn fs path).2 = fs ∨ (h.openOn fs path).2 = fsPut fs path [] := by
  unfold isSlot at hs
  split at hs
  · rename_i d name hn
    have := of_decide_eq_true hs
    unfold OFStream.openOn
    split
    · exact Or.inl rfl
    · simp only [hn, this, or_true]
  · exact absurd hs (by simp)

/-- What `prepareFileReception` leaves for a name that can be stored: a session with the
counters at zero and the announced size, at a path that did not exist; the files that
did exist keep their content. -/
theorem prepareFileReception_fresh (st : Server) (c : Int) (filename : Str) (n : Nat)
    (u : Str) (hsmall : st.fs.length + 2 < 2 ^ 31)
    (hname : StorableName (u ++ lit "_" ++ filename)) :
    ∃ st1 t, prepareFileReception st c filename n u = some st1 ∧
      mapFind intLt c st1.file_transfers = some t ∧
      t.filename = filename ∧ t.expected_size = n ∧ t.received = 0 ∧ t.chunk_count = 0 ∧
      t.username = u ∧ fsExists st.fs t.filepath = false ∧
      (∀ q, fsExists st.fs q = true → fsRead st1.fs q = fsRead st.fs q) ∧
      (mapFind intLt c st.file_transfers = none →
        t.file_handle = ⟨some t.filepath, false⟩ ∧ fsRead st1.fs t.filepath = some []) ∧
      st1.clients = st.clients ∧ st1.sent = st.sent := by
  obtain ⟨path, hres, ⟨hfree, _⟩, hslot⟩ := resolvePath_picksFree st.fs
    (lit "./files/received" ++ lit "/" ++ (u ++ lit "_")) filename hsmall
    (slots_received u filename hname)
  have hp : prepareFileReception st c filename n u = some { st with
      file_transfers := mapSet intLt c
        ⟨filename, path, n, 0, u,
          ((match mapFind intLt c st.file_transfers with
            | some t => t.file_handle
            | none => OFStream.closed).openOn st.fs path).1, 0⟩ st.file_transfers
      fs := ((match mapFind intLt c st.file_transfers with
            | some t => t.file_handle
            | none => OFStream.closed).openOn st.fs path).2 } := by
    simp only [prepareFileReception, hres]
  refine ⟨_, _, hp, mapFind_mapSet_same _ _ _, rfl, rfl, rfl, rfl, rfl, hfree, ?_, ?_,
    rfl, rfl⟩
  · intro q hq
    have hne : q ≠ path := by
      intro e; rw [e, hfree] at hq; exact Bool.noConfusion hq
    rcases openOn_slot_fs (match mapFind intLt c st.file_transfers with
        | some t => t.file_handle
        | none => OFStream.closed) st.fs path hslot with h | h
    · exact congrArg (fun f => fsRead f q) h
    · exact (congrArg (fun f => fsRead f q) h).trans (fsRead_fsPut_other _ _ _ _ hne)
  · intro hidle
    simp only [hidle, openOn_slot _ _ hslot]
    exact ⟨trivial, fsRead_fsPut_same _ _ _⟩

theorem attempts_get_ok (net : Nat → Bool) (t d : Str) (m : StrMap) :
    ∀ (l : List Int) (start i : Nat), i < l.length →
      ((attempts net t d m start l).get? i).map Sent.ok = some (net (start + i))
  | [], _, i, h => absurd h (Nat.not_lt_zero _)
  | s :: ss, start, 0, _ => by simp [attempts]
  | s :: ss, start, i + 1, h => by
    have ih := attempts_get_ok net t d m ss (start + 1) i
      (by simpa using Nat.lt_of_succ_lt_succ h)
    simp only [attempts, List.get?_cons_succ, ih]
    congr 2
    omega

/-- C21: whatever the network does with each send, `broadcastMessage` makes its
`sendMessage` calls to the sockets of the registry other than the excluded one, in the
order of the map, one call each: the sockets called are the same for every network, the
outcome of the call number `i` is what the network gives it, a call that fails is
followed by the calls to the sockets after it, and no socket is called twice. -/
theorem broadcastMessage_attempts_each_once (net : Nat → Bool) (st : Server) (type data : Str)
    (metadata : StrMap) (exclude_socket : Int) (hreg : ClientsOk st.clients) :
    newSends st (broadcastMessage net st type data metadata exclude_socket)
      = attempts net type data metadata st.sent.length
          (recipients st.clients exclude_socket) ∧
    (newSends st (broadcastMessage net st type data metadata exclude_socket)).map Sent.socket
      = recipients st.clients exclude_socket ∧
    (∀ s, ((newSends st (broadcastMessage net st type data metadata exclude_socket)).map
        Sent.socket).count s
      = if s ≠ exclude_socket ∧ s ∈ st.clients.map Prod.fst then 1 else 0) ∧
    (∀ i, i < (recipients st.clients exclude_socket).length →
      ((newSends st (broadcastMessage net st type data metadata exclude_socket)).get? i).map
        Sent.ok = some (net (st.sent.length + i))) ∧
    (∀ x ∈ newSends st (broadcastMessage net st type data metadata exclude_socket),
      x.type = type ∧ x.data = data ∧ x.metadata = metadata) ∧
    (broadcastMessage net st type data metadata exclude_socket).clients = st.clients := by
  have hnew : newSends st (broadcastMessage net st type data metadata exclude_socket)
      = attempts net type data metadata st.sent.length
          (recipients st.clients exclude_socket) := by
    rw [broadcastMessage_eq, newSends_append]
  rw [hnew]
  refine ⟨rfl, attempts_sockets _ _ _ _ _ _, ?_, ?_, attempts_envelope _ _ _ _ _ _,
    broadcastMessage_clients _ _ _ _ _ _⟩
  · intro s
    rw [attempts_sockets]
    exact clientsOk_count st.clients hreg exclude_socket s
  · intro i hi
    exact attempts_get_ok net type data metadata _ _ i hi

/-- Witness of `broadcastMessage_attempts_each_once`: on the sample server the send to
`bob` (socket 5) fails and the send to `carol` (socket 7) is still made, once. -/
theorem broadcastMessage_attempts_each_once_witness :
    newSends sampleServer
        (broadcastMessage (fun n => decide (n ≠ 0)) sampleServer MessageType.TEXT (lit "hi")
          [] 4)
      = [⟨5, MessageType.TEXT, lit "hi", [], false⟩, ⟨7, MessageType.TEXT, lit "hi", [], true⟩] :=
  (broadcastMessage_attempts_each_once (fun n => decide (n ≠ 0)) sampleServer MessageType.TEXT
    (lit "hi") [] 4 (by decide)).1.trans (by decide)

/-- In a list whose entries but the last all satisfy `ok`, an entry that does not is the
last one. -/
theorem last_of_not_ok {α : Type} (ok : α → Bool) :
    ∀ (l pre : List α) (a : α) (post : List α), (∀ x ∈ l.dropLast, ok x = true) →
      l = pre ++ a :: post → ok a = false → post = [] := by
  intro l pre a post hall hl ha
  by_contra hne
  have hmem : a ∈ l.dropLast := by
    rw [hl]
    obtain ⟨b, post', rfl⟩ := List.exists_cons_of_ne_nil hne
    have e : pre ++ a :: b :: post' = (pre ++ [a]) ++ (b :: post') := by simp
    rw [e, List.dropLast_append_of_ne_nil _ (List.cons_ne_nil _ _)]
    simp
  rw [hall a hmem] at ha
  exact Bool.noConfusion ha

theorem dropLast_concat_all {α : Type} (ok : α → Bool) (l : List α) (a : α)
    (h : ∀ x ∈ l, ok x = true) : ∀ x ∈ (l ++ [a]).dropLast, ok x = true := by
  rw [List.dropLast_concat]; exact h

theorem all_of_concat {α : Type} (ok : α → Bool) (l : List α) (a : α)
    (h : ∀ x ∈ l, ok x = true) (ha : ok a = true) : ∀ x ∈ l ++ [a], ok x = true := by
  intro x hx
  rcases List.mem_append.mp hx with hx | hx
  · exact h x hx
  · rw [List.mem_singleton.mp hx]; exact ha

/-- The loop of the client's `sendFile`: as long as every send so far has succeeded,
the record it leaves holds a failed send at most at its end, and none when the function
goes on after the loop. -/
theorem sendFileLoop_ok (net : Nat → Bool) (file_size : Nat) :
    ∀ (fuel : Nat) (file : List Nat) (bytes_sent : Nat) (chunk_count : Int)
      (log : List Attempt), (∀ x ∈ log, x.2 = true) →
      ((sendFileLoop net file_size fuel file bytes_sent chunk_count log).1 = true →
        ∀ x ∈ (sendFileLoop net file_size fuel file bytes_sent chunk_count log).2.2,
          x.2 = true) ∧
      ∀ x ∈ (sendFileLoop net file_size fuel file bytes_sent chunk_count log).2.2.dropLast,
        x.2 = true
  | 0, _, _, _, log, h => by
    simp only [sendFileLoop]
    exact ⟨fun _ => h, fun x hx => h x (List.dropLast_subset _ hx)⟩
  | fuel + 1, file, bytes_sent, chunk_count, log, h => by
    have hstay : (∀ x ∈ log, x.2 = true) ∧ ∀ x ∈ log.dropLast, x.2 = true :=
      ⟨h, fun x hx => h x (List.dropLast_subset _ hx)⟩
    rw [sendFileLoop]
    split
    · simp only
      split
      · exact ⟨fun _ => hstay.1, hstay.2⟩
      · cases hok : net log.length
        · simp only [Bool.false_eq_true, if_false, false_implies, true_and]
          exact dropLast_concat_all (fun x : Attempt => x.2) log _ h
        · simp only [if_true]
          exact sendFileLoop_ok net file_size fuel _ _ _ _
            (all_of_concat (fun x : Attempt => x.2) log _ h rfl)
    · exact ⟨fun _ => hstay.1, hstay.2⟩

theorem sendFile_ok (net : Nat → Bool) (username file_path : Str) (file : List Nat) :
    ∀ x ∈ (sendFile net username file_path file).dropLast, x.2 = true := by
  unfold sendFile
  cases h0 : net 0
  · simp
  · simp only [if_true]
    have hl := sendFileLoop_ok net file.length (file.length + 1) file 0 0
      [(⟨MessageType.FILE, [], fileMetadata (file_path.drop (afterLastSlash file_path))
        file.length username⟩, true)] (by simp)
    split
    · rename_i hgo
      rw [List.dropLast_concat]
      exact hl.1 hgo
    · exact hl.2

/-- What a call of `sendToUser` adds to the record of sends: one call with the outcome
it returns, or nothing (and `false`) when no registered user has the name. -/
theorem sendToUser_sent (net : Nat → Bool) (st : Server) (u t d : Str) (m : StrMap) :
    (sendToUser net st u t d m).2.clients = st.clients ∧
    (((sendToUser net st u t d m).1 = false ∧ (sendToUser net st u t d m).2.sent = st.sent) ∨
      ∃ s, (sendToUser net st u t d m).2.sent
        = st.sent ++ [⟨s, t, d, m, (sendToUser net st u t d m).1⟩]) := by
  unfold sendToUser
  cases st.clients.find? (fun pair => pair.2.username = u) with
  | none => exact ⟨rfl, Or.inl ⟨rfl, rfl⟩⟩
  | some pair => exact ⟨rfl, Or.inr ⟨pair.1, rfl⟩⟩

/-- The loop of `sendFileToUser`: as long as every send so far has succeeded, the record
it leaves holds a failed send at most at its end, and none when the function goes on
after the loop. -/
theorem sendFileToUserLoop_ok (net : Nat → Bool) (u : Str) (file_size : Nat)
    (base : List Sent) :
    ∀ (fuel : Nat) (file : List Nat) (bytes_sent : Nat) (chunk_count : Int) (st : Server)
      (l : List Sent), st.sent = base ++ l → (∀ x ∈ l, x.ok = true) →
      ∃ l', (sendFileToUserLoop net u file_size fuel file bytes_sent chunk_count st).2.2.sent
          = base ++ l' ∧
        ((sendFileToUserLoop net u file_size fuel file bytes_sent chunk_count st).1 = true →
          ∀ x ∈ l', x.ok = true) ∧
        ∀ x ∈ l'.dropLast, x.ok = true
  | 0, _, _, _, st, l, hs, h => by
    simp only [sendFileToUserLoop]
    exact ⟨l, hs, fun _ => h, fun x hx => h x (List.dropLast_subset _ hx)⟩
  | fuel + 1, file, bytes_sent, chunk_count, st, l, hs, h => by
    have hstay : ∃ l', st.sent = base ++ l' ∧ ((true = true) → ∀ x ∈ l', x.ok = true) ∧
        ∀ x ∈ l'.dropLast, x.ok = true :=
      ⟨l, hs, fun _ => h, fun x hx => h x (List.dropLast_subset _ hx)⟩
    rw [sendFileToUserLoop]
    split
    · simp only
      split
      · exact hstay
      · obtain ⟨_, hsent⟩ := sendToUser_sent net st u MessageType.FILE_DATA
          (hexEncode (file.take 8192)) (chunkMetadata bytes_sent file_size chunk_count)
        cases hok : (sendToUser net st u MessageType.FILE_DATA (hexEncode (file.take 8192))
            (chunkMetadata bytes_sent file_size chunk_count)).1
        · simp only [Bool.false_eq_true, if_false, false_implies, true_and]
          rcases hsent with ⟨_, hsame⟩ | ⟨s, hadd⟩
          · exact ⟨l, by rw [hsame, hs], fun x hx => h x (List.dropLast_subset _ hx)⟩
          · refine ⟨l ++ [⟨s, _, _, _, _⟩], by rw [hadd, hs, List.append_assoc], ?_⟩
            exact dropLast_concat_all (fun x : Sent => x.ok) l _ h
        · simp only [if_true]
          rcases hsent with ⟨hf, _⟩ | ⟨s, hadd⟩
          · rw [hok] at hf; exact Bool.noConfusion hf
          · rw [hok] at hadd
            exact sendFileToUserLoop_ok net u file_size base fuel _ _ _ _
              (l ++ [⟨s, _, _, _, true⟩]) (by rw [hadd, hs, List.append_assoc])
              (all_of_concat (fun x : Sent => x.ok) l _ h rfl)
    · exact hstay

theorem sendFileToUser_ok (net : Nat → Bool) (st : Server) (u file_path : Str)
    (file : List Nat) :
    ∀ x ∈ (newSends st (sendFileToUser net st u file_path file)).dropLast, x.ok = true := by
  have key : ∃ l', (sendFileToUser net st u file_path file).sent = st.sent ++ l' ∧
      ∀ x ∈ l'.dropLast, x.ok = true := by
    unfold sendFileToUser
    simp only
    obtain ⟨_, h0⟩ := sendToUser_sent net st u MessageType.FILE []
      (fileMetadata (file_path.drop (afterLastSlash file_path)) file.length (lit "服务器"))
    cases hok0 : (sendToUser net st u MessageType.FILE []
        (fileMetadata (file_path.drop (afterLastSlash file_path)) file.length
          (lit "服务器"))).1
    · simp only [Bool.false_eq_true, if_false]
      rcases h0 with ⟨_, hsame⟩ | ⟨s, hadd⟩
      · exact ⟨[], by rw [hsame, List.append_nil], by simp⟩
      · exact ⟨[⟨s, _, _, _, _⟩], hadd, by simp⟩
    · simp only [if_true]
      rcases h0 with ⟨hf, _⟩ | ⟨s, hadd⟩
      · rw [hok0] at hf; exact Bool.noConfusion hf
      · rw [hok0] at hadd
        obtain ⟨l', hl', hgo, hdrop⟩ := sendFileToUserLoop_ok net u file.length st.sent
          (file.length + 1) file 0 0 _ [⟨s, _, _, _, true⟩] hadd (by simp)
        split
        · rename_i hcont
          obtain ⟨_, h2⟩ := sendToUser_sent net
            (sendFileToUserLoop net u file.length (file.length + 1) file 0 0
              (sendToUser net st u MessageType.FILE []
                (fileMetadata (file_path.drop (afterLastSlash file_path)) file.length
                  (lit "服务器"))).2).2.2
            u MessageType.FILE_COMPLETE []
            (completeMetadata (file_path.drop (afterLastSlash file_path)) file.length
              (sendFileToUserLoop net u file.length (file.length + 1) file 0 0
                (sendToUser net st u MessageType.FILE []
                  (fileMetadata (file_path.drop (afterLastSlash file_path)) file.length
                    (lit "服务器"))).2).2.1)
          rcases h2 with ⟨_, hsame⟩ | ⟨s2, hadd2⟩
          · exact ⟨l', by rw [hsame, hl'], hdrop⟩
          · refine ⟨l' ++ [⟨s2, _, _, _, _⟩], by rw [hadd2, hl', List.append_assoc], ?_⟩
            exact dropLast_concat_all (fun x : Sent => x.ok) l' _ (hgo hcont)
        · exact ⟨l', hl', hdrop⟩
  obtain ⟨l', hl', hdrop⟩ := key
  have : newSends st (sendFileToUser net st u file_path file) = l' := by
    simp only [newSends, hl', List.drop_left]
  rw [this]
  exact hdrop

/-- C22: in the `sendMessage` calls the client's `sendFile` makes, and in those the
server's `sendFileToUser` makes, a call that fails is the last one: whichever of the
`FILE` and `FILE_DATA` envelopes is the first not to be written, no `FILE_DATA` and no
`FILE_COMPLETE` envelope is sent after it. -/
theorem failed_write_ends_file_send :
    (∀ (net : Nat → Bool) (username file_path : Str) (file : List Nat)
        (before : List Attempt) (a : Attempt) (after : List Attempt),
      sendFile net username file_path file = before ++ a :: after → a.2 = false →
      after = []) ∧
    (∀ (net : Nat → Bool) (st : Server) (username file_path : Str) (file : List Nat)
        (before : List Sent) (x : Sent) (after : List Sent),
      newSends st (sendFileToUser net st username file_path file) = before ++ x :: after →
      x.ok = false → after = []) := by
  constructor
  · intro net username file_path file before a after hl ha
    exact last_of_not_ok (fun x : Attempt => x.2) _ before a after
      (sendFile_ok net username file_path file) hl ha
  · intro net st username file_path file before x after hl hx
    exact last_of_not_ok (fun x : Sent => x.ok) _ before x after
      (sendFileToUser_ok net st username file_path file) hl hx

/-- Witness of `failed_write_ends_file_send`: for a file of three bytes whose only chunk
is not written, the record of the client and that of the server end with the chunk. -/
theorem failed_write_ends_file_send_witness :
    (sendFile (fun n => decide (n ≠ 1)) (lit "bob") (lit "/tmp/a.bin") [1, 2, 3]
        = [(⟨MessageType.FILE, [], fileMetadata (lit "a.bin") 3 (lit "bob")⟩, true)]
          ++ (⟨MessageType.FILE_DATA, lit "010203", chunkMetadata 0 3 0⟩, false) :: [] ∧
      ([] : List Attempt) = []) ∧
    (newSends sampleServer (sendFileToUser (fun n => decide (n ≠ 1)) sampleServer
          (lit "bob") (lit "/tmp/a.bin") [1, 2, 3])
        = [⟨5, MessageType.FILE, [], fileMetadata (lit "a.bin") 3 (lit "服务器"), true⟩]
          ++ ⟨5, MessageType.FILE_DATA, lit "010203", chunkMetadata 0 3 0, false⟩ :: [] ∧
      ([] : List Sent) = []) :=
  ⟨⟨by decide, failed_write_ends_file_send.1 (fun n => decide (n ≠ 1)) (lit "bob")
      (lit "/tmp/a.bin") [1, 2, 3]
      [(⟨MessageType.FILE, [], fileMetadata (lit "a.bin") 3 (lit "bob")⟩, true)]
      (⟨MessageType.FILE_DATA, lit "010203", chunkMetadata 0 3 0⟩, false) []
      (by decide) rfl⟩,
   ⟨by decide, failed_write_ends_file_send.2 (fun n => decide (n ≠ 1)) sampleServer (lit "bob")
      (lit "/tmp/a.bin") [1, 2, 3]
      [⟨5, MessageType.FILE, [], fileMetadata (lit "a.bin") 3 (lit "服务器"), true⟩]
      ⟨5, MessageType.FILE_DATA, lit "010203", chunkMetadata 0 3 0, false⟩ []
      (by decide) rfl⟩⟩

/-! ## `sendMessage` and partial writes -/

/-- A loop of the server's `sendMessage` that is left at its end has put the whole
buffer on the socket. -/
theorem sendLoop_true (sock : Nat → SendRet) :
    ∀ (fuel : Nat) (buf : Str) (call : Nat) (wire : Str) (c : Nat) (w : Str),
      sendLoop sock fuel buf call wire = some (true, c, w) → w = wire ++ buf
  | 0, buf, call, wire, c, w, h => by
    simp only [sendLoop] at h
    split at h
    · rename_i hb
      simp only [Option.some.injEq, Prod.mk.injEq, true_and] at h
      rw [← h.2, hb, List.append_nil]
    · simp at h
  | fuel + 1, buf, call, wire, c, w, h => by
    rw [sendLoop] at h
    split at h
    · cases hs : sock call with
      | took more =>
        simp only [hs] at h
        have ih := sendLoop_true sock fuel _ _ _ c w h
        rw [ih, List.append_assoc, List.take_append_drop]
      | again =>
        simp only [hs] at h
        exact sendLoop_true sock fuel _ _ _ c w h
      | failed => simp [hs] at h
    · rename_i hb
      have hnil : buf = [] := List.length_eq_zero.mp (by omega)
      simp only [Option.some.injEq, Prod.mk.injEq, true_and] at h
      rw [← h.2, hnil, List.append_nil]

/-- On a socket whose `send` calls all take something, the loop goes on after a call that
took only a part and is left at its end, within as many calls as there are bytes. -/
theorem sendLoop_partial (sock : Nat → SendRet) (htakes : ∀ n, ∃ more, sock n = .took more) :
    ∀ (fuel : Nat) (buf : Str) (call : Nat) (wire : Str), buf.length ≤ fuel →
      ∃ c, sendLoop sock fuel buf call wire = some (true, c, wire ++ buf) ∧
        c ≤ call + buf.length
  | 0, buf, call, wire, h => by
    have hnil : buf = [] := List.length_eq_zero.mp (by omega)
    subst hnil
    exact ⟨call, by simp [sendLoop], by simp⟩
  | fuel + 1, buf, call, wire, h => by
    rw [sendLoop]
    split
    · rename_i hpos
      obtain ⟨more, hs⟩ := htakes call
      simp only [hs]
      have hlen : (buf.drop (more + 1)).length + 1 ≤ buf.length := by
        rw [List.length_drop]; omega
      obtain ⟨c, hc, hle⟩ := sendLoop_partial sock htakes fuel (buf.drop (more + 1))
        (call + 1) (wire ++ buf.take (more + 1)) (by omega)
      refine ⟨c, ?_, by omega⟩
      rw [hc, List.append_assoc, List.take_append_drop]
    · rename_i hb
      have hnil : buf = [] := List.length_eq_zero.mp (by omega)
      subst hnil
      exact ⟨call, by simp, by simp⟩

/-- The server's `sendMessage` returns `true` only when the socket has taken the four
bytes of the length and the whole text. -/
theorem serverSendMessage_true (sock : Nat → SendRet) (fuel : Nat) (type data : Str)
    (metadata : StrMap) (c : Nat) (w : Str)
    (h : ChatServer.sendMessage sock fuel type data metadata = some (true, c, w)) :
    w = frameBytes (createMessage type data metadata) := by
  simp only [ChatServer.sendMessage] at h
  cases h1 : sendLoop sock fuel (be32 ((createMessage type data metadata).length % 2 ^ 32))
      0 [] with
  | none => rw [h1] at h; exact absurd h (by simp)
  | some r =>
    obtain ⟨ok, c1, w1⟩ := r
    rw [h1] at h
    cases ok with
    | false => exact absurd h (by simp)
    | true =>
      have e1 := sendLoop_true sock fuel _ _ _ c1 w1 h1
      have e2 := sendLoop_true sock fuel _ _ _ c w h
      rw [e2, e1, List.nil_append, frameBytes]

/-- On a socket whose `send` calls all take something, however little, the server's
`sendMessage` returns `true` with the whole frame written. -/
theorem serverSendMessage_partial (sock : Nat → SendRet)
    (htakes : ∀ n, ∃ more, sock n = .took more) (fuel : Nat) (type data : Str)
    (metadata : StrMap) (hfuel : (createMessage type data metadata).length + 4 ≤ fuel) :
    ∃ c, ChatServer.sendMessage sock fuel type data metadata
      = some (true, c, frameBytes (createMessage type data metadata)) := by
  simp only [ChatServer.sendMessage]
  obtain ⟨c1, h1, _⟩ := sendLoop_partial sock htakes fuel
    (be32 ((createMessage type data metadata).length % 2 ^ 32)) 0 []
    (by rw [be32_length]; omega)
  obtain ⟨c, h2, _⟩ := sendLoop_partial sock htakes fuel (createMessage type data metadata)
    c1 ([] ++ be32 ((createMessage type data metadata).length % 2 ^ 32)) (by omega)
  refine ⟨c, ?_⟩
  rw [h1]
  simp only
  rw [h2, List.nil_append, frameBytes]

/-- C23, the code at the failing input: on a socket that takes five bytes per `send`
call the client's `sendMessage` gives up. The four bytes of the length go out, the
second `send` takes five of the 41 bytes of the text, and `sendMessage` returns `false`
with the frame cut short on the wire. The server's `sendMessage` on the same socket goes
on with the rest and returns `true` once the whole frame is written. -/
theorem client_sendMessage_stops_at_partial_write :
    (createMessage MessageType.TEXT (lit "hi") []).length = 41 ∧
    ChatClient.sendMessage slowSocket MessageType.TEXT (lit "hi") []
      = (false, 2, (frameBytes (createMessage MessageType.TEXT (lit "hi") [])).take 9) ∧
    ChatServer.sendMessage slowSocket 45 MessageType.TEXT (lit "hi") []
      = some (true, 10, frameBytes (createMessage MessageType.TEXT (lit "hi") [])) := by
  refine ⟨?_, ?_, ?_⟩ <;> decide

/-! ## The envelope text -/

theorem metaPairs_false (m : StrMap) :
    metaPairs false m = if m = [] then [] else ',' :: commaSeparated (m.map pairText) := by
  induction m with
  | nil => rfl
  | cons p rest ih =>
    obtain ⟨k, v⟩ := p
    cases rest with
    | nil => simp [metaPairs, commaSeparated, pairText]
    | cons q rest' =>
      rw [metaPairs, ih]
      simp [commaSeparated, pairText]

theorem metaPairs_true (m : StrMap) :
    metaPairs true m = commaSeparated (m.map pairText) := by
  cases m with
  | nil => rfl
  | cons p rest =>
    obtain ⟨k, v⟩ := p
    rw [metaPairs, metaPairs_false]
    cases rest with
    | nil => simp [commaSeparated, pairText]
    | cons q rest' => simp [commaSeparated, pairText]

theorem createMessage_eq_envelopeText (type data : Str) (metadata : StrMap) :
    createMessage type data metadata = envelopeText type data metadata := by
  have h1 : lit "\x7b\"type\":\"" = '\x7b' :: lit "\"type\":\"" := by decide
  have h2 : lit "\",\"data\":\"" = lit "\"," ++ lit "\"data\":\"" := by decide
  have h3 : lit "\",\"metadata\":\x7b" = lit "\"," ++ lit "\"metadata\":\x7b" := by decide
  simp only [createMessage, envelopeText, metaPairs_true, h1, h2, h3, List.append_assoc,
    List.cons_append, List.nil_append, List.singleton_append]

/-- C24: for every type, data and metadata map `createMessage` returns exactly
`{"type":"T","data":"D","metadata":{P}}`, where `T` and `D` are the escaped type and
data and `P` holds the pairs `"k":"v"` of the map, keys and values escaped, in the order
of the map (ascending keys), with a comma between two pairs. The metadata object is
always there, and it is `{}` when the map is empty. -/
theorem createMessage_wire_form (type data : Str) (metadata : StrMap) :
    createMessage type data metadata
      = lit "\x7b\"type\":\"" ++ escape type ++ lit "\",\"data\":\"" ++ escape data
        ++ lit "\",\"metadata\":\x7b" ++ commaSeparated (metadata.map pairText)
        ++ lit "\x7d\x7d" ∧
    (∀ p ∈ metadata, pairText p = [dq] ++ escape p.1 ++ [dq, ':', dq] ++ escape p.2 ++ [dq]) ∧
    (StrMapOk metadata → (metadata.map Prod.fst).Pairwise fun a b => strLt a b = true) ∧
    createMessage type data []
      = lit "\x7b\"type\":\"" ++ escape type ++ lit "\",\"data\":\"" ++ escape data
        ++ lit "\",\"metadata\":\x7b\x7d\x7d" ∧
    lit "\"metadata\":\x7b" <:+: createMessage type data metadata := by
  have h := createMessage_eq_envelopeText type data metadata
  refine ⟨h, fun _ _ => rfl, ?_, ?_, ?_⟩
  · intro hok
    exact List.pairwise_map.mpr hok
  · have h4 : lit "\",\"metadata\":\x7b\x7d\x7d" = lit "\",\"metadata\":\x7b" ++ lit "\x7d\x7d" := by
      decide
    rw [createMessage_eq_envelopeText, envelopeText, h4]
    simp [commaSeparated]
  · have h3 : lit "\",\"metadata\":\x7b" = lit "\"," ++ lit "\"metadata\":\x7b" := by decide
    rw [h, envelopeText, h3]
    exact ⟨lit "\x7b\"type\":\"" ++ escape type ++ lit "\",\"data\":\"" ++ escape data ++ lit "\",",
      commaSeparated (metadata.map pairText) ++ lit "\x7d\x7d", by simp⟩

/-! ## Escaping, and the round trip without restriction on the data -/

theorem unescape_cons_of_ne (c : Char) (s : Str) (hc : c ≠ bslash) :
    unescape (c :: s) = c :: unescape s := by
  cases s with
  | nil => rfl
  | cons d rest => simp [unescape, hc]

theorem unescape_pair (d : Char) (s : Str) :
    unescape (bslash :: d :: s) =
      if d = dq then dq :: unescape s
      else if d = bslash then bslash :: unescape s
      else if d = 'n' then '\n' :: unescape s
      else if d = 'r' then '\r' :: unescape s
      else if d = 't' then '\t' :: unescape s
      else bslash :: unescape (d :: s) := by
  simp [unescape]

/-- Unescaping undoes escaping: every backslash `escape` writes starts one of its five
two-character codes, and `unescape` reads them back from the left. -/
theorem unescape_escape_id : ∀ s : Str, unescape (escape s) = s
  | [] => rfl
  | c :: cs => by
    have ih := unescape_escape_id cs
    have h1 : bslash ≠ dq := by decide
    have h2 : ('n' : Char) ≠ dq ∧ ('n' : Char) ≠ bslash := by decide
    have h3 : ('r' : Char) ≠ dq ∧ ('r' : Char) ≠ bslash ∧ ('r' : Char) ≠ 'n' := by decide
    have h4 : ('t' : Char) ≠ dq ∧ ('t' : Char) ≠ bslash ∧ ('t' : Char) ≠ 'n' ∧
        ('t' : Char) ≠ 'r' := by decide
    rw [escape]
    by_cases c1 : c = dq
    · simp only [c1, if_true, List.cons_append, List.nil_append, unescape_pair, ih]
    · by_cases c2 : c = bslash
      · simp only [c2, h1, if_false, if_true, List.cons_append, List.nil_append,
          unescape_pair, ih]
      · by_cases c3 : c = '\n'
        · subst c3
          simp only [c1, c2, if_false, if_true, List.cons_append, List.nil_append,
            unescape_pair, h2.1, h2.2, ih]
        · by_cases c4 : c = '\r'
          · subst c4
            simp only [c1, c2, c3, if_false, if_true, List.cons_append, List.nil_append,
              unescape_pair, h3.1, h3.2.1, h3.2.2, ih]
          · by_cases c5 : c = '\t'
            · subst c5
              simp only [c1, c2, c3, c4, if_false, if_true, List.cons_append,
                List.nil_append, unescape_pair, h4.1, h4.2.1, h4.2.2.1, h4.2.2.2, ih]
            · simp only [c1, c2, c3, c4, c5, if_false, List.cons_append, List.nil_append]
              rw [unescape_cons_of_ne c _ c2, ih]

/-- C27: `unescape (escape s) = s` for every string `s`; hence two strings with the same
escaped text are the same string. -/
theorem unescape_after_escape (s : Str) :
    unescape (escape s) = s ∧ ∀ s' : Str, escape s' = escape s → s' = s := by
  refine ⟨unescape_escape_id s, fun s' h => ?_⟩
  have h' := congrArg unescape h
  rwa [unescape_escape_id, unescape_escape_id] at h'

/-! ### Searching through escaped text -/

theorem guarded_escape : ∀ (s : Str) (prev : Char), guarded prev (escape s) = true
  | [], _ => rfl
  | c :: cs, prev => by
    have ih := guarded_escape cs
    rw [escape]
    have hbd : bslash ≠ dq := by decide
    by_cases c1 : c = dq
    · simp [c1, guarded, ih, hbd]
    · by_cases c2 : c = bslash
      · simp [c2, hbd, guarded, ih]
      · by_cases c3 : c = '\n'
        · have h : bslash ≠ dq ∧ ('n' : Char) ≠ dq := by decide
          simp [c1, c2, c3, guarded, ih, h.1, h.2]
        · by_cases c4 : c = '\r'
          · have h : bslash ≠ dq ∧ ('r' : Char) ≠ dq := by decide
            simp [c1, c2, c3, c4, guarded, ih, h.1, h.2]
          · by_cases c5 : c = '\t'
            · have h : bslash ≠ dq ∧ ('t' : Char) ≠ dq := by decide
              simp [c1, c2, c3, c4, c5, guarded, ih, h.1, h.2]
            · simp [c1, c2, c3, c4, c5, guarded, ih]

/-- A pattern that goes on, after letters free of quote and backslash, with a double
quote does not start a guarded text that a double quote and something else than the
rest of the pattern follow. -/
theorem isPrefixOf_guarded (r tl : Str) (hr : r.isPrefixOf tl = false) :
    ∀ (w E : Str) (prev : Char), dq ∉ w → bslash ∉ w → prev ≠ bslash →
      guarded prev E = true → (w ++ dq :: r).isPrefixOf (E ++ dq :: tl) = false
  | [], [], _, _, _, _, _ => by simp [List.isPrefixOf, hr]
  | [], c :: E, prev, _, _, hp, hg => by
    simp only [guarded, Bool.and_eq_true, Bool.or_eq_true, bne_iff_ne, beq_iff_eq] at hg
    have hc : c ≠ dq := by
      rcases hg.1 with h | h
      · exact h
      · exact absurd h hp
    simp [List.isPrefixOf, Ne.symm hc]
  | y :: w, [], _, hq, _, _, _ => by
    have hy : y ≠ dq := fun e => hq (e ▸ List.mem_cons_self _ _)
    simp [List.isPrefixOf, hy]
  | y :: w, c :: E, prev, hq, hb, hp, hg => by
    simp only [guarded, Bool.and_eq_true] at hg
    simp only [List.cons_append, List.isPrefixOf, Bool.and_eq_false_imp, beq_iff_eq]
    intro e
    subst e
    exact isPrefixOf_guarded r tl hr w E y (fun e => hq (List.mem_cons_of_mem _ e))
      (fun e => hb (List.mem_cons_of_mem _ e))
      (fun e => hb (e ▸ List.mem_cons_self _ _)) hg.2

/-- Such a pattern, itself starting with a double quote, is not found inside a guarded
text: the search goes on at the double quote after the text. -/
theorem findAux_skip_guarded (w r tl : Str) (hq : dq ∉ w) (hb : bslash ∉ w)
    (hr : r.isPrefixOf tl = false) :
    ∀ (E : Str) (prev : Char) (i : Nat), guarded prev E = true →
      findAux (dq :: (w ++ dq :: r)) (E ++ dq :: tl) i
        = findAux (dq :: (w ++ dq :: r)) (dq :: tl) (i + E.length)
  | [], _, i, _ => by simp
  | c :: E, prev, i, hg => by
    simp only [guarded, Bool.and_eq_true] at hg
    have hp : (dq :: (w ++ dq :: r)).isPrefixOf (c :: (E ++ dq :: tl)) = false := by
      simp only [List.isPrefixOf, Bool.and_eq_false_imp, beq_iff_eq]
      intro e
      subst e
      exact isPrefixOf_guarded r tl hr w E dq hq hb (by decide) hg.2
    rw [List.cons_append, findAux_skip_one _ _ _ _ hp,
      findAux_skip_guarded w r tl hq hb hr E c (i + 1) hg.2]
    simp only [List.length_cons]
    congr 1
    omega

section shapeG

variable (T D P : Str)

theorem shapeG_find_data (hT : guarded dq T = true) :
    find (jsonHead ++ (T ++ (jsonMid1 ++ (D ++ (jsonMid2 ++ (P ++ closers))))))
      (lit "\"data\":\"") 0 = some (11 + T.length) := by
  have h3 : lit "\"data\":\"" = [dq, 'd', 'a', 't', 'a', dq, ':', dq] := by decide
  rw [find_zero, h3]
  have e : jsonHead ++ (T ++ (jsonMid1 ++ (D ++ (jsonMid2 ++ (P ++ closers)))))
      = ['\x7b', dq, 't', 'y', 'p', 'e', dq, ':'] ++ (dq :: (T ++ dq :: (',' ::
          ([dq, 'd', 'a', 't', 'a', dq, ':', dq] ++ (D ++ (jsonMid2 ++ (P ++ closers))))))) := by
    simp [jsonHead, jsonMid1]
  have hr : ([':', dq] : Str).isPrefixOf (',' ::
      ([dq, 'd', 'a', 't', 'a', dq, ':', dq] ++ (D ++ (jsonMid2 ++ (P ++ closers))))) = false := by
    simp [List.isPrefixOf]
  have hm : ([dq, 'd', 'a', 't', 'a', dq, ':', dq] : Str).isPrefixOf
      (dq :: (T ++ dq :: (',' ::
          ([dq, 'd', 'a', 't', 'a', dq, ':', dq] ++ (D ++ (jsonMid2 ++ (P ++ closers)))))))
      = false := by
    have := isPrefixOf_guarded [':', dq] _ hr ['d', 'a', 't', 'a'] T dq (by decide) (by decide)
      (by decide) hT
    simpa [List.isPrefixOf] using this
  have hskip := findAux_skip_guarded ['d', 'a', 't', 'a'] [':', dq] _ (by decide) (by decide)
    hr T dq (0 + 8 + 1) hT
  simp only [List.cons_append, List.nil_append] at hskip
  have hskip2 := findAux_skip_clashAll [dq, 'd', 'a', 't', 'a', dq, ':', dq] [dq, ',']
    ([dq, 'd', 'a', 't', 'a', dq, ':', dq] ++ (D ++ (jsonMid2 ++ (P ++ closers))))
    (0 + 8 + 1 + T.length) (by decide)
  simp only [List.cons_append, List.nil_append] at hskip2
  rw [e, findAux_skip_clashAll _ _ _ _ (by decide), findAux_skip_one _ _ _ _ hm]
  simp only [List.cons_append, List.nil_append, List.length_cons, List.length_nil] at hskip hskip2 ⊢
  rw [hskip, hskip2, findAux_hit _ _ _ (by simp [List.isPrefixOf])]
  congr 1
  omega

theorem shapeG_find_data_end (hD : guarded dq D = true) :
    find (jsonHead ++ (T ++ (jsonMid1 ++ (D ++ (jsonMid2 ++ (P ++ closers))))))
      (lit "\",\"metadata\"") (19 + T.length) = some (19 + T.length + D.length) := by
  have h : lit "\",\"metadata\""
      = [dq, ',', dq, 'm', 'e', 't', 'a', 'd', 'a', 't', 'a', dq] := by decide
  have e : jsonHead ++ (T ++ (jsonMid1 ++ (D ++ (jsonMid2 ++ (P ++ closers)))))
      = (jsonHead ++ (T ++ jsonMid1)) ++ (D ++ dq ::
          ([',', dq, 'm', 'e', 't', 'a', 'd', 'a', 't', 'a', dq, ':', '\x7b'] ++
            (P ++ closers))) := by
    simp [jsonMid2]
  have hr : (['m', 'e', 't', 'a', 'd', 'a', 't', 'a', dq] : Str).isPrefixOf
      ([',', dq, 'm', 'e', 't', 'a', 'd', 'a', 't', 'a', dq, ':', '\x7b'] ++ (P ++ closers))
      = false := by
    simp [List.isPrefixOf]
  have hskip := findAux_skip_guarded [','] ['m', 'e', 't', 'a', 'd', 'a', 't', 'a', dq] _
    (by decide) (by decide) hr D dq (19 + T.length) hD
  simp only [List.cons_append, List.nil_append] at hskip
  rw [h, e, find_append_at _ _ _ _ (by simp [jsonHead, jsonMid1]; omega)]
  simp only [List.cons_append, List.nil_append] at hskip ⊢
  rw [hskip, findAux_hit _ _ _ (by simp [List.isPrefixOf])]

theorem shapeG_find_meta (hT : guarded dq T = true) (hD : guarded dq D = true) :
    find (jsonHead ++ (T ++ (jsonMid1 ++ (D ++ (jsonMid2 ++ (P ++ closers))))))
      (lit "\"metadata\":\x7b") 0 = some (21 + T.length + D.length) := by
  have h4 : lit "\"metadata\":\x7b"
      = [dq, 'm', 'e', 't', 'a', 'd', 'a', 't', 'a', dq, ':', '\x7b'] := by decide
  rw [find_zero, h4]
  have e : jsonHead ++ (T ++ (jsonMid1 ++ (D ++ (jsonMid2 ++ (P ++ closers)))))
      = ['\x7b', dq, 't', 'y', 'p', 'e', dq, ':'] ++ (dq :: (T ++ dq :: (',' ::
          ([dq, 'd', 'a', 't', 'a', dq, ':'] ++ (dq :: (D ++ dq :: (',' ::
            ([dq, 'm', 'e', 't', 'a', 'd', 'a', 't', 'a', dq, ':', '\x7b'] ++
              (P ++ closers))))))))) := by
    simp [jsonHead, jsonMid1, jsonMid2]
  have hr2 : ([':', '\x7b'] : Str).isPrefixOf (',' ::
      ([dq, 'm', 'e', 't', 'a', 'd', 'a', 't', 'a', dq, ':', '\x7b'] ++ (P ++ closers)))
      = false := by
    simp [List.isPrefixOf]
  have hr1 : ([':', '\x7b'] : Str).isPrefixOf (',' ::
      ([dq, 'd', 'a', 't', 'a', dq, ':'] ++ (dq :: (D ++ dq :: (',' ::
        ([dq, 'm', 'e', 't', 'a', 'd', 'a', 't', 'a', dq, ':', '\x7b'] ++
          (P ++ closers))))))) = false := by
    simp [List.isPrefixOf]
  have hm1 : ([dq, 'm', 'e', 't', 'a', 'd', 'a', 't', 'a', dq, ':', '\x7b'] : Str).isPrefixOf
      (dq :: (T ++ dq :: (',' ::
          ([dq, 'd', 'a', 't', 'a', dq, ':'] ++ (dq :: (D ++ dq :: (',' ::
            ([dq, 'm', 'e', 't', 'a', 'd', 'a', 't', 'a', dq, ':', '\x7b'] ++
              (P ++ closers)))))))))
      = false := by
    have := isPrefixOf_guarded [':', '\x7b'] _ hr1 ['m', 'e', 't', 'a', 'd', 'a', 't', 'a'] T dq
      (by decide) (by decide) (by decide) hT
    simpa [List.isPrefixOf] using this
  have hm2 : ([dq, 'm', 'e', 't', 'a', 'd', 'a', 't', 'a', dq, ':', '\x7b'] : Str).isPrefixOf
      (dq :: (D ++ dq :: (',' ::
            ([dq, 'm', 'e', 't', 'a', 'd', 'a', 't', 'a', dq, ':', '\x7b'] ++
              (P ++ closers)))))
      = false := by
    have := isPrefixOf_guarded [':', '\x7b'] _ hr2 ['m', 'e', 't', 'a', 'd', 'a', 't', 'a'] D dq
      (by decide) (by decide) (by decide) hD
    simpa [List.isPrefixOf] using this
  have hskipT := findAux_skip_guarded ['m', 'e', 't', 'a', 'd', 'a', 't', 'a'] [':', '\x7b'] _
    (by decide) (by decide) hr1 T dq (0 + 8 + 1) hT
  have hskipMid := findAux_skip_clashAll
    [dq, 'm', 'e', 't', 'a', 'd', 'a', 't', 'a', dq, ':', '\x7b']
    [dq, ',', dq, 'd', 'a', 't', 'a', dq, ':']
    (dq :: (D ++ dq :: (',' ::
      ([dq, 'm', 'e', 't', 'a', 'd', 'a', 't', 'a', dq, ':', '\x7b'] ++ (P ++ closers)))))
    (0 + 8 + 1 + T.length) (by decide)
  have hskipD := findAux_skip_guarded ['m', 'e', 't', 'a', 'd', 'a', 't', 'a'] [':', '\x7b'] _
    (by decide) (by decide) hr2 D dq (0 + 8 + 1 + T.length + 9 + 1) hD
  have hskipEnd := findAux_skip_clashAll
    [dq, 'm', 'e', 't', 'a', 'd', 'a', 't', 'a', dq, ':', '\x7b'] [dq, ',']
    ([dq, 'm', 'e', 't', 'a', 'd', 'a', 't', 'a', dq, ':', '\x7b'] ++ (P ++ closers))
    (0 + 8 + 1 + T.length + 9 + 1 + D.length) (by decide)
  rw [e, findAux_skip_clashAll _ _ _ _ (by decide), findAux_skip_one _ _ _ _ hm1]
  simp only [List.cons_append, List.nil_append, List.length_cons, List.length_nil]
    at hskipT hskipMid hskipD hskipEnd hm2 ⊢
  rw [hskipT, hskipMid, findAux_skip_one _ _ _ _ hm2, hskipD, hskipEnd,
    findAux_hit _ _ _ (by simp [List.isPrefixOf])]
  congr 1
  omega

end shapeG

theorem parseMessage_parts (json : Str) :
    ∃ m, parseMessage json = some ⟨typeRead json, dataRead json, m⟩ := by
  have hT : (match find json [dq] (findPlus8 json (lit "\"type\":\"")) with
      | some typeEnd => (substr json (findPlus8 json (lit "\"type\":\""))
          (typeEnd - findPlus8 json (lit "\"type\":\""))).map unescape
      | none => some []) = some (typeRead json) := by
    unfold typeRead typeMarker
    cases h : find json [dq] (findPlus8 json (lit "\"type\":\"")) with
    | none => rfl
    | some e => simp only [substr_of_find _ _ _ _ _ h, Option.map_some']
  have hD : (match (match find json (lit "\",\"metadata\"")
          (findPlus8 json (lit "\"data\":\"")) with
        | some e => some e
        | none => find json (lit "\"\x7d") (findPlus8 json (lit "\"data\":\""))) with
      | some e => (substr json (findPlus8 json (lit "\"data\":\""))
          (e - findPlus8 json (lit "\"data\":\""))).map unescape
      | none => some []) = some (dataRead json) := by
    unfold dataRead
    cases h1 : find json (lit "\",\"metadata\"") (findPlus8 json (lit "\"data\":\"")) with
    | some e => simp only [substr_of_find _ _ _ _ _ h1, Option.map_some']
    | none =>
      cases h2 : find json (lit "\"\x7d") (findPlus8 json (lit "\"data\":\"")) with
      | some e => simp only [substr_of_find _ _ _ _ _ h2, Option.map_some']
      | none => rfl
  have hM : ∃ m, (match find json (lit "\"metadata\":\x7b") 0 with
      | some ms =>
        match find json (lit "\x7d\x7d") (ms + 12) with
        | some metaEnd =>
          match substr json (ms + 12) (metaEnd - (ms + 12)) with
          | some metaStr => parsePairs metaStr.length metaStr 0 []
          | none => none
        | none => some []
      | none => some []) = some m := by
    cases h1 : find json (lit "\"metadata\":\x7b") 0 with
    | none => exact ⟨[], rfl⟩
    | some ms =>
      simp only
      cases h2 : find json (lit "\x7d\x7d") (ms + 12) with
      | none => exact ⟨[], rfl⟩
      | some metaEnd =>
        simp only [substr_of_find _ _ _ _ _ h2]
        exact parsePairs_isSome _ _ 0 []
  obtain ⟨m, hM⟩ := hM
  exact ⟨m, assemble_some _ _ _ _ _ _ hT hD hM⟩

theorem escape_no_dq : ∀ s : Str, dq ∉ s → dq ∉ escape s
  | [], _ => by simp [escape]
  | c :: cs, h => by
    have hc : c ≠ dq := fun e => h (e ▸ List.mem_cons_self _ _)
    have ih := escape_no_dq cs (fun e => h (List.mem_cons_of_mem _ e))
    have hb : dq ≠ bslash ∧ dq ≠ 'n' ∧ dq ≠ 'r' ∧ dq ≠ 't' := by decide
    rw [escape]
    intro hm
    rcases List.mem_append.mp hm with hm | hm
    · split_ifs at hm <;>
        simp only [List.mem_cons, List.mem_singleton, List.not_mem_nil, or_false] at hm
      · exact absurd ‹c = dq› hc
      · rcases hm with hm | hm
        · exact hb.1 hm
        · exact hb.1 hm
      · rcases hm with hm | hm
        · exact hb.1 hm
        · exact hb.2.1 hm
      · rcases hm with hm | hm
        · exact hb.1 hm
        · exact hb.2.2.1 hm
      · rcases hm with hm | hm
        · exact hb.1 hm
        · exact hb.2.2.2 hm
      · exact hc hm.symm
    · exact ih hm

theorem hasClosers_cons (c : Char) : ∀ s : Str, hasClosers s = true → hasClosers (c :: s) = true
  | [], h => by simp [hasClosers] at h
  | b :: r, h => by simp [hasClosers, h]

theorem hasClosers_iff : ∀ s : Str, hasClosers s = true ↔ closers <:+: s
  | [] => by
    simp only [hasClosers, Bool.false_eq_true, false_iff]
    intro h
    have := h.length_le
    simp [closers] at this
  | [a] => by
    simp only [hasClosers, Bool.false_eq_true, false_iff]
    intro h
    have := h.length_le
    simp [closers] at this
  | a :: b :: r => by
    have ih := hasClosers_iff (b :: r)
    constructor
    · intro h
      rw [hasClosers, Bool.or_eq_true] at h
      rcases h with h | h
      · simp only [Bool.and_eq_true, beq_iff_eq] at h
        rw [h.1, h.2]
        exact (List.prefix_append closers r).isInfix
      · exact List.infix_cons (ih.mp h)
    · intro h
      rw [hasClosers, Bool.or_eq_true]
      rcases List.infix_cons_iff.mp h with h | h
      · left
        obtain ⟨t, ht⟩ := h
        simp only [closers, List.cons_append, List.nil_append, List.cons.injEq] at ht
        simp [← ht.1, ← ht.2.1]
      · exact Or.inr (ih.mpr h)

theorem escape_head_close : ∀ s : Str, (escape s).head? = some '\x7d' → s.head? = some '\x7d'
  | [], h => by simp [escape] at h
  | c :: cs, h => by
    rw [escape] at h
    have hb : bslash ≠ '\x7d' := by decide
    split_ifs at h <;> simp only [List.cons_append, List.nil_append, List.head?_cons,
      Option.some.injEq] at h
    · exact absurd h hb
    · exact absurd h hb
    · exact absurd h hb
    · exact absurd h hb
    · exact absurd h hb
    · simp [h]

theorem hasClosers_pair (x : Char) (hx : x ≠ '\x7d') (E : Str) :
    hasClosers (bslash :: x :: E) = hasClosers E := by
  have e1 : (bslash == '\x7d') = false := by decide
  have e2 : (x == '\x7d') = false := by simpa using hx
  cases E with
  | nil => simp [hasClosers, e1]
  | cons y E' => simp [hasClosers, e1, e2]

theorem hasClosers_escape : ∀ s : Str, hasClosers (escape s) = true → hasClosers s = true
  | [], h => by simp [escape, hasClosers] at h
  | c :: cs, h => by
    have ih := hasClosers_escape cs
    have hx : dq ≠ '\x7d' ∧ bslash ≠ '\x7d' ∧ ('n' : Char) ≠ '\x7d' ∧ ('r' : Char) ≠ '\x7d' ∧
        ('t' : Char) ≠ '\x7d' := by decide
    rw [escape] at h
    split_ifs at h <;> simp only [List.cons_append, List.nil_append] at h
    · rw [hasClosers_pair _ hx.1] at h; exact hasClosers_cons c cs (ih h)
    · rw [hasClosers_pair _ hx.2.1] at h; exact hasClosers_cons c cs (ih h)
    · rw [hasClosers_pair _ hx.2.2.1] at h; exact hasClosers_cons c cs (ih h)
    · rw [hasClosers_pair _ hx.2.2.2.1] at h; exact hasClosers_cons c cs (ih h)
    · rw [hasClosers_pair _ hx.2.2.2.2] at h; exact hasClosers_cons c cs (ih h)
    · cases hE : escape cs with
      | nil => rw [hE] at h; simp [hasClosers] at h
      | cons y E' =>
        rw [hE, hasClosers, Bool.or_eq_true] at h
        rcases h with h | h
        · simp only [Bool.and_eq_true, beq_iff_eq] at h
          have hhead : cs.head? = some '\x7d' := escape_head_close cs (by rw [hE, h.2]; rfl)
          cases cs with
          | nil => simp at hhead
          | cons b r =>
            simp only [List.head?_cons, Option.some.injEq] at hhead
            simp [hasClosers, h.1, hhead]
        · exact hasClosers_cons c cs (ih (by rw [hE]; exact h))

theorem escape_no_closers (s : Str) (h : ¬ closers <:+: s) : ¬ closers <:+: escape s :=
  fun e => h ((hasClosers_iff s).mp (hasClosers_escape s ((hasClosers_iff _).mpr e)))

/-- What `parseMessage` returns on the text of `createMessage` when the escaped type
holds no double quote and no escaped key or value holds a double quote or `}}`,
whatever the data. -/
theorem parseMessage_createMessage_of_guarded (t d : Str) (m : StrMap)
    (hT : dq ∉ escape t)
    (hq : ∀ p ∈ m, dq ∉ escape p.1 ∧ dq ∉ escape p.2)
    (hc : ∀ p ∈ m, ¬ closers <:+: escape p.1 ∧ ¬ closers <:+: escape p.2) :
    parseMessage (createMessage t d m)
      = some ⟨unescape (escape t), unescape (escape d), storePairs [] m⟩ := by
  have hpairs := parsePairs_metaPairs m (metaPairs true m).length [] true []
    (metaPairs_length_ge m true) hq
  simp only [List.nil_append, List.length_nil] at hpairs
  have h5 : lit "\x7d\x7d" = closers := by decide
  have gT := guarded_escape t dq
  have gD := guarded_escape d dq
  rw [createMessage_shape]
  simp only [parseMessage, findPlus8, h5, shape_find_type, shapeG_find_data _ _ _ gT,
    shapeG_find_meta _ _ _ gT gD]
  rw [show 1 + 8 = 9 from rfl, show 11 + (escape t).length + 8 = 19 + (escape t).length by omega,
    show 21 + (escape t).length + (escape d).length + 12
      = 33 + (escape t).length + (escape d).length by omega]
  simp only [shape_find_type_end _ _ _ hT, shapeG_find_data_end _ _ _ gD,
    shape_find_closers _ _ m true hc, shape_substr_type, shape_substr_data, shape_substr_meta,
    Option.map_some', hpairs]

theorem dataRead_createMessage (t d : Str) (m : StrMap) :
    dataRead (createMessage t d m) = d := by
  have gT := guarded_escape t dq
  have gD := guarded_escape d dq
  have hsub := shape_substr_data (escape t) (escape d) (metaPairs true m)
  have hpos : 19 + (escape t).length ≤ (jsonHead ++ (escape t ++ (jsonMid1 ++ (escape d ++
      (jsonMid2 ++ (metaPairs true m ++ closers)))))).length := by
    simp [jsonHead, jsonMid1]; omega
  simp only [substr, hpos, if_true, Option.some.injEq] at hsub
  rw [createMessage_shape]
  simp only [dataRead, findPlus8, shapeG_find_data _ _ _ gT]
  rw [show 11 + (escape t).length + 8 = 19 + (escape t).length by omega]
  simp only [shapeG_find_data_end _ _ _ gD, hsub, unescape_escape_id]

/-- C28: for every type `t`, every data string `d` and every metadata map `m`, whatever
characters they hold, `parseMessage (createMessage t d m)` returns a message whose data
is `d`: in the escaped data every double quote follows a backslash, so neither
`"data":"` nor `","metadata"` is found before its place. -/
theorem parseMessage_recovers_data (t d : Str) (m : StrMap) :
    ∃ msg, parseMessage (createMessage t d m) = some msg ∧ msg.data = d := by
  obtain ⟨m', h⟩ := parseMessage_parts (createMessage t d m)
  exact ⟨_, h, dataRead_createMessage t d m⟩

/-- C29: for a type without a double quote, any data string, and a metadata map (a
`std::map`, keys ascending) whose keys and values hold no double quote and no `}}`,
`parseMessage (createMessage type data metadata)` returns exactly that type, that data
and that map; backslashes, newlines, carriage returns and tabs may occur anywhere. -/
theorem parseMessage_createMessage_unquoted (type data : Str) (metadata : StrMap)
    (hmap : StrMapOk metadata) (htype : dq ∉ type)
    (hmeta : ∀ p ∈ metadata, dq ∉ p.1 ∧ dq ∉ p.2)
    (hclose : ∀ p ∈ metadata, ¬ closers <:+: p.1 ∧ ¬ closers <:+: p.2) :
    parseMessage (createMessage type data metadata) = some ⟨type, data, metadata⟩ := by
  rw [parseMessage_createMessage_of_guarded type data metadata (escape_no_dq _ htype)
    (fun p hp => ⟨escape_no_dq _ (hmeta p hp).1, escape_no_dq _ (hmeta p hp).2⟩)
    (fun p hp => ⟨escape_no_closers _ (hclose p hp).1, escape_no_closers _ (hclose p hp).2⟩)]
  rw [unescape_escape_id, unescape_escape_id,
    storePairs_sorted metadata [] (by simpa using hmap)
      (fun p _ => ⟨unescape_escape_id _, unescape_escape_id _⟩)]
  rfl

/-- Witness of `parseMessage_createMessage_unquoted`: a type with a backslash, a data
string with quotes, `","metadata"`, `"}` and `}}` in it, and a value with a backslash, a
newline and a tab. -/
theorem parseMessage_createMessage_unquoted_witness :
    StrMapOk [(lit "k", lit "a\\b\n\tc")] ∧
    parseMessage (createMessage (lit "TE\\XT") (lit "x\",\"metadata\":\x7b\"\x7d\x7d\\")
        [(lit "k", lit "a\\b\n\tc")])
      = some ⟨lit "TE\\XT", lit "x\",\"metadata\":\x7b\"\x7d\x7d\\",
          [(lit "k", lit "a\\b\n\tc")]⟩ :=
  ⟨by decide,
   parseMessage_createMessage_unquoted (lit "TE\\XT") (lit "x\",\"metadata\":\x7b\"\x7d\x7d\\")
    [(lit "k", lit "a\\b\n\tc")] (by decide) (by decide) (by decide)
    (by
      intro p hp
      rw [List.mem_singleton.mp hp]
      exact ⟨fun h => absurd ((hasClosers_iff _).mpr h) (by decide),
        fun h => absurd ((hasClosers_iff _).mpr h) (by decide)⟩)⟩

/-! ## Where a received file is stored -/

theorem to_string_nat_no_slash (k : Nat) : '/' ∉ to_string_nat k := by
  intro h
  obtain ⟨d, hd, hc⟩ := natDigits_all_digits (k + 1) k '/' h
  interval_cases d <;> exact absurd hc (by decide)

theorem insertCounter_no_slash (filename : Str) (k : Nat) (h : '/' ∉ filename) :
    '/' ∉ insertCounter filename k := by
  have hu : '/' ∉ lit "_" := by decide
  unfold insertCounter insertText
  cases hs : splitLastDot filename with
  | none =>
    simp only [List.mem_append, not_or]
    exact ⟨⟨h, hu⟩, to_string_nat_no_slash k⟩
  | some ne =>
    obtain ⟨n, e⟩ := ne
    have hf := splitLastDot_append filename n e hs
    rw [hf, List.mem_append, not_or] at h
    simp only [List.mem_append, not_or]
    exact ⟨⟨⟨h.1, hu⟩, to_string_nat_no_slash k⟩, h.2⟩

/-- What the naming rule appends to the stem holds no `/` when the file name holds
none. -/
theorem picksFree_component (fs : FS) (stem filename path : Str) (h : '/' ∉ filename)
    (hp : PicksFree fs stem filename path) :
    ∃ name, path = stem ++ name ∧ '/' ∉ name := by
  rcases hp.2 with rfl | ⟨_, k, _, rfl, _⟩
  · exact ⟨filename, rfl, h⟩
  · exact ⟨_, rfl, insertCounter_no_slash filename k h⟩

theorem to_string_int_no_slash (c : Int) : '/' ∉ to_string_int c := by
  unfold to_string_int
  split
  · intro h
    rcases List.mem_cons.mp h with h | h
    · exact absurd h (by decide)
    · exact to_string_nat_no_slash _ h
  · exact to_string_nat_no_slash _

theorem insertText_no_slash (filename txt : Str) (h : '/' ∉ filename) (ht : '/' ∉ txt) :
    '/' ∉ insertText filename txt := by
  obtain ⟨n, e, hf, hins⟩ := insertText_cases filename txt
  have hu : '/' ∉ lit "_" := by decide
  rw [hf, List.mem_append, not_or] at h
  rw [hins]
  simp only [List.mem_append, not_or]
  exact ⟨⟨⟨h.1, hu⟩, ht⟩, h.2⟩

/-- Whatever the naming loop ends on is the path it was entered with or a numbered path
it has formed. -/
theorem resolveLoop_shape (fs : FS) (stem filename : Str) :
    ∀ (fuel : Nat) (counter : Int) (p path : Str),
      resolveLoop fs stem filename fuel counter p = some path →
      path = p ∨ ∃ c : Int, path = stem ++ insertText filename (to_string_int c)
  | 0, _, _, _, h => by simp [resolveLoop] at h
  | fuel + 1, counter, p, path, h => by
    rw [resolveLoop] at h
    by_cases hex : fsExists fs p = true
    · simp only [hex, if_true, numberedName_text] at h
      rcases resolveLoop_shape fs stem filename fuel _ _ path h with h1 | h1
      · exact Or.inr ⟨counter, h1⟩
      · exact Or.inr h1
    · simp only [hex, Bool.false_eq_true, if_false, Option.some.injEq] at h
      exact Or.inl h.symm

/-- The path the naming loop ends on, for a file name without `/`: the stem and one
text without `/`. -/
theorem resolvePath_component (fs : FS) (stem filename path : Str) (h : '/' ∉ filename)
    (hres : resolvePath fs stem filename = some path) :
    ∃ name, path = stem ++ name ∧ '/' ∉ name := by
  rcases resolveLoop_shape fs stem filename _ _ _ path hres with h1 | ⟨c, h1⟩
  · exact ⟨filename, h1, h⟩
  · exact ⟨_, h1, insertText_no_slash filename _ h (to_string_int_no_slash c)⟩

/-- C25 (amended): for every announced file name that can be stored (on the client the
file name, on the server the user name, `_` and the file name: one path component
without `/` and without NUL byte, not empty, not `.` or `..`, of at most 244 bytes),
fewer than 2^31 - 2 files being present, the receive side opens a session, and the
path at which it stores the file lies inside its fixed directory: it is
`./files/downloads` on the client, `./files/received` on the server, then `/`, then one
file-name component without a `/`. For every file name without `/` (on the server, the
user name without `/` as well), whenever a session is opened its path is of that
form. -/
theorem stored_path_confined (fs : FS) (filename : Str) (hsmall : fs.length + 2 < 2 ^ 31) :
    (StorableName filename →
      ∀ (cur : Option FileReceive) (file_size : Nat) (sender : Str), ∃ st1 session,
      startFileReception ⟨cur, fs⟩ filename file_size sender = some st1 ∧
      st1.current_file = some session ∧
      Confined (lit "./files/downloads") session.filepath) ∧
    (∀ (st : Server) (client_socket : Int) (file_size : Nat) (username : Str),
      st.fs = fs → StorableName (username ++ lit "_" ++ filename) →
      ∃ st1 session,
        prepareFileReception st client_socket filename file_size username = some st1 ∧
        mapFind intLt client_socket st1.file_transfers = some session ∧
        Confined (lit "./files/received") session.filepath) ∧
    ('/' ∉ filename →
      ∀ (st : Client) (file_size : Nat) (sender : Str) (st1 : Client) (session : FileReceive),
      startFileReception st filename file_size sender = some st1 →
      st1.current_file = some session →
      Confined (lit "./files/downloads") session.filepath) ∧
    ('/' ∉ filename →
      ∀ (st : Server) (client_socket : Int) (file_size : Nat) (username : Str)
        (st1 : Server) (session : FileTransfer), '/' ∉ username →
      prepareFileReception st client_socket filename file_size username = some st1 →
      mapFind intLt client_socket st1.file_transfers = some session →
      Confined (lit "./files/received") session.filepath) := by
  refine ⟨?_, ?_, ?_, ?_⟩
  rotate_left 2
  · intro hname st file_size sender st1 session hstart hcur
    cases hres : resolvePath st.fs (lit "./files/downloads" ++ lit "/") filename with
    | none =>
      rw [startFileReception, hres] at hstart
      exact Option.noConfusion hstart
    | some path =>
      obtain ⟨name, hpath, hno⟩ := resolvePath_component _ _ _ _ hname hres
      simp only [startFileReception, hres, Option.some.injEq] at hstart
      subst hstart
      simp only [Option.some.injEq] at hcur
      subst hcur
      exact ⟨name, hpath, hno⟩
  · intro hname st client_socket file_size username st1 session huser hprep hfind
    cases hres : resolvePath st.fs (lit "./files/received" ++ lit "/" ++ (username ++ lit "_"))
        filename with
    | none =>
      rw [prepareFileReception, hres] at hprep
      exact Option.noConfusion hprep
    | some path =>
      obtain ⟨name, hpath, hno⟩ := resolvePath_component _ _ _ _ hname hres
      simp only [prepareFileReception, hres, Option.some.injEq] at hprep
      subst hprep
      rw [mapFind_mapSet_same] at hfind
      simp only [Option.some.injEq] at hfind
      subst hfind
      refine ⟨username ++ lit "_" ++ name, ?_, ?_⟩
      · show path = _
        rw [hpath]; simp only [List.append_assoc]
      · have hu : '/' ∉ lit "_" := by decide
        simp only [List.mem_append, not_or]
        exact ⟨⟨huser, hu⟩, hno⟩
  · intro hstore cur file_size sender
    have hname : '/' ∉ filename := hstore.1.2.1
    obtain ⟨path, hres, hpick, _⟩ :=
      resolvePath_picksFree fs (lit "./files/downloads" ++ lit "/") filename hsmall
        (slots_downloads filename hstore)
    obtain ⟨name, hpath, hno⟩ := picksFree_component _ _ _ _ hname hpick
    refine ⟨⟨some ⟨filename, path, file_size, 0, sender,
      (OFStream.closed.openOn fs path).1, 0⟩, (OFStream.closed.openOn fs path).2⟩, _,
      by simp only [startFileReception, hres], rfl, name, hpath, hno⟩
  · intro st client_socket file_size username hfs hstore
    subst hfs
    have hsl : '/' ∉ username ++ lit "_" ++ filename := hstore.1.2.1
    simp only [List.mem_append, not_or] at hsl
    have huser : '/' ∉ username := hsl.1.1
    have hname : '/' ∉ filename := hsl.2
    obtain ⟨st1, t, hprep, hfind, _, _, _, _, _, hfree, _⟩ :=
      prepareFileReception_fresh st client_socket filename file_size username hsmall hstore
    obtain ⟨path, hres, hpick, _⟩ := resolvePath_picksFree st.fs
      (lit "./files/received" ++ lit "/" ++ (username ++ lit "_")) filename hsmall
      (slots_received username filename hstore)
    obtain ⟨name, hpath, hno⟩ := picksFree_component _ _ _ _ hname hpick
    have htp : t.filepath = path := by
      have h2 : prepareFileReception st client_socket filename file_size username
          = some st1 := hprep
      simp only [prepareFileReception, hres, Option.some.injEq] at h2
      subst h2
      rw [mapFind_mapSet_same] at hfind
      simp only [Option.some.injEq] at hfind
      rw [← hfind]
    refine ⟨st1, t, hprep, hfind, username ++ lit "_" ++ name, ?_, ?_⟩
    · rw [htp, hpath]; simp only [List.append_assoc]
    · have hu : '/' ∉ lit "_" := by decide
      simp only [List.mem_append, not_or]
      exact ⟨⟨huser, hu⟩, hno⟩

/-- Witness of `stored_path_confined`: `notes.txt` announced to a client and, by
`alice`, to the server, with no file on disk. -/
theorem stored_path_confined_witness :
    (∃ st1 session,
      startFileReception ⟨none, []⟩ (lit "notes.txt") 3 (lit "alice") = some st1 ∧
      st1.current_file = some session ∧
      Confined (lit "./files/downloads") session.filepath) ∧
    (∃ st1 session,
      prepareFileReception sampleServer 4 (lit "notes.txt") 3 (lit "alice") = some st1 ∧
      mapFind intLt 4 st1.file_transfers = some session ∧
      Confined (lit "./files/received") session.filepath) :=
  ⟨(stored_path_confined [] (lit "notes.txt") (by decide)).1 (by decide) none 3 (lit "alice"),
   (stored_path_confined [] (lit "notes.txt") (by decide)).2.1 sampleServer 4 3
     (lit "alice") rfl (by decide)⟩

theorem not_confined_of_slash (dir name : Str) (h : '/' ∈ name) :
    ¬ Confined dir (dir ++ lit "/" ++ name) := by
  rintro ⟨component, hp, hno⟩
  have : name = component := List.append_cancel_left hp
  exact hno (this ▸ h)

/-- C25 fails as stated: the file name of the `FILE` envelope is used as it is. A
client with no file on disk that receives a `FILE` envelope announcing `../../x` forms
the path `./files/downloads/../../x` and opens the file there: it is created as `./x`,
in the working directory. The server forms for what `alice` announces as `../x` the
path `./files/received/alice_../x`. In neither path is what follows the directory one
component without a `/`. -/
theorem announced_name_with_slash_leaves_directory :
    ((processReceivedMessage ⟨none, []⟩
        ⟨MessageType.FILE, [], [(lit "filename", lit "../../x")]⟩).bind
      (fun st1 => st1.current_file.map FileReceive.filepath)
        = some (lit "./files/downloads" ++ lit "/" ++ lit "../../x")) ∧
    ¬ Confined (lit "./files/downloads") (lit "./files/downloads" ++ lit "/" ++ lit "../../x") ∧
    ((processMessage netUp sampleServer 4
        ⟨MessageType.FILE, [], [(lit "filename", lit "../x")]⟩ (lit "alice")).bind
      (fun st1 => (mapFind intLt 4 st1.file_transfers).map FileTransfer.filepath)
        = some (lit "./files/received" ++ lit "/" ++ lit "alice_../x")) ∧
    ¬ Confined (lit "./files/received") (lit "./files/received" ++ lit "/" ++ lit "alice_../x") ∧
    (processReceivedMessage ⟨none, []⟩
        ⟨MessageType.FILE, [], [(lit "filename", lit "../../x")]⟩).map Client.fs
      = some [(lit "./x", [])] :=
  ⟨by decide, not_confined_of_slash _ _ (by decide), by decide,
    not_confined_of_slash _ _ (by decide), by decide⟩

/-! ## The size of a `FILE_DATA` frame -/

theorem escape_length_le : ∀ s : Str, (escape s).length ≤ 2 * s.length
  | [] => by simp [escape]
  | c :: cs => by
    have ih := escape_length_le cs
    rw [escape, List.length_append, List.length_cons]
    have : (if c = dq then [bslash, dq]
        else if c = bslash then [bslash, bslash]
        else if c = '\n' then [bslash, 'n']
        else if c = '\r' then [bslash, 'r']
        else if c = '\t' then [bslash, 't']
        else [c]).length ≤ 2 := by
      split_ifs <;> simp
    omega

theorem to_string_nat_length (n : Nat) (h : n < 2 ^ 64) : (to_string_nat n).length ≤ 20 := by
  unfold to_string_nat
  by_cases hs : n + 1 ≤ 20
  · have := natDigits_length_le (n + 1) n []
    simp only [List.length_nil] at this
    omega
  · rw [natDigits_fuel 20 n (n + 1) (by norm_num) (by norm_num at h ⊢; omega) (by omega)]
    have := natDigits_length_le 20 n []
    simpa using this

theorem to_string_int_length (c : Int) (h0 : -2 ^ 31 ≤ c) (h1 : c < 2 ^ 31) :
    (to_string_int c).length ≤ 21 := by
  unfold to_string_int
  split
  · have : c.natAbs < 2 ^ 64 := by omega
    have := to_string_nat_length _ this
    simp only [List.length_cons]; omega
  · have : c.toNat < 2 ^ 64 := by omega
    have := to_string_nat_length _ this
    omega

theorem chunkMetadata_eq (bytes_sent file_size : Nat) (chunk_count : Int) :
    chunkMetadata bytes_sent file_size chunk_count
      = [(lit "bytes_sent", to_string_nat bytes_sent),
         (lit "chunk_index", to_string_int chunk_count),
         (lit "total_size", to_string_nat file_size)] := by
  have h1 : strLt (lit "total_size") (lit "bytes_sent") = false := by decide
  have h2 : strLt (lit "bytes_sent") (lit "total_size") = true := by decide
  have h3 : strLt (lit "chunk_index") (lit "bytes_sent") = false := by decide
  have h4 : strLt (lit "bytes_sent") (lit "chunk_index") = true := by decide
  have h5 : strLt (lit "chunk_index") (lit "total_size") = true := by decide
  simp [chunkMetadata, mapSet, h1, h2, h3, h4, h5]

/-- The length of the envelope text of a chunk: at most twice the length of the data and
a few hundred characters. -/
theorem chunk_body_length (file_size : Nat) (data : Str) (metadata : StrMap)
    (hfs : file_size < 2 ^ 64) (h : SmallChunk file_size data metadata) :
    data.length ≤ 16384 ∧
    (createMessage MessageType.FILE_DATA data metadata).length ≤ 2 * data.length + 300 := by
  obtain ⟨buffer, b, c, hb, hbs, hc0, hc1, rfl, rfl⟩ := h
  have hlen := hexEncode_length buffer
  have e1 := escape_length_le (hexEncode buffer)
  have e2 := escape_length_le (to_string_nat b)
  have e3 := escape_length_le (to_string_int c)
  have e4 := escape_length_le (to_string_nat file_size)
  have l2 := to_string_nat_length b hbs
  have l3 := to_string_int_length c hc0 hc1
  have l4 := to_string_nat_length file_size hfs
  have k0 : (escape MessageType.FILE_DATA).length = 9 := by decide
  have k1 : (escape (lit "bytes_sent")).length = 10 := by decide
  have k2 : (escape (lit "chunk_index")).length = 11 := by decide
  have k3 : (escape (lit "total_size")).length = 10 := by decide
  refine ⟨by omega, ?_⟩
  rw [createMessage_shape, chunkMetadata_eq]
  simp only [List.length_append, metaPairs_length_cons, metaPairs, List.length_nil, k0, k1, k2,
    k3, jsonHead, jsonMid1, jsonMid2, closers, List.length_cons, if_true, Bool.false_eq_true,
    if_false]
  omega

theorem wrapInt32_range (x : Int) : -2 ^ 31 ≤ wrapInt32 x ∧ wrapInt32 x < 2 ^ 31 := by
  unfold wrapInt32
  constructor <;> omega

/-- Every `FILE_DATA` envelope in the record of the client's send loop is a small
chunk. -/
theorem sendFileLoop_small (net : Nat → Bool) (file_size : Nat) :
    ∀ (fuel : Nat) (file : List Nat) (bytes_sent : Nat) (chunk_count : Int)
      (log : List Attempt), bytes_sent < 2 ^ 64 →
      -2 ^ 31 ≤ chunk_count → chunk_count < 2 ^ 31 →
      (∀ a ∈ log, a.1.type = MessageType.FILE_DATA →
        SmallChunk file_size a.1.data a.1.metadata) →
      ∀ a ∈ (sendFileLoop net file_size fuel file bytes_sent chunk_count log).2.2,
        a.1.type = MessageType.FILE_DATA → SmallChunk file_size a.1.data a.1.metadata
  | 0, _, _, _, log, _, _, _, h => by simpa [sendFileLoop] using h
  | fuel + 1, file, bytes_sent, chunk_count, log, hb, hc0, hc1, h => by
    have hnew : ∀ (ok : Bool), ∀ a ∈ log ++ [((⟨MessageType.FILE_DATA, hexEncode (file.take 8192),
        chunkMetadata bytes_sent file_size chunk_count⟩ : ParsedMessage), ok)],
        a.1.type = MessageType.FILE_DATA → SmallChunk file_size a.1.data a.1.metadata := by
      intro ok a ha
      rcases List.mem_append.mp ha with ha | ha
      · exact h a ha
      · rw [List.mem_singleton.mp ha]
        intro _
        exact ⟨file.take 8192, bytes_sent, chunk_count,
          by rw [List.length_take]; exact Nat.min_le_left _ _, hb, hc0, hc1, rfl, rfl⟩
    rw [sendFileLoop]
    split
    · simp only
      split
      · exact h
      · cases hok : net log.length
        · simp only [Bool.false_eq_true, if_false]
          exact hnew false
        · simp only [if_true]
          exact sendFileLoop_small net file_size fuel _ _ _ _ (Nat.mod_lt _ (by norm_num))
            (wrapInt32_range _).1 (wrapInt32_range _).2 (hnew true)
    · exact h

theorem sendFile_small (net : Nat → Bool) (username file_path : Str) (file : List Nat) :
    ∀ a ∈ sendFile net username file_path file, a.1.type = MessageType.FILE_DATA →
      SmallChunk file.length a.1.data a.1.metadata := by
  have hfile : MessageType.FILE ≠ MessageType.FILE_DATA := by decide
  have hcomp : MessageType.FILE_COMPLETE ≠ MessageType.FILE_DATA := by decide
  have h0 : ∀ a ∈ [((⟨MessageType.FILE, [], fileMetadata
      (file_path.drop (afterLastSlash file_path)) file.length username⟩ : ParsedMessage),
      net 0)], a.1.type = MessageType.FILE_DATA →
      SmallChunk file.length a.1.data a.1.metadata := by
    intro a ha ht
    rw [List.mem_singleton.mp ha] at ht
    exact absurd ht hfile
  unfold sendFile
  simp only
  split
  · rename_i hok
    have hl := sendFileLoop_small net file.length (file.length + 1) file 0 0 _
      (by norm_num) (by norm_num) (by norm_num) h0
    split
    · intro a ha ht
      rcases List.mem_append.mp ha with ha | ha
      · exact hl a ha ht
      · rw [List.mem_singleton.mp ha] at ht
        exact absurd ht hcomp
    · exact hl
  · exact h0

/-- Every `FILE_DATA` envelope the loop of `sendFileToUser` adds to the record of sends
is a small chunk. -/
theorem sendFileToUserLoop_small (net : Nat → Bool) (u : Str) (file_size : Nat)
    (base : List Sent) :
    ∀ (fuel : Nat) (file : List Nat) (bytes_sent : Nat) (chunk_count : Int) (st : Server)
      (l : List Sent), bytes_sent < 2 ^ 64 → -2 ^ 31 ≤ chunk_count → chunk_count < 2 ^ 31 →
      st.sent = base ++ l →
      (∀ x ∈ l, x.type = MessageType.FILE_DATA → SmallChunk file_size x.data x.metadata) →
      ∃ l', (sendFileToUserLoop net u file_size fuel file bytes_sent chunk_count st).2.2.sent
          = base ++ l' ∧
        ∀ x ∈ l', x.type = MessageType.FILE_DATA → SmallChunk file_size x.data x.metadata
  | 0, _, _, _, st, l, _, _, _, hs, h => ⟨l, by simpa [sendFileToUserLoop] using hs, h⟩
  | fuel + 1, file, bytes_sent, chunk_count, st, l, hb, hc0, hc1, hs, h => by
    rw [sendFileToUserLoop]
    split
    · simp only
      split
      · exact ⟨l, hs, h⟩
      · obtain ⟨_, hsent⟩ := sendToUser_sent net st u MessageType.FILE_DATA
          (hexEncode (file.take 8192)) (chunkMetadata bytes_sent file_size chunk_count)
        have hstep : ∃ l1, (sendToUser net st u MessageType.FILE_DATA
            (hexEncode (file.take 8192))
            (chunkMetadata bytes_sent file_size chunk_count)).2.sent = base ++ l1 ∧
            ∀ x ∈ l1, x.type = MessageType.FILE_DATA →
              SmallChunk file_size x.data x.metadata := by
          rcases hsent with ⟨_, hsame⟩ | ⟨s, hadd⟩
          · exact ⟨l, by rw [hsame, hs], h⟩
          · refine ⟨l ++ [⟨s, _, _, _, _⟩], by rw [hadd, hs, List.append_assoc], ?_⟩
            intro x hx
            rcases List.mem_append.mp hx with hx | hx
            · exact h x hx
            · rw [List.mem_singleton.mp hx]
              intro _
              exact ⟨file.take 8192, bytes_sent, chunk_count,
                by rw [List.length_take]; exact Nat.min_le_left _ _, hb, hc0, hc1, rfl, rfl⟩
        obtain ⟨l1, hl1, hP1⟩ := hstep
        split
        · exact sendFileToUserLoop_small net u file_size base fuel _ _ _ _ l1
            (Nat.mod_lt _ (by norm_num)) (wrapInt32_range _).1 (wrapInt32_range _).2 hl1 hP1
        · exact ⟨l1, hl1, hP1⟩
    · exact ⟨l, hs, h⟩

theorem sendFileToUser_small (net : Nat → Bool) (st : Server) (u file_path : Str)
    (file : List Nat) :
    ∀ x ∈ newSends st (sendFileToUser net st u file_path file),
      x.type = MessageType.FILE_DATA → SmallChunk file.length x.data x.metadata := by
  have hfile : MessageType.FILE ≠ MessageType.FILE_DATA := by decide
  have hcomp : MessageType.FILE_COMPLETE ≠ MessageType.FILE_DATA := by decide
  have add : ∀ (s0 s1 : Server) (t d : Str) (m : StrMap) (l : List Sent),
      t ≠ MessageType.FILE_DATA → s0.sent = st.sent ++ l →
      (∀ x ∈ l, x.type = MessageType.FILE_DATA → SmallChunk file.length x.data x.metadata) →
      s1 = (sendToUser net s0 u t d m).2 →
      ∃ l', s1.sent = st.sent ++ l' ∧
        ∀ x ∈ l', x.type = MessageType.FILE_DATA →
          SmallChunk file.length x.data x.metadata := by
    intro s0 s1 t d m l ht hs h e
    obtain ⟨_, hsent⟩ := sendToUser_sent net s0 u t d m
    rw [← e] at hsent
    rcases hsent with ⟨_, hsame⟩ | ⟨s, hadd⟩
    · exact ⟨l, by rw [hsame, hs], h⟩
    · refine ⟨l ++ [⟨s, _, _, _, _⟩], by rw [hadd, hs, List.append_assoc], ?_⟩
      intro x hx
      rcases List.mem_append.mp hx with hx | hx
      · exact h x hx
      · rw [List.mem_singleton.mp hx]
        intro hx'
        exact absurd hx' ht
  have key : ∃ l', (sendFileToUser net st u file_path file).sent = st.sent ++ l' ∧
      ∀ x ∈ l', x.type = MessageType.FILE_DATA →
        SmallChunk file.length x.data x.metadata := by
    obtain ⟨l0, hl0, hP0⟩ := add st _ MessageType.FILE []
      (fileMetadata (file_path.drop (afterLastSlash file_path)) file.length (lit "服务器")) []
      hfile (by simp) (by simp) rfl
    unfold sendFileToUser
    simp only
    split
    · obtain ⟨l1, hl1, hP1⟩ := sendFileToUserLoop_small net u file.length st.sent
        (file.length + 1) file 0 0 _ l0 (by norm_num) (by norm_num) (by norm_num) hl0 hP0
      split
      · exact add _ _ MessageType.FILE_COMPLETE [] _ l1 hcomp hl1 hP1 rfl
      · exact ⟨l1, hl1, hP1⟩
    · exact ⟨l0, hl0, hP0⟩
  obtain ⟨l', hl', hP⟩ := key
  have : newSends st (sendFileToUser net st u file_path file) = l' := by
    simp only [newSends, hl', List.drop_left]
  rw [this]
  exact hP

/-- Every `FILE_DATA` envelope the loop of `sendFileToAll` adds to the record of sends
is a small chunk. -/
theorem sendFileToAllLoop_small (net : Nat → Bool) (file_size : Nat) (base : List Sent) :
    ∀ (fuel : Nat) (file : List Nat) (bytes_sent : Nat) (chunk_count : Int) (st : Server)
      (l : List Sent), bytes_sent < 2 ^ 64 → -2 ^ 31 ≤ chunk_count → chunk_count < 2 ^ 31 →
      st.sent = base ++ l →
      (∀ x ∈ l, x.type = MessageType.FILE_DATA → SmallChunk file_size x.data x.metadata) →
      ∃ l', (sendFileToAllLoop net file_size fuel file bytes_sent chunk_count st).2.sent
          = base ++ l' ∧
        ∀ x ∈ l', x.type = MessageType.FILE_DATA → SmallChunk file_size x.data x.metadata
  | 0, _, _, _, st, l, _, _, _, hs, h => ⟨l, by simpa [sendFileToAllLoop] using hs, h⟩
  | fuel + 1, file, bytes_sent, chunk_count, st, l, hb, hc0, hc1, hs, h => by
    rw [sendFileToAllLoop]
    split
    · simp only
      split
      · exact ⟨l, hs, h⟩
      · refine sendFileToAllLoop_small net file_size base fuel _ _ _ _
          (l ++ attempts net MessageType.FILE_DATA (hexEncode (file.take 8192))
            (chunkMetadata bytes_sent file_size chunk_count) st.sent.length
            (recipients st.clients (-1)))
          (Nat.mod_lt _ (by norm_num)) (wrapInt32_range _).1 (wrapInt32_range _).2
          (by rw [broadcastMessage_sent, hs, List.append_assoc]) ?_
        intro x hx
        rcases List.mem_append.mp hx with hx | hx
        · exact h x hx
        · obtain ⟨_, hd, hm⟩ := attempts_envelope _ _ _ _ _ _ x hx
          intro _
          exact ⟨file.take 8192, bytes_sent, chunk_count,
            by rw [List.length_take]; exact Nat.min_le_left _ _, hb, hc0, hc1, hd, hm⟩
    · exact ⟨l, hs, h⟩

theorem sendFileToAll_small (net : Nat → Bool) (st : Server) (file_path : Str)
    (file : List Nat) :
    ∀ x ∈ newSends st (sendFileToAll net st file_path file),
      x.type = MessageType.FILE_DATA → SmallChunk file.length x.data x.metadata := by
  have hfile : MessageType.FILE ≠ MessageType.FILE_DATA := by decide
  have hcomp : MessageType.FILE_COMPLETE ≠ MessageType.FILE_DATA := by decide
  have add : ∀ (s0 : Server) (t d : Str) (m : StrMap) (l : List Sent),
      t ≠ MessageType.FILE_DATA → s0.sent = st.sent ++ l →
      (∀ x ∈ l, x.type = MessageType.FILE_DATA → SmallChunk file.length x.data x.metadata) →
      ∃ l', (broadcastMessage net s0 t d m (-1)).sent = st.sent ++ l' ∧
        ∀ x ∈ l', x.type = MessageType.FILE_DATA →
          SmallChunk file.length x.data x.metadata := by
    intro s0 t d m l ht hs h
    refine ⟨l ++ attempts net t d m s0.sent.length (recipients s0.clients (-1)),
      by rw [broadcastMessage_sent, hs, List.append_assoc], ?_⟩
    intro x hx
    rcases List.mem_append.mp hx with hx | hx
    · exact h x hx
    · intro hx'
      rw [(attempts_envelope _ _ _ _ _ _ x hx).1] at hx'
      exact absurd hx' ht
  have key : ∃ l', (sendFileToAll net st file_path file).sent = st.sent ++ l' ∧
      ∀ x ∈ l', x.type = MessageType.FILE_DATA →
        SmallChunk file.length x.data x.metadata := by
    obtain ⟨l0, hl0, hP0⟩ := add st MessageType.FILE []
      (fileMetadata (file_path.drop (afterLastSlash file_path)) file.length (lit "服务器")) []
      hfile (by simp) (by simp)
    obtain ⟨l1, hl1, hP1⟩ := sendFileToAllLoop_small net file.length st.sent
      (file.length + 1) file 0 0 _ l0 (by norm_num) (by norm_num) (by norm_num) hl0 hP0
    exact add _ MessageType.FILE_COMPLETE [] _ l1 hcomp hl1 hP1
  obtain ⟨l', hl', hP⟩ := key
  have : newSends st (sendFileToAll net st file_path file) = l' := by
    simp only [newSends, hl', List.drop_left]
  rw [this]
  exact hP

theorem fitsFrame_of_small (file_size : Nat) (data : Str) (metadata : StrMap)
    (hfs : file_size < 2 ^ 64) (h : SmallChunk file_size data metadata) :
    FitsFrame data metadata := by
  obtain ⟨h1, h2⟩ := chunk_body_length file_size data metadata hfs h
  obtain ⟨buffer, _, _, hb, _, _, _, hd, _⟩ := h
  exact ⟨⟨buffer, hb, hd⟩, h1, by omega, fun rest => readFrame_frameBytes _ rest (by omega)⟩

/-- C30: for a file of fewer than 2^64 bytes, every `FILE_DATA` envelope written by the
client's `sendFile`, by the server's `sendFileToUser` and by the server's `sendFileToAll`
carries the hexadecimal text of at most 8192 file bytes, so a data field of at most 16384
characters; its encoded body is shorter than 1,048,576 bytes, and the receiver's frame
read returns that body instead of rejecting it on the size check. -/
theorem file_data_frame_below_ceiling (file : List Nat) (hsize : file.length < 2 ^ 64) :
    (∀ (net : Nat → Bool) (username file_path : Str),
      ∀ a ∈ sendFile net username file_path file, a.1.type = MessageType.FILE_DATA →
        FitsFrame a.1.data a.1.metadata) ∧
    (∀ (net : Nat → Bool) (st : Server) (username file_path : Str),
      ∀ x ∈ newSends st (sendFileToUser net st username file_path file),
        x.type = MessageType.FILE_DATA → FitsFrame x.data x.metadata) ∧
    (∀ (net : Nat → Bool) (st : Server) (file_path : Str),
      ∀ x ∈ newSends st (sendFileToAll net st file_path file),
        x.type = MessageType.FILE_DATA → FitsFrame x.data x.metadata) :=
  ⟨fun net username file_path a ha ht =>
      fitsFrame_of_small file.length _ _ hsize (sendFile_small net username file_path file a ha ht),
   fun net st username file_path x hx ht =>
      fitsFrame_of_small file.length _ _ hsize
        (sendFileToUser_small net st username file_path file x hx ht),
   fun net st file_path x hx ht =>
      fitsFrame_of_small file.length _ _ hsize
        (sendFileToAll_small net st file_path file x hx ht)⟩

/-- Witness of `file_data_frame_below_ceiling`: the one chunk of a file of three bytes,
as the client writes it and as the server writes it to `bob`. -/
theorem file_data_frame_below_ceiling_witness :
    [1, 2, 3].length < 2 ^ 64 ∧
    FitsFrame (lit "010203") (chunkMetadata 0 3 0) ∧
    (⟨5, MessageType.FILE_DATA, lit "010203", chunkMetadata 0 3 0, true⟩ : Sent)
      ∈ newSends sampleServer (sendFileToUser (fun _ => true) sampleServer (lit "bob")
          (lit "/tmp/a.bin") [1, 2, 3]) :=
  ⟨by decide,
   (file_data_frame_below_ceiling [1, 2, 3] (by decide)).1 (fun _ => true) (lit "bob")
      (lit "/tmp/a.bin") (⟨MessageType.FILE_DATA, lit "010203", chunkMetadata 0 3 0⟩, true)
      (by decide) rfl,
   by decide⟩
end MyWeb
